import Mathlib

/-!
The encrypted store engine of simple-pass.

A shallow embedding of `pkg/crypt/crypt.go`, `internal/store/store.go`,
`internal/item/item.go` and `internal/db/db.go`, followed by theorems about the
embedded functions.

Conventions of the embedding

* A Go `[]byte` and a Go `string` are lists of bytes; the `nil` slice is the
  empty list (Go's `len(nil) = 0`), except where the source tests `== nil`,
  where an `Option` is used.
* A Go function returning `(T, error)` returns a pair whose second component is
  `none` for a `nil` error.
* A run-time panic that leaves the function is the outcome `Outcome.panicked`.
* Library code that is not part of the repository (scrypt, AES-GCM, the JSON
  encoder, the operating system) is a parameter of the functions that call it.
-/

namespace SimplePass

abbrev Byte := Fin 256
abbrev Bytes := List Byte
abbrev GoString := Bytes

/-- Every `error` value the embedded packages produce, plus `external n` for an
error that originates in a library or in the operating system. -/
inductive Err where
  -- pkg/crypt
  | ErrInvalidPassword
  | ErrEmptyInputText
  | ErrSecretKeyInsufficientLength
  | ErrCannotDecrypt
  -- internal/store
  | ErrSourceNotDefinedOnLoad
  | ErrLocalFileDoesNotExist
  | ErrStoreDataAlreadyLoaded
  | ErrStoreDataIsEmpty
  | ErrStoreDataUnserialisable
  | ErrStoreDataKeyDoesNotExist
  | ErrStoreDataKeyAlreadyExists
  | ErrStoreNameEmpty
  | ErrNoChangeToStoreDataKeyValueMade
  | ErrInvalidStoreDataKey
  -- internal/db
  | ErrFileAlreadyExists
  | ErrDBNameMismatch
  | ErrInvalidItem
  | ErrItemDoesNotExist
  | ErrNilItem
  | ErrItemUnchanged
  | ErrCannotRenameToExistingItemName
  | ErrItemNameAlreadyInUse
  -- internal/item
  | ErrNoItemNameSupplied
  | ErrInsufficientInformation
  -- libraries and operating system
  | aesKeySize
  | unexpectedEOF
  | external (code : Nat)
  deriving DecidableEq, Repr

/-- How a Go call ends: it returns a value, or a panic unwinds out of it. -/
inductive Outcome (α : Type) where
  | returned (a : α)
  | panicked
  deriving DecidableEq, Repr

/-! ## pkg/crypt -/

namespace crypt

def minKeyLength : Nat := 32
def minPasswordLength : Nat := 5

/-- Length of the salt buffer `make([]byte, 32)` in `deriveKey`, and of the
trailing slice `decrypt` cuts off. -/
def saltSize : Nat := 32

/-- Value of `gcm.NonceSize()` for the cipher built by `cipher.NewGCM`. -/
def gcmNonceSize : Nat := 12

/-- Value of `gcm.Overhead()`: the length of the authentication tag. -/
def gcmTagSize : Nat := 16

/-- What `gcm.Open` does: it returns the plaintext, returns an error, or panics. -/
inductive OpenResult where
  | plain (text : Bytes)
  | authFailed
  | faulted
  deriving DecidableEq, Repr

/-- The library primitives `crypt.go` calls.
* `scryptKey password salt` is `scrypt.Key(password, salt, 32768, 8, 1, 32)`;
* `gcmSeal key nonce text` is the `ciphertext ∥ tag` that `Seal` appends to its
  destination, for the GCM built over `aes.NewCipher(key)`;
* `gcmOpen key nonce cipherText` is `gcm.Open(nil, nonce, cipherText, nil)`. -/
structure Primitives where
  scryptKey : Bytes → Bytes → Except Err Bytes
  gcmSeal : Bytes → Bytes → Bytes → Bytes
  gcmOpen : Bytes → Bytes → Bytes → OpenResult

/-- The properties of scrypt and AES-GCM that hold for every input: the derived
key has the 32 bytes that were asked for, sealing adds the tag, and opening
what was sealed under the same key and nonce gives the text back. -/
structure Primitives.Lawful (P : Primitives) : Prop where
  key_len : ∀ password salt, ∃ key, P.scryptKey password salt = .ok key ∧ key.length = 32
  seal_len : ∀ key nonce text, key.length = 32 → nonce.length = gcmNonceSize →
    (P.gcmSeal key nonce text).length = text.length + gcmTagSize
  open_seal : ∀ key nonce text, key.length = 32 → nonce.length = gcmNonceSize →
    P.gcmOpen key nonce (P.gcmSeal key nonce text) = .plain text

/-- An AEAD notices a changed byte: opening a sealed text in which one byte was
replaced by another value is refused with an error. -/
def Primitives.DetectsByteFlip (P : Primitives) : Prop :=
  ∀ (key nonce text : Bytes) (i : Nat) (b : Byte), key.length = 32 → nonce.length = gcmNonceSize →
    i < (P.gcmSeal key nonce text).length → (P.gcmSeal key nonce text)[i]? ≠ some b →
    P.gcmOpen key nonce ((P.gcmSeal key nonce text).set i b) = .authFailed

/-- With a nonce of `NonceSize()` bytes and a `nil` destination, `gcm.Open` does
not panic: its panics are for a nonce of another length and for a destination
that overlaps the input. -/
def Primitives.OpenTakesNonce (P : Primitives) : Prop :=
  ∀ key nonce cipherText : Bytes, nonce.length = gcmNonceSize →
    P.gcmOpen key nonce cipherText ≠ .faulted

/-- The call `io.ReadFull(rand.Reader, buf)` with `len(buf) = n`, where `rng` is
the sequence of bytes the reader still has to give: the buffer is filled and the
reader advances, or the read fails. `rand.Read(buf)` is the same call. -/
def readFull (rng : Bytes) (n : Nat) : Except Err (Bytes × Bytes) :=
  if rng.length < n then .error .unexpectedEOF else .ok (rng.take n, rng.drop n)

/-- The function `deriveKey`: returns `(key, salt)` and the advanced random reader. -/
def deriveKey (P : Primitives) (rng : Bytes) (password : Bytes) (salt : Option Bytes) :
    Except Err (Bytes × Bytes × Bytes) :=
  let drawn : Except Err (Bytes × Bytes) :=
    match salt with
    | none => readFull rng saltSize
    | some s => .ok (s, rng)
  match drawn with
  | .error e => .error e
  | .ok (salt, rng) =>
    match P.scryptKey password salt with
    | .error e => .error e
    | .ok key => .ok (key, salt, rng)

def isValidPassword (password : Bytes) : Bool :=
  decide (password.length ≥ minPasswordLength)

def validCryptInputs (text password : Bytes) : Option Err :=
  if !isValidPassword password then some .ErrInvalidPassword
  else if text.length = 0 then some .ErrEmptyInputText
  else none

/-- The call `aes.NewCipher(key)`: the key must have 16, 24 or 32 bytes. -/
def aesNewCipher (key : Bytes) : Option Err :=
  if key.length = 16 ∨ key.length = 24 ∨ key.length = 32 then none else some .aesKeySize

/-- The function `encrypt`. `cipher.NewGCM` over an AES block cannot fail. -/
def encrypt (P : Primitives) (rng : Bytes) (text password : Bytes) : Bytes × Option Err :=
  match deriveKey P rng password none with
  | .error e => ([], some e)
  | .ok (secretKey, salt, rng) =>
    if secretKey.length < 32 then ([], some .ErrSecretKeyInsufficientLength)
    else
      match aesNewCipher secretKey with
      | some e => ([], some e)
      | none =>
        match readFull rng gcmNonceSize with
        | .error e => ([], some e)
        | .ok (nonce, _) =>
          let cipherText := nonce ++ P.gcmSeal secretKey nonce text
          let cipherText := cipherText ++ salt
          (cipherText, none)

/-- The function `decrypt`. The two slice expressions come before the `defer`, so
a panic in them leaves the function. A panic in `gcm.Open` is recovered by the
deferred function, whose own return values Go discards: `decrypt` has unnamed
results, so it then returns their zero values `(nil, nil)`.

In `encryptedData[:gcm.NonceSize()]` the upper bound is checked against the
capacity, in `encryptedData[gcm.NonceSize():]` against the length, so the second
expression is the one that panics on a remainder shorter than the nonce. -/
def decrypt (P : Primitives) (encryptedData password : Bytes) : Outcome (Bytes × Option Err) :=
  if encryptedData.length < 32 then .panicked
  else
    let salt := encryptedData.drop (encryptedData.length - 32)
    let encryptedData := encryptedData.take (encryptedData.length - 32)
    match deriveKey P [] password (some salt) with
    | .error e => .returned ([], some e)
    | .ok (secretKey, _, _) =>
      if secretKey.length < 32 then .returned ([], some .ErrSecretKeyInsufficientLength)
      else
        match aesNewCipher secretKey with
        | some e => .returned ([], some e)
        | none =>
          if encryptedData.length < gcmNonceSize then .panicked
          else
            let nonce := encryptedData.take gcmNonceSize
            let cipherText := encryptedData.drop gcmNonceSize
            match P.gcmOpen secretKey nonce cipherText with
            | .faulted => .returned ([], none)
            | .authFailed => .returned ([], some .ErrCannotDecrypt)
            | .plain plaintext => .returned (plaintext, none)

/-- The function `Encrypt`. -/
def Encrypt (P : Primitives) (rng : Bytes) (text password : Bytes) : Bytes × Option Err :=
  match validCryptInputs text password with
  | some err => ([], some err)
  | none => encrypt P rng text password

/-- The function `Decrypt`. -/
def Decrypt (P : Primitives) (text password : Bytes) : Outcome (Bytes × Option Err) :=
  match validCryptInputs text password with
  | some err => .returned ([], some err)
  | none => decrypt P text password

/-- The salt `encrypt` draws from the reader. -/
def drawnSalt (rng : Bytes) : Bytes := rng.take saltSize

/-- The nonce `encrypt` draws from the reader, after the salt. -/
def drawnNonce (rng : Bytes) : Bytes := (rng.drop saltSize).take gcmNonceSize

end crypt

/-! ## internal/store -/

namespace store

/-- The struct `Source`; `LocationType` is `LocalFile = 0` or `RemoteFile = 1`. -/
structure Source where
  Location : GoString
  LocationType : Nat
  deriving DecidableEq, Repr

/-- The struct `storeData`. A Go map is a list of key/value pairs with distinct
keys; `none` is the `nil` map. -/
structure StoreData where
  Name : GoString
  Version : Int
  Data : Option (List (GoString × GoString))
  Password : GoString
  deriving DecidableEq, Repr

/-- The struct `Store`; the pointer `storeData` is the record it points to. -/
structure Store where
  Source : Option Source
  storeData : StoreData
  password : GoString
  deriving DecidableEq, Repr

/-- The calls `json.Marshal(storeData)` and `json.Unmarshal(bytes, &storeData)`. -/
structure StoreCodec where
  marshal : StoreData → Except Err Bytes
  unmarshal : Bytes → Except Err StoreData

/-- The function `Load`; `source` is what `io.ReadAll(r)` returns. A panic in
`crypt.Decrypt` unwinds through `Load`, which has no `recover`. -/
def Load (P : crypt.Primitives) (C : StoreCodec) (source : Except Err Bytes) (password : GoString) :
    Outcome (Option Store × Option Err) :=
  match source with
  | .error err => .returned (none, some err)
  | .ok sourceRetrieved =>
    match crypt.Decrypt P sourceRetrieved password with
    | .panicked => .panicked
    | .returned (_, some err) => .returned (none, some err)
    | .returned (decrypted, none) =>
      match C.unmarshal decrypted with
      | .error err => .returned (none, some err)
      | .ok storeData =>
        .returned (some { Source := none, storeData := storeData, password := password }, none)

/-- The method `store.Save`. The `io.Writer` is a function `w` that acts on the
state `σ` of whatever is written to and reports the error of `Write`. -/
def Save {σ : Type} (P : crypt.Primitives) (C : StoreCodec) (rng : Bytes) (store : Store)
    (w : Bytes → σ → Option Err × σ) (st : σ) : Option Err × σ :=
  match C.marshal store.storeData with
  | .error err => (some err, st)
  | .ok storeData =>
    match crypt.Encrypt P rng storeData store.password with
    | (_, some err) => (some err, st)
    | (encrypted, none) => w encrypted st

end store

/-! ## The file system seen by internal/db -/

namespace os

/-- The regular files that exist, by path, with their contents. -/
abbrev FS := GoString → Option Bytes

def FS.put (fs : FS) (path : GoString) (content : Bytes) : FS :=
  fun q => if q = path then some content else fs q

def FS.remove (fs : FS) (path : GoString) : FS :=
  fun q => if q = path then none else fs q

/-- Which system calls of one run fail, and with what error (`none`: the call
does what it is asked to). -/
structure Faults where
  create : Option Err
  write : Option Err
  close : Option Err
  rename : Option Err
  deriving DecidableEq, Repr

/-- No system call fails. -/
def Faults.clean : Faults := ⟨.none, .none, .none, .none⟩

/-- The call `os.Create(path)`: the file is created, or truncated if it exists. -/
def create (flt : Faults) (path : GoString) (fs : FS) : Option Err × FS :=
  match flt.create with
  | some e => (some e, fs)
  | .none => (.none, fs.put path [])

/-- The call `fh.Write(data)` on the file opened at `path`: the bytes are
appended, or the write fails and writes nothing. -/
def write (flt : Faults) (path : GoString) (data : Bytes) (fs : FS) : Option Err × FS :=
  match flt.write with
  | some e => (some e, fs)
  | .none => (.none, fs.put path ((fs path).getD [] ++ data))

/-- The call `fh.Close()`. -/
def close (flt : Faults) : Option Err := flt.close

/-- The call `os.Rename(oldpath, newpath)`: `newpath` is replaced in one step and
`oldpath` disappears, or the call fails and changes nothing. -/
def rename (flt : Faults) (oldpath newpath : GoString) (fs : FS) : Option Err × FS :=
  match flt.rename with
  | some e => (some e, fs)
  | .none =>
    match fs oldpath with
    | .none => (some (.external 2), fs)
    | some content => (.none, (fs.remove oldpath).put newpath content)

end os

/-! ## internal/db -/

namespace db

/-- The struct `PassDB`. -/
structure PassDB where
  store : store.Store
  path : GoString
  deriving DecidableEq, Repr

/-- The string literal ".tmp". -/
def tmpSuffix : GoString := [46, 116, 109, 112]

/-- The method `PassDB.commit`. The deferred function runs when `commit` returns,
whatever `Save` returned: it closes the file and, if that worked, renames the
temporary file over `db.path`. Go discards what a deferred function returns, so
the error of `commit` is the error of `Save`. -/
def commit (P : crypt.Primitives) (C : store.StoreCodec) (flt : os.Faults) (rng : Bytes)
    (db : PassDB) (fs : os.FS) : Option Err × os.FS :=
  let tmpPath := db.path ++ tmpSuffix
  match os.create flt tmpPath fs with
  | (some err, fs) => (some err, fs)
  | (none, fs) =>
    let (saveErr, fs) := store.Save P C rng db.store (os.write flt tmpPath) fs
    let fs :=
      match os.close flt with
      | some _ => fs
      | none => (os.rename flt tmpPath db.path fs).2
    (saveErr, fs)

end db

/-! ## internal/store: the document operations -/

namespace store

/-- A Go `map[string]string`: `none` is the `nil` map. -/
abbrev GoMap := Option (List (GoString × GoString))

/-- The entry of `key` in the pairs of a map, if there is one. -/
def entryOf (key : GoString) : List (GoString × GoString) → Option GoString
  | [] => none
  | (k, v) :: rest => if k = key then some v else entryOf key rest

/-- The index expression `m[key]` with its `exists` flag; reading a `nil` map
finds nothing. -/
def mapGet (m : GoMap) (key : GoString) : Option GoString :=
  match m with
  | none => none
  | some l => entryOf key l

/-- The pairs of a map after the assignment `m[key] = value`. -/
def mapSet (l : List (GoString × GoString)) (key value : GoString) :
    List (GoString × GoString) :=
  (key, value) :: l.filter (fun kv => kv.1 ≠ key)

/-- The pairs of a map after `delete(m, key)`. -/
def mapDelete (l : List (GoString × GoString)) (key : GoString) :
    List (GoString × GoString) :=
  l.filter (fun kv => kv.1 ≠ key)

/-- Two maps are equal as Go maps: both nil or both not, and the same value, or
none, under every key. -/
def sameEntries (a b : GoMap) : Prop :=
  a.isSome = b.isSome ∧ ∀ key, mapGet a key = mapGet b key

/-- The codec gives a document back: what `json.Marshal` writes for `sd` is not
empty and `json.Unmarshal` reads it as a document with the same name, the same
version and the same entries. -/
def StoreCodec.RoundTrips (C : StoreCodec) (sd : StoreData) : Prop :=
  ∃ b sd', C.marshal sd = .ok b ∧ b ≠ [] ∧ C.unmarshal b = .ok sd' ∧
    sd'.Name = sd.Name ∧ sd'.Version = sd.Version ∧ sameEntries sd'.Data sd.Data

/-- The method `Write` of a `bytes.Buffer`: the bytes are appended. -/
def bufferWrite (data : Bytes) (buf : Bytes) : Option Err × Bytes :=
  (none, buf ++ data)

def GetAllStoreDataKeyValues (store : Store) : GoMap :=
  store.storeData.Data

def GetStoreName (store : Store) : GoString :=
  store.storeData.Name

/-- The method `getSerialisedStoreData`. -/
def getSerialisedStoreData (C : StoreCodec) (s : StoreData) : Except Err Bytes :=
  match C.marshal s with
  | .error _ => .error .ErrStoreDataUnserialisable
  | .ok bytes => .ok bytes

def StoreDataVersion (s : Store) : Int :=
  s.storeData.Version

def StoreDataPassword (s : Store) : GoString :=
  s.storeData.Password

/-- The method `ReplaceStoreData`. -/
def ReplaceStoreData (s : Store) (replacement : GoMap) : Store :=
  { s with storeData := { s.storeData with Data := replacement } }

/-- The method `UpdateStoreDataKeyValue`. The assignment is reached only when
the key was found, so the map is not `nil` there. -/
def UpdateStoreDataKeyValue (s : Store) (key value : GoString) : Option Err × Store :=
  match s.storeData.Data with
  | none => (some .ErrStoreDataKeyDoesNotExist, s)
  | some l =>
    match entryOf key l with
    | none => (some .ErrStoreDataKeyDoesNotExist, s)
    | some currentVal =>
      if currentVal = value then (some .ErrNoChangeToStoreDataKeyValueMade, s)
      else (none, { s with storeData := { s.storeData with Data := some (mapSet l key value) } })

/-- The method `CreateStoreDataKeyValue`. The assignment `Data[key] = value` on a
`nil` map is a run-time panic. -/
def CreateStoreDataKeyValue (s : Store) (key value : GoString) : Outcome (Option Err × Store) :=
  if key = [] then .returned (some .ErrInvalidStoreDataKey, s)
  else
    match s.storeData.Data with
    | none => .panicked
    | some l =>
      match entryOf key l with
      | some _ => .returned (some .ErrStoreDataKeyAlreadyExists, s)
      | none =>
        .returned
          (none, { s with storeData := { s.storeData with Data := some (mapSet l key value) } })

/-- The method `GetStoreDataKeyValue`. -/
def GetStoreDataKeyValue (s : Store) (key : GoString) : GoString × Option Err :=
  match mapGet s.storeData.Data key with
  | none => ([], some .ErrStoreDataKeyDoesNotExist)
  | some value => (value, none)

/-- The function `CreateStore`, with the writer as in `Save`. It returns the
store, the error and the state of what was written to. -/
def CreateStore {σ : Type} (P : crypt.Primitives) (C : StoreCodec) (rng : Bytes)
    (w : Bytes → σ → Option Err × σ) (st : σ) (name password : GoString) :
    Option Store × Option Err × σ :=
  if name = [] then (none, some .ErrStoreNameEmpty, st)
  else
    let storeData : StoreData :=
      { Name := name, Version := 1, Data := some [], Password := password }
    match getSerialisedStoreData C storeData with
    | .error err => (none, some err, st)
    | .ok serialised =>
      match crypt.Encrypt P rng serialised password with
      | (_, some err) => (none, some err, st)
      | (encrypted, none) =>
        match w encrypted st with
        | (some err, st) => (none, some err, st)
        | (none, st) =>
          (some { Source := none, storeData := storeData, password := password }, none, st)

/-- The method `DeleteStoreDataKey`. -/
def DeleteStoreDataKey (s : Store) (key : GoString) : Option Err × Store :=
  match s.storeData.Data with
  | none => (some .ErrStoreDataKeyDoesNotExist, s)
  | some l =>
    match entryOf key l with
    | none => (some .ErrStoreDataKeyDoesNotExist, s)
    | some _ => (none, { s with storeData := { s.storeData with Data := some (mapDelete l key) } })

/-- The keys of the pairs are distinct, as the keys of a Go map are. -/
def DistinctKeys (m : GoMap) : Prop :=
  match m with
  | none => True
  | some l => (l.map (fun kv => kv.1)).Nodup

/-- The builtin `len(m)`: the number of entries. -/
def mapLen (m : GoMap) : Nat :=
  match m with
  | none => 0
  | some l => l.length

/-- The name of the store is not empty and the empty string is not a key. -/
def NonEmptyNames (s : Store) : Prop :=
  s.storeData.Name ≠ [] ∧ mapGet s.storeData.Data [] = none

/-- The stores one gets from `CreateStore`, or from a `Load` that returned a
document with a non-empty name and non-empty keys, by `CreateStoreDataKeyValue`,
`UpdateStoreDataKeyValue`, `DeleteStoreDataKey` (whatever they return) and by
`ReplaceStoreData` with a map in which the empty string is not a key. -/
inductive ReachableStore (P : crypt.Primitives) (C : StoreCodec) : Store → Prop where
  | created {σ : Type} (rng : Bytes) (w : Bytes → σ → Option Err × σ) (st st' : σ)
      (name password : GoString) (s : Store) :
      CreateStore P C rng w st name password = (some s, none, st') → ReachableStore P C s
  | loaded (source : Except Err Bytes) (password : GoString) (s : Store) :
      Load P C source password = .returned (some s, none) → NonEmptyNames s →
      ReachableStore P C s
  | create (s s' : Store) (key value : GoString) (err : Option Err) :
      ReachableStore P C s → CreateStoreDataKeyValue s key value = .returned (err, s') →
      ReachableStore P C s'
  | update (s : Store) (key value : GoString) :
      ReachableStore P C s → ReachableStore P C (UpdateStoreDataKeyValue s key value).2
  | delete (s : Store) (key : GoString) :
      ReachableStore P C s → ReachableStore P C (DeleteStoreDataKey s key).2
  | replace (s : Store) (replacement : GoMap) :
      ReachableStore P C s → mapGet replacement [] = none →
      ReachableStore P C (ReplaceStoreData s replacement)

end store

/-! ## internal/item -/

namespace item

/-- The struct `Item`. `ID` is the 16 bytes of a `uuid.UUID`; `Notes` is a slice
of strings, `none` when it is `nil`. -/
structure Item where
  Name : GoString
  ID : Bytes
  Username : GoString
  Password : GoString
  URL : GoString
  Notes : Option (List GoString)
  deriving DecidableEq, Repr

/-- The function `NewItem`; `uuidNewRandom` is what `uuid.NewRandom()` returns. -/
def NewItem (uuidNewRandom : Except Err Bytes) (name username password url : GoString)
    (notes : Option (List GoString)) : Option Item × Option Err :=
  if name = [] then (none, some .ErrNoItemNameSupplied)
  else if username = [] ∧ password = [] ∧ url = [] ∧ notes = none then
    (none, some .ErrInsufficientInformation)
  else
    match uuidNewRandom with
    | .error err => (none, some err)
    | .ok uid =>
      (some { ID := uid, Name := name, Notes := notes, Password := password, URL := url,
              Username := username }, none)

end item

/-! ## internal/db: the item operations -/

namespace os

/-- The error `os.ErrNotExist`. -/
def ErrNotExist : Err := .external 2

/-- The call `os.Stat(path)`, of which the callers keep the error only. -/
def stat (path : GoString) (fs : FS) : Option Err :=
  if (fs path).isSome then none else some ErrNotExist

end os

namespace db

/-- The calls `json.Marshal(passItem)` and `json.Unmarshal(bytes, &item)`. -/
structure ItemCodec where
  marshal : item.Item → Except Err GoString
  unmarshal : GoString → Except Err item.Item

/-- The codec gives an item back: what `json.Marshal` writes for it is not empty
and `json.Unmarshal` reads it as the same item. -/
def ItemCodec.RoundTrips (IC : ItemCodec) (it : item.Item) : Prop :=
  ∃ s, IC.marshal it = .ok s ∧ s ≠ [] ∧ IC.unmarshal s = .ok it

/-- The function `createDBLocalFile`; the file handle is the path. -/
def createDBLocalFile (flt : os.Faults) (path : GoString) (fs : os.FS) : Option Err × os.FS :=
  match os.stat path fs with
  | none => (some .ErrFileAlreadyExists, fs)
  | some err =>
    if err ≠ os.ErrNotExist then (some err, fs)
    else
      match os.create flt path fs with
      | (some err, fs) => (some err, fs)
      | (none, fs) => (none, fs)

/-- The function `serialiseItem`. -/
def serialiseItem (IC : ItemCodec) (passItem : item.Item) : Except Err GoString :=
  match IC.marshal passItem with
  | .error err => .error err
  | .ok serialisedBytes => .ok serialisedBytes

/-- The function `CreatePassDB`. The deferred `fh.Close()` changes no contents. -/
def CreatePassDB (P : crypt.Primitives) (C : store.StoreCodec) (flt : os.Faults) (rng : Bytes)
    (path dbName dbPassword : GoString) (fs : os.FS) : Option PassDB × Option Err × os.FS :=
  match createDBLocalFile flt path fs with
  | (some err, fs) => (none, some err, fs)
  | (none, fs) =>
    match store.CreateStore P C rng (os.write flt path) fs dbName dbPassword with
    | (_, some err, fs) => (none, some err, fs)
    | (none, none, fs) => (none, none, fs)
    | (some createdStore, none, fs) => (some { store := createdStore, path := path }, none, fs)

/-- The function `LoadExistingPassDB`; `os.OpenFile` fails on a missing file. -/
def LoadExistingPassDB (P : crypt.Primitives) (C : store.StoreCodec) (path password : GoString)
    (fs : os.FS) : Outcome (Option PassDB × Option Err) :=
  match fs path with
  | none => .returned (none, some os.ErrNotExist)
  | some content =>
    match store.Load P C (.ok content) password with
    | .panicked => .panicked
    | .returned (_, some err) => .returned (none, some err)
    | .returned (none, none) => .returned (none, none)
    | .returned (some loadedStore, none) =>
      .returned (some { store := loadedStore, path := path }, none)

/-- The method `ListAllItems`. The result starts as `[]string{}` and is appended to,
so it is a slice that is not `nil`: `some` of the names. Ranging over a `nil` map
visits nothing. -/
def ListAllItems (db : PassDB) : Option (List GoString) :=
  match store.GetAllStoreDataKeyValues db.store with
  | none => some []
  | some keyVals => some (keyVals.map (fun kv => kv.1))

def GetPassDBName (db : PassDB) : GoString :=
  store.GetStoreName db.store

/-- The method `SaveNewItem`; `passItem` is `none` for a `nil` pointer. It returns
the error, the `PassDB` as it is afterwards and the file system. -/
def SaveNewItem (P : crypt.Primitives) (C : store.StoreCodec) (IC : ItemCodec)
    (flt : os.Faults) (rng : Bytes) (db : PassDB) (passItem : Option item.Item) (fs : os.FS) :
    Outcome (Option Err × PassDB × os.FS) :=
  match passItem with
  | none => .returned (some .ErrInvalidItem, db, fs)
  | some passItem =>
    match serialiseItem IC passItem with
    | .error err => .returned (some err, db, fs)
    | .ok serialisedItem =>
      match store.CreateStoreDataKeyValue db.store passItem.Name serialisedItem with
      | .panicked => .panicked
      | .returned (some err, st) => .returned (some err, { db with store := st }, fs)
      | .returned (none, st) =>
        let db := { db with store := st }
        let (err, fs) := commit P C flt rng db fs
        .returned (err, db, fs)

/-- The method `RetrieveItem`. -/
def RetrieveItem (IC : ItemCodec) (db : PassDB) (itemName : GoString) :
    Option item.Item × Option Err :=
  match store.GetStoreDataKeyValue db.store itemName with
  | (_, some err) =>
    if err = .ErrStoreDataKeyDoesNotExist then (none, some .ErrItemDoesNotExist)
    else (none, some err)
  | (serialisedItem, none) =>
    if serialisedItem = [] then (none, some .ErrNilItem)
    else
      match IC.unmarshal serialisedItem with
      | .error err => (none, some err)
      | .ok retItem => (some retItem, none)

/-- The method `UpdateItem`. An error of `UpdateStoreDataKeyValue` other than
"no change" is dropped and the commit goes ahead. -/
def UpdateItem (P : crypt.Primitives) (C : store.StoreCodec) (IC : ItemCodec)
    (flt : os.Faults) (rng : Bytes) (db : PassDB) (passItem : Option item.Item) (fs : os.FS) :
    Option Err × PassDB × os.FS :=
  match passItem with
  | none => (some .ErrInvalidItem, db, fs)
  | some passItem =>
    match store.GetStoreDataKeyValue db.store passItem.Name with
    | (_, some err) =>
      if err = .ErrStoreDataKeyDoesNotExist then (some .ErrItemDoesNotExist, db, fs)
      else (some err, db, fs)
    | (_, none) =>
      match serialiseItem IC passItem with
      | .error err => (some err, db, fs)
      | .ok serialised =>
        match store.UpdateStoreDataKeyValue db.store passItem.Name serialised with
        | (err, st) =>
          let db := { db with store := st }
          if err = some .ErrNoChangeToStoreDataKeyValueMade then (some .ErrItemUnchanged, db, fs)
          else
            let (err, fs) := commit P C flt rng db fs
            (err, db, fs)

/-- The method `RenameItem`. -/
def RenameItem (P : crypt.Primitives) (C : store.StoreCodec) (IC : ItemCodec)
    (flt : os.Faults) (rng : Bytes) (db : PassDB) (current desired : GoString) (fs : os.FS) :
    Outcome (Option Err × PassDB × os.FS) :=
  if current = desired then .returned (some .ErrCannotRenameToExistingItemName, db, fs)
  else
    match store.GetStoreDataKeyValue db.store current with
    | (_, some err) =>
      if err = .ErrStoreDataKeyDoesNotExist then .returned (some .ErrItemDoesNotExist, db, fs)
      else .returned (some err, db, fs)
    | (retrieved, none) =>
      match store.GetStoreDataKeyValue db.store desired with
      | (_, none) => .returned (some .ErrItemNameAlreadyInUse, db, fs)
      | (_, some _) =>
        match IC.unmarshal retrieved with
        | .error err => .returned (some err, db, fs)
        | .ok newItem =>
          let newItem := { newItem with Name := desired }
          match serialiseItem IC newItem with
          | .error err => .returned (some err, db, fs)
          | .ok serialisedItem =>
            match store.CreateStoreDataKeyValue db.store desired serialisedItem with
            | .panicked => .panicked
            | .returned (some err, st) => .returned (some err, { db with store := st }, fs)
            | .returned (none, st) =>
              match store.DeleteStoreDataKey st current with
              | (some err, st) => .returned (some err, { db with store := st }, fs)
              | (none, st) =>
                let db := { db with store := st }
                let (err, fs) := commit P C flt rng db fs
                .returned (err, db, fs)

/-- The method `DeleteItem`. -/
def DeleteItem (P : crypt.Primitives) (C : store.StoreCodec) (flt : os.Faults) (rng : Bytes)
    (db : PassDB) (name : GoString) (fs : os.FS) : Option Err × PassDB × os.FS :=
  match store.GetStoreDataKeyValue db.store name with
  | (_, some err) =>
    if err = .ErrStoreDataKeyDoesNotExist then (some .ErrItemDoesNotExist, db, fs)
    else (some err, db, fs)
  | (_, none) =>
    match store.DeleteStoreDataKey db.store name with
    | (some err, st) => (some err, { db with store := st }, fs)
    | (none, st) =>
      let db := { db with store := st }
      let (err, fs) := commit P C flt rng db fs
      (err, db, fs)

/-- The `PassDB` with the pairs `l` as its data map and everything else as in `db`. -/
def withData (db : PassDB) (l : List (GoString × GoString)) : PassDB :=
  { db with store := { db.store with storeData := { db.store.storeData with Data := some l } } }

/-- What a method that reached the commit step returns: the error of `commit`,
the `PassDB` as changed in memory, and the file system `commit` left. -/
def committed (P : crypt.Primitives) (C : store.StoreCodec) (flt : os.Faults) (rng : Bytes)
    (db : PassDB) (fs : os.FS) : Option Err × PassDB × os.FS :=
  ((commit P C flt rng db fs).1, db, (commit P C flt rng db fs).2)

/-- The file at `db.path` holds the whole document of `db`: no temporary file is
left, and `LoadExistingPassDB` with the passphrase of `db` succeeds and yields a
store with the same name and the same entries. -/
def Persisted (P : crypt.Primitives) (C : store.StoreCodec) (db : PassDB) (fs : os.FS) : Prop :=
  fs (db.path ++ tmpSuffix) = none ∧
  ∃ loaded, LoadExistingPassDB P C db.path db.store.password fs = .returned (some loaded, none) ∧
    GetPassDBName loaded = GetPassDBName db ∧
    store.sameEntries (store.GetAllStoreDataKeyValues loaded.store)
      (store.GetAllStoreDataKeyValues db.store)

/-- Every key maps to the serialised form of an item that has the key as its
`Name`. -/
def NamesMatch (IC : ItemCodec) (db : PassDB) : Prop :=
  ∀ key value, store.mapGet db.store.storeData.Data key = some value →
    ∃ it : item.Item, IC.marshal it = .ok value ∧ it.Name = key

/-- The `PassDB`s one gets from `CreatePassDB` by `SaveNewItem`, `UpdateItem`,
`RenameItem` and `DeleteItem`, whatever these return and whatever the file
system and the random reader do. -/
inductive ReachablePassDB (P : crypt.Primitives) (C : store.StoreCodec) (IC : ItemCodec) :
    PassDB → Prop where
  | created (flt : os.Faults) (rng : Bytes) (path name password : GoString) (fs fs' : os.FS)
      (d : PassDB) :
      CreatePassDB P C flt rng path name password fs = (some d, none, fs') →
      ReachablePassDB P C IC d
  | saveNewItem (flt : os.Faults) (rng : Bytes) (d : PassDB) (passItem : Option item.Item)
      (fs : os.FS) (r : Option Err × PassDB × os.FS) :
      ReachablePassDB P C IC d → SaveNewItem P C IC flt rng d passItem fs = .returned r →
      ReachablePassDB P C IC r.2.1
  | updateItem (flt : os.Faults) (rng : Bytes) (d : PassDB) (passItem : Option item.Item)
      (fs : os.FS) :
      ReachablePassDB P C IC d →
      ReachablePassDB P C IC (UpdateItem P C IC flt rng d passItem fs).2.1
  | renameItem (flt : os.Faults) (rng : Bytes) (d : PassDB) (current desired : GoString)
      (fs : os.FS) (r : Option Err × PassDB × os.FS) :
      ReachablePassDB P C IC d → RenameItem P C IC flt rng d current desired fs = .returned r →
      ReachablePassDB P C IC r.2.1
  | deleteItem (flt : os.Faults) (rng : Bytes) (d : PassDB) (name : GoString) (fs : os.FS) :
      ReachablePassDB P C IC d →
      ReachablePassDB P C IC (DeleteItem P C flt rng d name fs).2.1

end db

/-! ## encoding/json and strings that are not UTF-8

`json.Marshal` writes a Go string as a JSON string. It reads the string rune by
rune with `utf8.DecodeRuneInString`, and for a byte that starts no well-formed
UTF-8 sequence it writes the escape of U+FFFD, which `json.Unmarshal` reads as
the three bytes EF BF BD. Every other string comes back as it was. -/

namespace json

/-- The byte lies between `lo` and `hi`. -/
def within (lo hi : Nat) (b : Byte) : Bool :=
  decide (lo ≤ b.val) && decide (b.val ≤ hi)

/-- For the first byte of a sequence, after the tables of `unicode/utf8`: the
number of bytes of the sequence and the bounds on its second byte; `none` for a
byte that starts no sequence (80 to C1 and F5 to FF). -/
def leading (b : Byte) : Option (Nat × Nat × Nat) :=
  if b.val < 0x80 then some (1, 0, 0)
  else if within 0xC2 0xDF b then some (2, 0x80, 0xBF)
  else if b.val = 0xE0 then some (3, 0xA0, 0xBF)
  else if b.val = 0xED then some (3, 0x80, 0x9F)
  else if within 0xE1 0xEF b then some (3, 0x80, 0xBF)
  else if b.val = 0xF0 then some (4, 0x90, 0xBF)
  else if b.val = 0xF4 then some (4, 0x80, 0x8F)
  else if within 0xF1 0xF3 b then some (4, 0x80, 0xBF)
  else none

/-- The size `utf8.DecodeRune` finds for the sequence at the head of `s`; 0 when
the head is not a well-formed sequence, where Go reports `RuneError` and the
size 1. -/
def runeLen (s : Bytes) : Nat :=
  match s with
  | [] => 0
  | b :: rest =>
    match leading b with
    | none => 0
    | some (size, lo, hi) =>
      if size = 1 then 1
      else
        match rest with
        | [] => 0
        | b1 :: more =>
          if within lo hi b1 && decide ((more.take (size - 2)).length = size - 2) &&
              (more.take (size - 2)).all (within 0x80 0xBF) then size
          else 0

/-- The bytes of U+FFFD. -/
def replacement : Bytes := [0xEF, 0xBF, 0xBD]

/-- The string after `json.Marshal` and `json.Unmarshal`, the first `skip` bytes
being the rest of a sequence that was found well-formed. -/
def coerceFrom : Nat → Bytes → Bytes
  | _, [] => []
  | skip + 1, b :: rest => b :: coerceFrom skip rest
  | 0, b :: rest =>
    match runeLen (b :: rest) with
    | 0 => replacement ++ coerceFrom 0 rest
    | size + 1 => b :: coerceFrom size rest

/-- The string that `json.Unmarshal` reads from what `json.Marshal` wrote for
`s`: each byte outside a well-formed UTF-8 sequence has become U+FFFD. -/
def coerce (s : Bytes) : Bytes := coerceFrom 0 s

/-- The document that comes back: every string of it coerced. -/
def coerceDoc (sd : store.StoreData) : store.StoreData :=
  { Name := coerce sd.Name, Version := sd.Version,
    Data := sd.Data.map (fun l => l.map (fun kv => (coerce kv.1, coerce kv.2))),
    Password := coerce sd.Password }

/-- The item that comes back: every string of it coerced. The `ID` is written
in the text form of a UUID, which is ASCII. -/
def coerceItem (it : item.Item) : item.Item :=
  { Name := coerce it.Name, ID := it.ID, Username := coerce it.Username,
    Password := coerce it.Password, URL := coerce it.URL,
    Notes := it.Notes.map (fun l => l.map coerce) }

/-- The name, the keys and the values of the document are well-formed UTF-8: the
coercion changes none of them. -/
def ValidDoc (sd : store.StoreData) : Prop :=
  (coerceDoc sd).Name = sd.Name ∧ (coerceDoc sd).Data = sd.Data

/-- The strings of the item are well-formed UTF-8: the coercion changes none. -/
def ValidItem (it : item.Item) : Prop := coerceItem it = it

instance (sd : store.StoreData) : Decidable (ValidDoc sd) := by
  unfold ValidDoc
  infer_instance

instance (it : item.Item) : Decidable (ValidItem it) := by
  unfold ValidItem
  infer_instance

end json

/-- What holds of `json.Marshal` and `json.Unmarshal` on every document: one
whose name, keys and values are well-formed UTF-8 is given back. -/
def store.StoreCodec.GivesBackUTF8 (C : store.StoreCodec) : Prop :=
  ∀ sd : store.StoreData, json.ValidDoc sd → C.RoundTrips sd

/-- What holds of `json.Marshal` and `json.Unmarshal` on every item: one whose
strings are well-formed UTF-8 is given back. -/
def db.ItemCodec.GivesBackUTF8 (IC : db.ItemCodec) : Prop :=
  ∀ it : item.Item, json.ValidItem it → IC.RoundTrips it

/-! ## Small instances of the library parameters

They stand in for scrypt, AES-GCM and `encoding/json` where a function is
evaluated on concrete bytes. They satisfy the laws the theorems assume and make
no claim to secrecy. -/

namespace Demo

open crypt

/-- Pads or cuts a byte string to 32 bytes, with zeros. -/
def pad32 (b : Bytes) : Bytes := (b ++ List.replicate 32 0).take 32

/-- A 32-byte key: the zero-padded password added bytewise to the zero-padded
salt. -/
def key (password salt : Bytes) : Bytes :=
  List.zipWith (· + ·) (pad32 password) (pad32 salt)

def scryptKey (password salt : Bytes) : Except Err Bytes :=
  .ok (key password salt)

/-- A 16-byte tag: the sum of all the bytes of key, nonce and text, then zeros. -/
def tag (key nonce text : Bytes) : Bytes :=
  (key ++ nonce ++ text).sum :: List.replicate 15 0

def gcmSeal (key nonce text : Bytes) : Bytes :=
  text ++ tag key nonce text

def gcmOpen (key nonce cipherText : Bytes) : OpenResult :=
  if cipherText.length < gcmTagSize then .authFailed
  else
    let text := cipherText.take (cipherText.length - gcmTagSize)
    if cipherText.drop (cipherText.length - gcmTagSize) = tag key nonce text then .plain text
    else .authFailed

def prims : Primitives := ⟨scryptKey, gcmSeal, gcmOpen⟩

/-- A codec that writes the name between braces and reads it back into an empty
version-1 document. -/
def codec : store.StoreCodec where
  marshal sd := .ok ([123] ++ sd.Name ++ [125])
  unmarshal b :=
    if b.head? = some 123 ∧ b.getLast? = some 125 ∧ 2 ≤ b.length then
      .ok { Name := (b.drop 1).take (b.length - 2), Version := 1, Data := some [], Password := [] }
    else .error (.external 1)

/-- Forty-four bytes for the random reader: 32 for a salt, 12 for a nonce. -/
def rng : Bytes := (List.range 44).map (fun i => Fin.ofNat i)

/-- Another forty-four bytes: the same salt, a nonce that differs in one byte. -/
def rngAlt : Bytes := (List.range 43).map (fun i => Fin.ofNat i) ++ [99]

/-- The passphrase "12345". -/
def pass5 : Bytes := [49, 50, 51, 52, 53]

/-- The passphrase "12345" followed by a zero byte. -/
def pass5z : Bytes := [49, 50, 51, 52, 53, 0]

/-- The passphrase "12346". -/
def pass5alt : Bytes := [49, 50, 51, 52, 54]

/-- Forty-four zero bytes: the shortest input that gets past both slice
expressions of `decrypt`. -/
def zeros44 : Bytes := List.replicate 44 0

/-- Forty zero bytes: a salt preceded by a remainder shorter than a nonce. -/
def zeros40 : Bytes := List.replicate 40 0

/-- The passphrase "1234". -/
def pass4 : Bytes := [49, 50, 51, 52]

/-- The bytes of "foobar". -/
def foobar : Bytes := [102, 111, 111, 98, 97, 114]

/-- A store document named "db" with no entries, under the passphrase "12345". -/
def theStore : store.Store where
  Source := none
  storeData := { Name := [100, 98], Version := 1, Data := some [], Password := pass5 }
  password := pass5

/-- A `PassDB` whose file is at the path "db". -/
def passDB : db.PassDB := { store := theStore, path := [100, 98] }

/-- The envelope that is on disk before a commit. -/
def oldBytes : Bytes := (crypt.Encrypt prims rngAlt [123, 125] pass5).1

/-- A file system with one file, "db", holding `oldBytes`. -/
def fs : os.FS := fun q => if q = [100, 98] then some oldBytes else none

/-- The disk is full: `Write` fails (error 28), every other call works. -/
def diskFull : os.Faults :=
  { create := none, write := some (.external 28), close := none, rename := none }

/-- Only `os.Rename` fails (error 13). -/
def renameFails : os.Faults :=
  { create := none, write := none, close := none, rename := some (.external 13) }

/-- Only `Close` fails (error 5). -/
def closeFails : os.Faults :=
  { create := none, write := none, close := some (.external 5), rename := none }

/-! A length-prefixed encoding, for strings shorter than 256 bytes. -/

/-- A string behind its length. -/
def putStr (s : Bytes) : Bytes := Fin.ofNat s.length :: s

/-- Reads a string written by `putStr` and returns what follows it. -/
def getStr : Bytes → Option (Bytes × Bytes)
  | [] => none
  | n :: rest => if rest.length < n.val then none else some (rest.take n.val, rest.drop n.val)

def putStrs : List Bytes → Bytes
  | [] => []
  | s :: ss => putStr s ++ putStrs ss

/-- Reads strings to the end of the input; the first argument bounds their number. -/
def getStrs : Nat → Bytes → Option (List Bytes)
  | 0, _ => none
  | _ + 1, [] => some []
  | fuel + 1, b =>
    match getStr b with
    | none => none
    | some (s, rest) => (getStrs fuel rest).map (fun ss => s :: ss)

def putPairs : List (Bytes × Bytes) → Bytes
  | [] => []
  | (k, v) :: ps => putStr k ++ putStr v ++ putPairs ps

/-- Reads the strings of the input two by two. -/
def toPairs : List Bytes → Option (List (Bytes × Bytes))
  | [] => some []
  | [_] => none
  | k :: v :: rest => (toPairs rest).map (fun ps => (k, v) :: ps)

/-- A codec for documents: a byte that tells a `nil` map from a map, the version,
name and passphrase, then the entries. -/
def docCodec : store.StoreCodec where
  marshal sd :=
    .ok ((if sd.Data.isSome then 1 else 0) :: Fin.ofNat sd.Version.toNat ::
      (putStr sd.Name ++ putStr sd.Password ++ putPairs (sd.Data.getD [])))
  unmarshal b :=
    match b with
    | flag :: version :: rest =>
      match getStr rest with
      | none => .error (.external 1)
      | some (name, rest) =>
        match getStr rest with
        | none => .error (.external 1)
        | some (password, rest) =>
          match (getStrs (rest.length + 1) rest).bind toPairs with
          | none => .error (.external 1)
          | some ps =>
            .ok { Name := name, Version := version.val,
                  Data := if flag = 0 then none else some ps, Password := password }
    | _ => .error (.external 1)

/-- A codec for items: the five strings, a byte that tells `nil` notes from a
slice, then the notes. -/
def itemCodec : db.ItemCodec where
  marshal it :=
    .ok (putStrs [it.Name, it.ID, it.Username, it.Password, it.URL] ++
      ((if it.Notes.isSome then 1 else 0) :: putStrs (it.Notes.getD [])))
  unmarshal b :=
    match getStr b with
    | none => .error (.external 1)
    | some (name, b) =>
    match getStr b with
    | none => .error (.external 1)
    | some (id, b) =>
    match getStr b with
    | none => .error (.external 1)
    | some (username, b) =>
    match getStr b with
    | none => .error (.external 1)
    | some (password, b) =>
    match getStr b with
    | none => .error (.external 1)
    | some (url, b) =>
    match b with
    | [] => .error (.external 1)
    | flag :: rest =>
      match getStrs (rest.length + 1) rest with
      | none => .error (.external 1)
      | some notes =>
        .ok { Name := name, ID := id, Username := username, Password := password, URL := url,
              Notes := if flag = 0 then none else some notes }

/-- The name "db". -/
def dbName : GoString := [100, 98]

/-- The key "this". -/
def keyThis : GoString := [116, 104, 105, 115]

/-- The key "that". -/
def keyThat : GoString := [116, 104, 97, 116]

/-- The value "data". -/
def valData : GoString := [100, 97, 116, 97]

/-- The value "more". -/
def valMore : GoString := [109, 111, 114, 101]

/-- The store `theStore` with the entry "this" ↦ "data". -/
def storeWithThis : store.Store :=
  { theStore with storeData := { theStore.storeData with Data := some [(keyThis, valData)] } }

/-- Sixteen bytes for a UUID. -/
def uuid : Bytes := (List.range 16).map (fun i => Fin.ofNat (i + 160))

/-- An item named "this" with a user name and `nil` notes. -/
def theItem : item.Item :=
  { Name := keyThis, ID := uuid, Username := valData, Password := [], URL := [], Notes := none }

/-- The empty file system. -/
def noFiles : os.FS := fun _ => none

/-- Only `os.Create` fails (error 13). -/
def createFails : os.Faults :=
  { create := some (.external 13), write := none, close := none, rename := none }

/-- The serialised form of `theItem` under `itemCodec`. -/
def theItemBytes : GoString := ((itemCodec.marshal theItem).toOption).getD []

/-- The store `theStore` with the entry "this" ↦ the serialised `theItem`. -/
def storeWithItem : store.Store :=
  { theStore with storeData := { theStore.storeData with Data := some [(keyThis, theItemBytes)] } }

/-- A `PassDB` at "db" that holds `theItem`. -/
def passDBWithItem : db.PassDB := { store := storeWithItem, path := dbName }

/-- The item `theItem` with another user name. -/
def theItemChanged : item.Item := { theItem with Username := valMore }

/-- The item `theItem` under the name "that". -/
def theItemRenamed : item.Item := { theItem with Name := keyThat }

/-- A document with no name and a `nil` map. -/
def bareDocument : store.StoreData :=
  { Name := [], Version := 1, Data := none, Password := pass5 }

/-- The envelope of `bareDocument` under the passphrase "12345". -/
def bareEnvelope : Bytes :=
  (crypt.Encrypt prims rng ((docCodec.marshal bareDocument).toOption.getD []) pass5).1

/-! An encoding without a bound on the lengths, whose output is ASCII, as the
output of `json.Marshal` is UTF-8 whatever the strings: a string is written byte
by byte, each byte as a 1 and its two halves of four bits, with a 0 behind the
last one. -/

/-- The byte with the first four bits `high` and the last four bits `low`. -/
def joinHalves (high low : Byte) : Byte := Fin.ofNat (high.val * 16 + low.val)

def putText : Bytes → Bytes
  | [] => [0]
  | b :: s => 1 :: Fin.ofNat (b.val / 16) :: Fin.ofNat (b.val % 16) :: putText s

/-- Reads a string written by `putText` and returns what follows it. -/
def getText : Bytes → Option (Bytes × Bytes)
  | [] => none
  | [t] => if t = 0 then some ([], []) else none
  | [t, a] => if t = 0 then some ([], [a]) else none
  | t :: high :: low :: rest =>
    if t = 0 then some ([], high :: low :: rest)
    else (getText rest).map (fun r => (joinHalves high low :: r.1, r.2))

/-- A list of strings: a 1 before each string and a 0 behind the last one. -/
def putTexts : List Bytes → Bytes
  | [] => [0]
  | s :: ss => 1 :: (putText s ++ putTexts ss)

/-- Reads a list written by `putTexts`; the first argument bounds its length. -/
def getTexts : Nat → Bytes → Option (List Bytes × Bytes)
  | 0, _ => none
  | _ + 1, [] => none
  | fuel + 1, t :: rest =>
    if t = 0 then some ([], rest)
    else
      match getText rest with
      | none => none
      | some (s, rest) => (getTexts fuel rest).map (fun r => (s :: r.1, r.2))

/-- A whole number: a byte for the sign, a 1 for each unit, a 0. -/
def putCount (v : Int) : Bytes :=
  (if v < 0 then 1 else 0) :: (List.replicate v.natAbs 1 ++ [0])

def getUnits : Bytes → Option (Nat × Bytes)
  | [] => none
  | t :: rest => if t = 0 then some (0, rest) else (getUnits rest).map (fun r => (r.1 + 1, r.2))

/-- Reads a number written by `putCount` and returns what follows it. -/
def getCount : Bytes → Option (Int × Bytes)
  | [] => none
  | sign :: rest =>
    (getUnits rest).map (fun r => (if sign = 0 then (r.1 : Int) else -(r.1 : Int), r.2))

/-- The keys and values of a map, one after the other. -/
def flatten : List (Bytes × Bytes) → List Bytes
  | [] => []
  | (k, v) :: ps => k :: v :: flatten ps

/-- A codec for documents that gives every document back: a byte that tells a
`nil` map from a map, the version, name and passphrase, then the entries. -/
def textDoc : store.StoreCodec where
  marshal sd :=
    .ok ((if sd.Data.isSome then 1 else 0) ::
      (putCount sd.Version ++ (putText sd.Name ++ (putText sd.Password ++
        putTexts (flatten (sd.Data.getD []))))))
  unmarshal b :=
    match b with
    | [] => .error (.external 1)
    | flag :: rest =>
      match getCount rest with
      | none => .error (.external 1)
      | some (version, rest) =>
        match getText rest with
        | none => .error (.external 1)
        | some (name, rest) =>
          match getText rest with
          | none => .error (.external 1)
          | some (password, rest) =>
            match (getTexts (rest.length + 1) rest).bind (fun r => toPairs r.1) with
            | none => .error (.external 1)
            | some ps =>
              .ok { Name := name, Version := version,
                    Data := if flag = 0 then none else some ps, Password := password }

/-- A codec for items that gives every item back: the five strings, a byte that
tells `nil` notes from a slice, then the notes. -/
def textItem : db.ItemCodec where
  marshal it :=
    .ok (putText it.Name ++ (putText it.ID ++ (putText it.Username ++ (putText it.Password ++
      (putText it.URL ++ ((if it.Notes.isSome then 1 else 0) :: putTexts (it.Notes.getD [])))))))
  unmarshal b :=
    match getText b with
    | none => .error (.external 1)
    | some (name, b) =>
    match getText b with
    | none => .error (.external 1)
    | some (id, b) =>
    match getText b with
    | none => .error (.external 1)
    | some (username, b) =>
    match getText b with
    | none => .error (.external 1)
    | some (password, b) =>
    match getText b with
    | none => .error (.external 1)
    | some (url, b) =>
    match b with
    | [] => .error (.external 1)
    | flag :: rest =>
      match getTexts (rest.length + 1) rest with
      | none => .error (.external 1)
      | some (notes, _) =>
        .ok { Name := name, ID := id, Username := username, Password := password, URL := url,
              Notes := if flag = 0 then none else some notes }

/-- A codec for documents that treats strings as `encoding/json` does: what is
written is the document with every byte outside well-formed UTF-8 replaced by
U+FFFD. -/
def jsonDoc : store.StoreCodec where
  marshal sd := textDoc.marshal (json.coerceDoc sd)
  unmarshal := textDoc.unmarshal

/-- A codec for items that treats strings as `encoding/json` does. -/
def jsonItem : db.ItemCodec where
  marshal it := textItem.marshal (json.coerceItem it)
  unmarshal := textItem.unmarshal

/-- The one-byte string "\xff", which is not UTF-8. -/
def notUTF8 : GoString := [0xFF]

/-- An item named "\xff", as `NewItem` makes it. -/
def itemNotUTF8 : item.Item := { theItem with Name := notUTF8 }

/-- The item `theItem` with the user name "\xff". -/
def theItemUserNotUTF8 : item.Item := { theItem with Username := notUTF8 }

/-- The serialised form of `theItem` under `jsonItem`. -/
def theItemText : GoString := ((jsonItem.marshal theItem).toOption).getD []

/-- A `PassDB` at "db" that holds `theItem`, serialised by `jsonItem`. -/
def passDBWithItemText : db.PassDB :=
  { store := { theStore with
      storeData := { theStore.storeData with Data := some [(keyThis, theItemText)] } },
    path := dbName }

/-- A store document named "db" with a `nil` map, as `ReplaceStoreData(nil)`
leaves it. -/
def storeNilMap : store.Store :=
  { theStore with storeData := { theStore.storeData with Data := none } }

end Demo

end SimplePass

/-! # Theorems -/

namespace SimplePass

namespace crypt

/-! ## Shared lemmas on `Encrypt` and `Decrypt` -/

theorem validCryptInputs_eq_none {text password : Bytes}
    (hp : 5 ≤ password.length) (ht : text ≠ []) : validCryptInputs text password = none := by
  have h0 : text.length ≠ 0 := fun h => ht (List.length_eq_zero.mp h)
  simp [validCryptInputs, isValidPassword, minPasswordLength, hp, h0]

theorem aesNewCipher_of_length {key : Bytes} (h : key.length = 32) : aesNewCipher key = none := by
  simp [aesNewCipher, h]

theorem drawnSalt_length {rng : Bytes} (h : 44 ≤ rng.length) : (drawnSalt rng).length = 32 := by
  simp [drawnSalt, saltSize]; omega

theorem drawnNonce_length {rng : Bytes} (h : 44 ≤ rng.length) :
    (drawnNonce rng).length = gcmNonceSize := by
  simp [drawnNonce, saltSize, gcmNonceSize]; omega

/-- With a key of 32 bytes and a reader that has 44 bytes left, `encrypt` returns
nonce, sealed text and salt, in that order. -/
theorem encrypt_eq_of_key {P : Primitives} {rng text password key : Bytes}
    (hr : 44 ≤ rng.length) (hk : P.scryptKey password (drawnSalt rng) = .ok key)
    (hlen : key.length = 32) :
    encrypt P rng text password =
      (drawnNonce rng ++ P.gcmSeal key (drawnNonce rng) text ++ drawnSalt rng, none) := by
  have h1 : ¬ rng.length < saltSize := by simp [saltSize]; omega
  have h2 : ¬ rng.length - saltSize < gcmNonceSize := by
    simp [saltSize, gcmNonceSize]; omega
  simp only [drawnSalt] at hk
  simp [encrypt, deriveKey, readFull, h1, h2, hk, hlen, aesNewCipher_of_length hlen,
    drawnSalt, drawnNonce]

/-- On an envelope `nonce ∥ cipherText ∥ salt`, `decrypt` derives the key from the
trailing salt and hands nonce and cipher text to `gcm.Open`. -/
theorem decrypt_on_envelope {P : Primitives} {nonce cipherText salt password key : Bytes}
    (hn : nonce.length = gcmNonceSize) (hs : salt.length = 32)
    (hk : P.scryptKey password salt = .ok key) (hlen : key.length = 32) :
    decrypt P (nonce ++ cipherText ++ salt) password =
      match P.gcmOpen key nonce cipherText with
      | .faulted => .returned ([], none)
      | .authFailed => .returned ([], some .ErrCannotDecrypt)
      | .plain plaintext => .returned (plaintext, none) := by
  have hn12 : nonce.length = 12 := hn
  have e1 : (nonce ++ cipherText ++ salt).length - 32 = (nonce ++ cipherText).length := by
    simp only [List.length_append, hs]; omega
  have hdrop : (nonce ++ cipherText ++ salt).drop ((nonce ++ cipherText ++ salt).length - 32)
      = salt := by
    rw [e1]; exact List.drop_left _ _
  have htake : (nonce ++ cipherText ++ salt).take ((nonce ++ cipherText ++ salt).length - 32)
      = nonce ++ cipherText := by
    rw [e1]; exact List.take_left _ _
  have hge : ¬ (nonce ++ cipherText ++ salt).length < 32 := by
    simp only [List.length_append, hs]; omega
  have hge2 : ¬ (nonce ++ cipherText).length < gcmNonceSize := by simp [hn]
  have ht2 : (nonce ++ cipherText).take gcmNonceSize = nonce := by
    rw [← hn]; exact List.take_left _ _
  have hd2 : (nonce ++ cipherText).drop gcmNonceSize = cipherText := by
    rw [← hn]; exact List.drop_left _ _
  unfold decrypt
  rw [if_neg hge]
  simp only [hdrop, htake, deriveKey, hk, hlen, aesNewCipher_of_length hlen, if_neg hge2, ht2, hd2]
  simp

/-- For lawful primitives and a reader with 44 bytes left, `Encrypt` on valid
inputs returns the envelope built from the drawn salt and nonce. -/
theorem Encrypt_eq {P : Primitives} (hP : P.Lawful) {rng text password : Bytes}
    (hp : 5 ≤ password.length) (ht : text ≠ []) (hr : 44 ≤ rng.length) :
    ∃ key, P.scryptKey password (drawnSalt rng) = .ok key ∧ key.length = 32 ∧
      Encrypt P rng text password =
        (drawnNonce rng ++ P.gcmSeal key (drawnNonce rng) text ++ drawnSalt rng, none) := by
  obtain ⟨key, hk, hlen⟩ := hP.key_len password (drawnSalt rng)
  refine ⟨key, hk, hlen, ?_⟩
  simp only [Encrypt, validCryptInputs_eq_none hp ht]
  exact encrypt_eq_of_key hr hk hlen

/-- An envelope is never empty, so `Decrypt` passes it on to `decrypt`. -/
theorem Decrypt_envelope {P : Primitives} {nonce cipherText salt password key : Bytes}
    (hp : 5 ≤ password.length)
    (hn : nonce.length = gcmNonceSize) (hs : salt.length = 32)
    (hk : P.scryptKey password salt = .ok key) (hlen : key.length = 32) :
    Decrypt P (nonce ++ cipherText ++ salt) password =
      match P.gcmOpen key nonce cipherText with
      | .faulted => .returned ([], none)
      | .authFailed => .returned ([], some .ErrCannotDecrypt)
      | .plain plaintext => .returned (plaintext, none) := by
  have hne : nonce ++ cipherText ++ salt ≠ [] := by
    intro h
    have := congrArg List.length h
    simp [hs] at this
  simp only [Decrypt, validCryptInputs_eq_none hp hne]
  exact decrypt_on_envelope hn hs hk hlen

end crypt

namespace Demo

open crypt

theorem tag_length (key nonce text : Bytes) : (tag key nonce text).length = 16 := by
  simp [tag]

theorem gcmOpen_gcmSeal (key nonce text : Bytes) :
    gcmOpen key nonce (gcmSeal key nonce text) = .plain text := by
  have hl : (text ++ tag key nonce text).length - gcmTagSize = text.length := by
    simp [tag_length, gcmTagSize]
  have h1 : ¬ (text ++ tag key nonce text).length < gcmTagSize := by
    simp [tag_length, gcmTagSize]
  unfold gcmOpen gcmSeal
  rw [if_neg h1]
  simp only [hl, List.take_left, List.drop_left, if_true]

theorem prims_lawful : prims.Lawful where
  key_len password salt := ⟨_, rfl, by
    simp only [key, pad32, List.length_zipWith, List.length_take, List.length_append,
      List.length_replicate]
    omega⟩
  seal_len key nonce text _ _ := by simp [prims, gcmSeal, tag_length, gcmTagSize]
  open_seal key nonce text _ _ := gcmOpen_gcmSeal key nonce text

/-- The `Open` of `prims` never panics. -/
theorem prims_openTakesNonce : prims.OpenTakesNonce := by
  intro key nonce cipherText _
  show gcmOpen key nonce cipherText ≠ .faulted
  unfold gcmOpen
  split
  · simp
  · dsimp only
    split <;> simp

theorem gcmOpen_append (key nonce text t : Bytes) (ht : t.length = 16) :
    gcmOpen key nonce (text ++ t) =
      if t = tag key nonce text then .plain text else .authFailed := by
  have hl : (text ++ t).length - gcmTagSize = text.length := by
    simp [ht, gcmTagSize]
  have h1 : ¬ (text ++ t).length < gcmTagSize := by
    simp [ht, gcmTagSize]
  unfold gcmOpen
  rw [if_neg h1]
  simp only [hl, List.take_left, List.drop_left]

theorem sum_set_ne (l : Bytes) (i : Nat) (b : Byte) (hi : i < l.length)
    (hb : l[i]? ≠ some b) : (l.set i b).sum ≠ l.sum := by
  induction l generalizing i with
  | nil => simp at hi
  | cons a t ih =>
    cases i with
    | zero =>
      simp only [List.set_cons_zero, List.sum_cons, ne_eq, add_left_inj]
      intro h
      exact hb (by simp [h])
    | succ j =>
      simp only [List.set_cons_succ, List.sum_cons, ne_eq, add_right_inj]
      have hj : j < t.length := by simpa using hi
      exact ih j hj (by simpa using hb)

theorem prims_detectsByteFlip : prims.DetectsByteFlip := by
  intro key nonce text i b _ _ hi hb
  show gcmOpen key nonce ((text ++ tag key nonce text).set i b) = .authFailed
  have hi2 : i < (text ++ tag key nonce text).length := hi
  have hb2 : (text ++ tag key nonce text)[i]? ≠ some b := hb
  by_cases hlt : i < text.length
  · rw [List.set_append_left i b hlt, gcmOpen_append _ _ _ _ (tag_length _ _ _)]
    rw [List.getElem?_append_left hlt] at hb2
    have hs := sum_set_ne text i b hlt hb2
    have hne : tag key nonce text ≠ tag key nonce (text.set i b) := by
      intro h
      simp only [tag, List.cons.injEq, and_true, List.sum_append, add_right_inj] at h
      exact hs h.symm
    rw [if_neg hne]
  · have hge : text.length ≤ i := Nat.le_of_not_lt hlt
    rw [List.set_append_right i b hge,
      gcmOpen_append _ _ _ _ (by simp [tag_length])]
    rw [List.getElem?_append_right hge] at hb2
    have hj : i - text.length < (tag key nonce text).length := by
      simp only [List.length_append] at hi2; omega
    have hne : (tag key nonce text).set (i - text.length) b ≠ tag key nonce text := by
      intro h
      apply hb2
      rw [← h, List.getElem?_set_self (by simpa using hj)]
    rw [if_neg hne]

end Demo

namespace crypt

/-! ## Round trip -/

/-- C1: for lawful primitives, a passphrase of at least 5 bytes, a non-empty
plaintext `m` and whatever 44 bytes the random reader yields for salt and nonce,
`Encrypt` succeeds and `Decrypt` of its envelope under the same passphrase
returns exactly `m` with a nil error. -/
theorem Decrypt_Encrypt_roundtrip (P : Primitives) (hP : P.Lawful) (rng m p : Bytes)
    (hp : 5 ≤ p.length) (hm : m ≠ []) (hr : 44 ≤ rng.length) :
    (Encrypt P rng m p).2 = none ∧
      Decrypt P (Encrypt P rng m p).1 p = .returned (m, none) := by
  obtain ⟨key, hk, hlen, hE⟩ := Encrypt_eq hP hp hm hr
  rw [hE]
  refine ⟨rfl, ?_⟩
  show Decrypt P (drawnNonce rng ++ P.gcmSeal key (drawnNonce rng) m ++ drawnSalt rng) p = _
  rw [Decrypt_envelope hp (drawnNonce_length hr) (drawnSalt_length hr) hk hlen,
    hP.open_seal key _ m hlen (drawnNonce_length hr)]

theorem Decrypt_Encrypt_roundtrip_witness :
    Demo.prims.Lawful ∧ 5 ≤ Demo.pass5.length ∧ Demo.foobar ≠ [] ∧ 44 ≤ Demo.rng.length ∧
      (Encrypt Demo.prims Demo.rng Demo.foobar Demo.pass5).2 = none ∧
      Decrypt Demo.prims (Encrypt Demo.prims Demo.rng Demo.foobar Demo.pass5).1 Demo.pass5
        = .returned (Demo.foobar, none) :=
  ⟨Demo.prims_lawful, by decide, by decide, by decide,
    Decrypt_Encrypt_roundtrip Demo.prims Demo.prims_lawful Demo.rng Demo.foobar Demo.pass5
      (by decide) (by decide) (by decide)⟩

/-! ## Malformed input -/

/-- An input of fewer than 32 bytes makes `Decrypt` panic in the first slice
expression of `decrypt`, whatever the primitives are. -/
theorem Decrypt_panics_of_short {P : Primitives} {e p : Bytes}
    (hp : 5 ≤ p.length) (he : e ≠ []) (hlen : e.length < 32) : Decrypt P e p = .panicked := by
  simp [Decrypt, validCryptInputs_eq_none hp he, decrypt, hlen]

/-- An input of 32 to 43 bytes makes `Decrypt` panic in the second pair of slice
expressions, once the key has been derived. -/
theorem Decrypt_panics_of_no_nonce {P : Primitives} (hP : P.Lawful) {e p : Bytes}
    (hp : 5 ≤ p.length) (h32 : 32 ≤ e.length) (h44 : e.length < 44) :
    Decrypt P e p = .panicked := by
  have he : e ≠ [] := by
    intro h; simp [h] at h32
  obtain ⟨key, hk, hlen⟩ := hP.key_len p (e.drop (e.length - 32))
  have h1 : ¬ e.length < 32 := by omega
  have h2 : (e.take (e.length - 32)).length < gcmNonceSize := by
    simp only [List.length_take, gcmNonceSize]; omega
  simp only [Decrypt, validCryptInputs_eq_none hp he, decrypt, if_neg h1, deriveKey, hk, hlen,
    aesNewCipher_of_length hlen, if_pos h2]
  simp

/-- The deferred function recovers a panic of `gcm.Open`; its own results are
dropped, so `Decrypt` would then return a nil slice and a nil error. -/
theorem Decrypt_of_gcmOpen_faulted {P : Primitives}
    {nonce cipherText salt password key : Bytes} (hp : 5 ≤ password.length)
    (hn : nonce.length = gcmNonceSize) (hs : salt.length = 32)
    (hk : P.scryptKey password salt = .ok key) (hlen : key.length = 32)
    (hf : P.gcmOpen key nonce cipherText = .faulted) :
    Decrypt P (nonce ++ cipherText ++ salt) password = .returned ([], none) := by
  rw [Decrypt_envelope hp hn hs hk hlen, hf]

end crypt

/-- C2: with the valid passphrase "12345", `Decrypt` of the 6-byte input "foobar"
panics for every choice of primitives, `store.Load` of a source holding those
bytes panics with it, and so does `Decrypt` of a 40-byte input (a salt and 8
more bytes); none of them is reported as `ErrCannotDecrypt`. -/
theorem Decrypt_truncated_envelope_panics (P : crypt.Primitives) (C : store.StoreCodec) :
    crypt.Decrypt P Demo.foobar Demo.pass5 = .panicked ∧
    store.Load P C (.ok Demo.foobar) Demo.pass5 = .panicked ∧
    crypt.Decrypt Demo.prims Demo.zeros40 Demo.pass5 = .panicked := by
  have h1 : crypt.Decrypt P Demo.foobar Demo.pass5 = .panicked :=
    crypt.Decrypt_panics_of_short (by decide) (by decide) (by decide)
  refine ⟨h1, ?_, ?_⟩
  · simp only [store.Load, h1]
  · exact crypt.Decrypt_panics_of_no_nonce Demo.prims_lawful (by decide) (by decide) (by decide)

/-- C5: for lawful primitives whose `Open` takes every nonce of `NonceSize()`
bytes without a fault, a passphrase of at least 5 bytes and an input of at
least 44 bytes, the nonce `decrypt` hands to `gcm.Open` has `NonceSize()` bytes,
so `gcm.Open` raises no fault inside `decrypt`; `Decrypt` returns the plaintext
`gcm.Open` gave together with a nil error, or, when `gcm.Open` refuses the
input, no plaintext together with `ErrCannotDecrypt`: no fault leaves `Decrypt`
and a nil error comes only with a plaintext of `gcm.Open`. -/
theorem Decrypt_open_failure_is_ErrCannotDecrypt (P : crypt.Primitives) (hP : P.Lawful)
    (hN : P.OpenTakesNonce) (e p : Bytes) (hp : 5 ≤ p.length) (he : 44 ≤ e.length) :
    ∃ key, P.scryptKey p (e.drop (e.length - 32)) = .ok key ∧
      ((e.take (e.length - 32)).take crypt.gcmNonceSize).length = crypt.gcmNonceSize ∧
      P.gcmOpen key ((e.take (e.length - 32)).take crypt.gcmNonceSize)
        ((e.take (e.length - 32)).drop crypt.gcmNonceSize) ≠ .faulted ∧
      ((∃ text, P.gcmOpen key ((e.take (e.length - 32)).take crypt.gcmNonceSize)
            ((e.take (e.length - 32)).drop crypt.gcmNonceSize) = .plain text ∧
          crypt.Decrypt P e p = .returned (text, none)) ∨
        (P.gcmOpen key ((e.take (e.length - 32)).take crypt.gcmNonceSize)
            ((e.take (e.length - 32)).drop crypt.gcmNonceSize) = .authFailed ∧
          crypt.Decrypt P e p = .returned ([], some .ErrCannotDecrypt))) := by
  obtain ⟨key, hk, hlen⟩ := hP.key_len p (e.drop (e.length - 32))
  have hn : ((e.take (e.length - 32)).take crypt.gcmNonceSize).length = crypt.gcmNonceSize := by
    simp only [List.length_take, crypt.gcmNonceSize]; omega
  have hs : (e.drop (e.length - 32)).length = 32 := by
    simp only [List.length_drop]; omega
  have hsplit : (e.take (e.length - 32)).take crypt.gcmNonceSize
      ++ (e.take (e.length - 32)).drop crypt.gcmNonceSize ++ e.drop (e.length - 32) = e := by
    rw [List.take_append_drop, List.take_append_drop]
  have hD := @crypt.Decrypt_envelope P ((e.take (e.length - 32)).take crypt.gcmNonceSize)
    ((e.take (e.length - 32)).drop crypt.gcmNonceSize) (e.drop (e.length - 32)) p key
    hp hn hs hk hlen
  rw [hsplit] at hD
  have hnf := hN key _ ((e.take (e.length - 32)).drop crypt.gcmNonceSize) hn
  refine ⟨key, hk, hn, hnf, ?_⟩
  cases ho : P.gcmOpen key ((e.take (e.length - 32)).take crypt.gcmNonceSize)
      ((e.take (e.length - 32)).drop crypt.gcmNonceSize) with
  | faulted => exact absurd ho hnf
  | authFailed =>
    rw [ho] at hD
    exact Or.inr ⟨rfl, hD⟩
  | plain text =>
    rw [ho] at hD
    exact Or.inl ⟨text, rfl, hD⟩

theorem Decrypt_open_failure_is_ErrCannotDecrypt_witness :
    Demo.prims.Lawful ∧ Demo.prims.OpenTakesNonce ∧ 5 ≤ Demo.pass5.length ∧
    44 ≤ Demo.zeros44.length ∧
    crypt.Decrypt Demo.prims Demo.zeros44 Demo.pass5 = .returned ([], some .ErrCannotDecrypt) ∧
    ∃ key, Demo.prims.scryptKey Demo.pass5 (Demo.zeros44.drop (Demo.zeros44.length - 32))
        = .ok key ∧
      ((Demo.zeros44.take (Demo.zeros44.length - 32)).take crypt.gcmNonceSize).length
        = crypt.gcmNonceSize ∧
      Demo.prims.gcmOpen key ((Demo.zeros44.take (Demo.zeros44.length - 32)).take crypt.gcmNonceSize)
        ((Demo.zeros44.take (Demo.zeros44.length - 32)).drop crypt.gcmNonceSize) ≠ .faulted ∧
      ((∃ text, Demo.prims.gcmOpen key
            ((Demo.zeros44.take (Demo.zeros44.length - 32)).take crypt.gcmNonceSize)
            ((Demo.zeros44.take (Demo.zeros44.length - 32)).drop crypt.gcmNonceSize)
              = .plain text ∧
          crypt.Decrypt Demo.prims Demo.zeros44 Demo.pass5 = .returned (text, none)) ∨
        (Demo.prims.gcmOpen key
            ((Demo.zeros44.take (Demo.zeros44.length - 32)).take crypt.gcmNonceSize)
            ((Demo.zeros44.take (Demo.zeros44.length - 32)).drop crypt.gcmNonceSize)
              = .authFailed ∧
          crypt.Decrypt Demo.prims Demo.zeros44 Demo.pass5
            = .returned ([], some .ErrCannotDecrypt))) :=
  ⟨Demo.prims_lawful, Demo.prims_openTakesNonce, by decide, by decide, by decide,
    Decrypt_open_failure_is_ErrCannotDecrypt Demo.prims Demo.prims_lawful
      Demo.prims_openTakesNonce Demo.zeros44 Demo.pass5 (by decide) (by decide)⟩

namespace crypt

/-! ## A different passphrase -/

/-- Passphrases are unbounded and keys have 32 bytes, so under every salt two
different passphrases of at least 5 bytes derive the same key. -/
theorem exists_colliding_passphrases {P : Primitives} (hP : P.Lawful) (salt : Bytes) :
    ∃ p1 p2 : Bytes, 5 ≤ p1.length ∧ 5 ≤ p2.length ∧ p1 ≠ p2 ∧
      P.scryptKey p1 salt = P.scryptKey p2 salt := by
  classical
  let pw : ℕ → Bytes := fun n => List.replicate (n + 5) 0
  let f : ℕ → Mathlib.Vector Byte 32 := fun n =>
    ⟨Classical.choose (hP.key_len (pw n) salt), (Classical.choose_spec (hP.key_len (pw n) salt)).2⟩
  obtain ⟨a, b, hab, hf⟩ := Finite.exists_ne_map_eq_of_infinite f
  have hkey : Classical.choose (hP.key_len (pw a) salt)
      = Classical.choose (hP.key_len (pw b) salt) := congrArg Subtype.val hf
  refine ⟨pw a, pw b, by simp [pw], by simp [pw], ?_, ?_⟩
  · intro h
    have hl := congrArg List.length h
    simp only [pw, List.length_replicate] at hl
    exact hab (by omega)
  · rw [(Classical.choose_spec (hP.key_len (pw a) salt)).1,
      (Classical.choose_spec (hP.key_len (pw b) salt)).1, hkey]

/-- What `Decrypt` returns on an envelope made with passphrase `p1` when it is
given passphrase `p2`: the verdict of `gcm.Open` under the key of `p2`. -/
theorem Decrypt_Encrypt_eq {P : Primitives} (hP : P.Lawful) {rng m p1 p2 k1 k2 : Bytes}
    (hp1 : 5 ≤ p1.length) (hp2 : 5 ≤ p2.length) (hm : m ≠ []) (hr : 44 ≤ rng.length)
    (hk1 : P.scryptKey p1 (drawnSalt rng) = .ok k1)
    (hk2 : P.scryptKey p2 (drawnSalt rng) = .ok k2) :
    Decrypt P (Encrypt P rng m p1).1 p2 =
      match P.gcmOpen k2 (drawnNonce rng) (P.gcmSeal k1 (drawnNonce rng) m) with
      | .faulted => .returned ([], none)
      | .authFailed => .returned ([], some .ErrCannotDecrypt)
      | .plain plaintext => .returned (plaintext, none) := by
  obtain ⟨key, hk, hlen, hE⟩ := Encrypt_eq hP hp1 hm hr
  have hkk : key = k1 := by
    rw [hk1] at hk; exact (Except.ok.inj hk).symm
  subst hkk
  obtain ⟨key2, hk2', hlen2⟩ := hP.key_len p2 (drawnSalt rng)
  have hkk2 : key2 = k2 := by
    rw [hk2] at hk2'; exact (Except.ok.inj hk2').symm
  subst hkk2
  rw [hE]
  exact Decrypt_envelope hp2 (drawnNonce_length hr) (drawnSalt_length hr) hk2 hlen2

end crypt

/-- C6 as stated fails: "12345" and "12345" followed by a zero byte are different
passphrases, and the envelope made with the first decrypts to the plaintext
with the second under primitives whose key derivation pads the passphrase with
zeros; and no lawful primitives at all make every different passphrase fail,
since two passphrases always share a key. -/
theorem wrong_passphrase_not_always_rejected :
    (Demo.pass5 ≠ Demo.pass5z ∧ 5 ≤ Demo.pass5z.length ∧
      crypt.Decrypt Demo.prims (crypt.Encrypt Demo.prims Demo.rng Demo.foobar Demo.pass5).1
        Demo.pass5z = .returned (Demo.foobar, none)) ∧
    ¬ ∃ P : crypt.Primitives, P.Lawful ∧
      ∀ rng m p1 p2 : Bytes, 44 ≤ rng.length → m ≠ [] → 5 ≤ p1.length → 5 ≤ p2.length →
        p1 ≠ p2 →
        crypt.Decrypt P (crypt.Encrypt P rng m p1).1 p2
          = .returned ([], some .ErrCannotDecrypt) := by
  refine ⟨⟨by decide, by decide, by decide⟩, ?_⟩
  rintro ⟨P, hP, h⟩
  obtain ⟨p1, p2, hp1, hp2, hne, hcoll⟩ :=
    crypt.exists_colliding_passphrases hP (crypt.drawnSalt Demo.rng)
  obtain ⟨k, hk, hlen⟩ := hP.key_len p1 (crypt.drawnSalt Demo.rng)
  have hr : 44 ≤ Demo.rng.length := by decide
  have hm : Demo.foobar ≠ [] := by decide
  have h1 := h Demo.rng Demo.foobar p1 p2 hr hm hp1 hp2 hne
  rw [crypt.Decrypt_Encrypt_eq hP hp1 hp2 hm hr hk (hcoll ▸ hk),
    hP.open_seal k _ _ hlen (crypt.drawnNonce_length hr)] at h1
  simp at h1

/-- C6, amended: for lawful primitives, passphrases `p1`, `p2` of at least 5
bytes with keys `k1`, `k2` under the drawn salt, and a non-empty `m`,
`Decrypt(Encrypt(m, p1), p2)` is `ErrCannotDecrypt` exactly when `gcm.Open` under
`k2` refuses what was sealed under `k1`; when the two keys are equal it returns
`m`. -/
theorem Decrypt_Encrypt_other_passphrase (P : crypt.Primitives) (hP : P.Lawful)
    (rng m p1 p2 k1 k2 : Bytes)
    (hp1 : 5 ≤ p1.length) (hp2 : 5 ≤ p2.length) (hm : m ≠ []) (hr : 44 ≤ rng.length)
    (hk1 : P.scryptKey p1 (crypt.drawnSalt rng) = .ok k1)
    (hk2 : P.scryptKey p2 (crypt.drawnSalt rng) = .ok k2) :
    (crypt.Decrypt P (crypt.Encrypt P rng m p1).1 p2 = .returned ([], some .ErrCannotDecrypt) ↔
      P.gcmOpen k2 (crypt.drawnNonce rng) (P.gcmSeal k1 (crypt.drawnNonce rng) m)
        = .authFailed) ∧
    (k1 = k2 → crypt.Decrypt P (crypt.Encrypt P rng m p1).1 p2 = .returned (m, none)) := by
  have hD := crypt.Decrypt_Encrypt_eq hP hp1 hp2 hm hr hk1 hk2
  constructor
  · rw [hD]
    cases hO : P.gcmOpen k2 (crypt.drawnNonce rng) (P.gcmSeal k1 (crypt.drawnNonce rng) m) <;>
      simp
  · intro hkk
    subst hkk
    obtain ⟨key, hk, hlen⟩ := hP.key_len p1 (crypt.drawnSalt rng)
    have hkk : key = k1 := by
      rw [hk1] at hk; exact (Except.ok.inj hk).symm
    subst hkk
    rw [hD, hP.open_seal key _ m hlen (crypt.drawnNonce_length hr)]

theorem Decrypt_Encrypt_other_passphrase_witness :
    Demo.prims.Lawful ∧ 5 ≤ Demo.pass5.length ∧ 5 ≤ Demo.pass5alt.length ∧ Demo.foobar ≠ [] ∧
    44 ≤ Demo.rng.length ∧
    ((crypt.Decrypt Demo.prims (crypt.Encrypt Demo.prims Demo.rng Demo.foobar Demo.pass5).1
        Demo.pass5alt = .returned ([], some .ErrCannotDecrypt) ↔
      Demo.prims.gcmOpen (Demo.key Demo.pass5alt (crypt.drawnSalt Demo.rng))
        (crypt.drawnNonce Demo.rng)
        (Demo.prims.gcmSeal (Demo.key Demo.pass5 (crypt.drawnSalt Demo.rng))
          (crypt.drawnNonce Demo.rng) Demo.foobar) = .authFailed) ∧
     (Demo.key Demo.pass5 (crypt.drawnSalt Demo.rng)
        = Demo.key Demo.pass5alt (crypt.drawnSalt Demo.rng) →
      crypt.Decrypt Demo.prims (crypt.Encrypt Demo.prims Demo.rng Demo.foobar Demo.pass5).1
        Demo.pass5alt = .returned (Demo.foobar, none))) ∧
    crypt.Decrypt Demo.prims (crypt.Encrypt Demo.prims Demo.rng Demo.foobar Demo.pass5).1
        Demo.pass5alt = .returned ([], some .ErrCannotDecrypt) :=
  ⟨Demo.prims_lawful, by decide, by decide, by decide, by decide,
    Decrypt_Encrypt_other_passphrase Demo.prims Demo.prims_lawful Demo.rng Demo.foobar
      Demo.pass5 Demo.pass5alt _ _ (by decide) (by decide) (by decide) (by decide) rfl rfl,
    by decide⟩

/-! ## Tampering -/

/-- C7: for lawful primitives whose `Open` notices a replaced byte, a valid
passphrase `p` and a non-empty `m`, replacing the byte at any position `i` after
the 12-byte nonce and before the trailing 32-byte salt of `Encrypt(m, p)` by a
different value makes `Decrypt` with `p` return `ErrCannotDecrypt`. -/
theorem Decrypt_rejects_flipped_byte (P : crypt.Primitives) (hP : P.Lawful)
    (hF : P.DetectsByteFlip) (rng m p : Bytes)
    (hp : 5 ≤ p.length) (hm : m ≠ []) (hr : 44 ≤ rng.length) (i : Nat) (b : Byte)
    (hlo : crypt.gcmNonceSize ≤ i) (hhi : i + 32 < (crypt.Encrypt P rng m p).1.length)
    (hb : (crypt.Encrypt P rng m p).1[i]? ≠ some b) :
    crypt.Decrypt P ((crypt.Encrypt P rng m p).1.set i b) p
      = .returned ([], some .ErrCannotDecrypt) := by
  obtain ⟨key, hk, hlen, hE⟩ := crypt.Encrypt_eq hP hp hm hr
  have hn := crypt.drawnNonce_length hr
  have hs := crypt.drawnSalt_length hr
  rw [hE] at hhi hb ⊢
  simp only [List.length_append, hn, hs] at hhi
  have hlo2 : (crypt.drawnNonce rng).length ≤ i := by rw [hn]; exact hlo
  have hi1 : i < (crypt.drawnNonce rng ++ P.gcmSeal key (crypt.drawnNonce rng) m).length := by
    simp only [List.length_append, hn]; omega
  have hj : i - (crypt.drawnNonce rng).length
      < (P.gcmSeal key (crypt.drawnNonce rng) m).length := by
    rw [hn]; simp only [crypt.gcmNonceSize] at hlo hhi ⊢; omega
  have hb2 : (P.gcmSeal key (crypt.drawnNonce rng) m)[i - (crypt.drawnNonce rng).length]?
      ≠ some b := by
    simp only [] at hb
    rw [List.getElem?_append_left hi1, List.getElem?_append_right hlo2] at hb
    exact hb
  simp only []
  rw [List.set_append_left i b hi1, List.set_append_right i b hlo2,
    crypt.Decrypt_envelope hp hn hs hk hlen, hF key _ m _ b hlen hn hj hb2]

theorem Decrypt_rejects_flipped_byte_witness :
    Demo.prims.Lawful ∧ Demo.prims.DetectsByteFlip ∧ 5 ≤ Demo.pass5.length ∧ Demo.foobar ≠ [] ∧
    44 ≤ Demo.rng.length ∧ crypt.gcmNonceSize ≤ 14 ∧
    14 + 32 < (crypt.Encrypt Demo.prims Demo.rng Demo.foobar Demo.pass5).1.length ∧
    (crypt.Encrypt Demo.prims Demo.rng Demo.foobar Demo.pass5).1[14]? ≠ some 0 ∧
    crypt.Decrypt Demo.prims
      ((crypt.Encrypt Demo.prims Demo.rng Demo.foobar Demo.pass5).1.set 14 0) Demo.pass5
      = .returned ([], some .ErrCannotDecrypt) :=
  ⟨Demo.prims_lawful, Demo.prims_detectsByteFlip, by decide, by decide, by decide, by decide,
    by decide, by decide,
    Decrypt_rejects_flipped_byte Demo.prims Demo.prims_lawful Demo.prims_detectsByteFlip
      Demo.rng Demo.foobar Demo.pass5 (by decide) (by decide) (by decide) 14 0
      (by decide) (by decide) (by decide)⟩

/-! ## Fresh salt and nonce, validation, layout -/

/-- C8: for lawful primitives and valid inputs, two calls of `Encrypt(m, p)`, each
drawing its salt and its nonce from the random reader, both succeed, and their
envelopes are different byte sequences whenever the two drawn salts differ or
the two drawn nonces differ. -/
theorem Encrypt_envelopes_differ (P : crypt.Primitives) (hP : P.Lawful) (rng1 rng2 m p : Bytes)
    (hp : 5 ≤ p.length) (hm : m ≠ []) (hr1 : 44 ≤ rng1.length) (hr2 : 44 ≤ rng2.length)
    (hd : crypt.drawnSalt rng1 ≠ crypt.drawnSalt rng2 ∨
      crypt.drawnNonce rng1 ≠ crypt.drawnNonce rng2) :
    (crypt.Encrypt P rng1 m p).2 = none ∧ (crypt.Encrypt P rng2 m p).2 = none ∧
    (crypt.Encrypt P rng1 m p).1 ≠ (crypt.Encrypt P rng2 m p).1 := by
  obtain ⟨k1, _, _, hE1⟩ := crypt.Encrypt_eq hP hp hm hr1
  obtain ⟨k2, _, _, hE2⟩ := crypt.Encrypt_eq hP hp hm hr2
  rw [hE1, hE2]
  refine ⟨rfl, rfl, ?_⟩
  intro h
  simp only [] at h
  have hsalt := List.append_inj' h
    ((crypt.drawnSalt_length hr1).trans (crypt.drawnSalt_length hr2).symm)
  have hnonce := List.append_inj hsalt.1
    ((crypt.drawnNonce_length hr1).trans (crypt.drawnNonce_length hr2).symm)
  rcases hd with hd | hd
  · exact hd hsalt.2
  · exact hd hnonce.1

theorem Encrypt_envelopes_differ_witness :
    Demo.prims.Lawful ∧ 5 ≤ Demo.pass5.length ∧ Demo.foobar ≠ [] ∧ 44 ≤ Demo.rng.length ∧
    44 ≤ Demo.rngAlt.length ∧
    (crypt.drawnSalt Demo.rng ≠ crypt.drawnSalt Demo.rngAlt ∨
      crypt.drawnNonce Demo.rng ≠ crypt.drawnNonce Demo.rngAlt) ∧
    (crypt.Encrypt Demo.prims Demo.rng Demo.foobar Demo.pass5).2 = none ∧
    (crypt.Encrypt Demo.prims Demo.rngAlt Demo.foobar Demo.pass5).2 = none ∧
    (crypt.Encrypt Demo.prims Demo.rng Demo.foobar Demo.pass5).1
      ≠ (crypt.Encrypt Demo.prims Demo.rngAlt Demo.foobar Demo.pass5).1 :=
  ⟨Demo.prims_lawful, by decide, by decide, by decide, by decide, by decide,
    Encrypt_envelopes_differ Demo.prims Demo.prims_lawful Demo.rng Demo.rngAlt Demo.foobar
      Demo.pass5 (by decide) (by decide) (by decide) (by decide) (by decide)⟩

/-- C9: whatever the text, `Encrypt` and `Decrypt` return `ErrInvalidPassword` for
a passphrase shorter than 5 bytes; for a passphrase of at least 5 bytes they
return `ErrEmptyInputText` on an empty text; and `Encrypt` succeeds on every
non-empty text, given lawful primitives and a random reader that yields the 44
bytes asked of it. -/
theorem Encrypt_Decrypt_validation (P : crypt.Primitives) (rng t p : Bytes) :
    (p.length < 5 →
      crypt.Encrypt P rng t p = ([], some .ErrInvalidPassword) ∧
      crypt.Decrypt P t p = .returned ([], some .ErrInvalidPassword)) ∧
    (5 ≤ p.length → t = [] →
      crypt.Encrypt P rng t p = ([], some .ErrEmptyInputText) ∧
      crypt.Decrypt P t p = .returned ([], some .ErrEmptyInputText)) ∧
    (5 ≤ p.length → t ≠ [] → P.Lawful → 44 ≤ rng.length →
      (crypt.Encrypt P rng t p).2 = none ∧ (crypt.Encrypt P rng t p).1 ≠ []) := by
  refine ⟨?_, ?_, ?_⟩
  · intro h
    have hv : crypt.validCryptInputs t p = some .ErrInvalidPassword := by
      simp [crypt.validCryptInputs, crypt.isValidPassword, crypt.minPasswordLength, h]
    simp [crypt.Encrypt, crypt.Decrypt, hv]
  · intro h ht
    have hv : crypt.validCryptInputs t p = some .ErrEmptyInputText := by
      simp [crypt.validCryptInputs, crypt.isValidPassword, crypt.minPasswordLength, h, ht]
    simp [crypt.Encrypt, crypt.Decrypt, hv]
  · intro h ht hP hr
    obtain ⟨k, _, _, hE⟩ := crypt.Encrypt_eq hP h ht hr
    rw [hE]
    refine ⟨rfl, ?_⟩
    intro h0
    have := congrArg List.length h0
    simp [crypt.drawnSalt_length hr] at this

theorem Encrypt_Decrypt_validation_witness :
    (Demo.pass4.length < 5 ∧
      crypt.Encrypt Demo.prims Demo.rng Demo.foobar Demo.pass4 = ([], some .ErrInvalidPassword) ∧
      crypt.Decrypt Demo.prims Demo.foobar Demo.pass4
        = .returned ([], some .ErrInvalidPassword)) ∧
    (5 ≤ Demo.pass5.length ∧
      crypt.Encrypt Demo.prims Demo.rng [] Demo.pass5 = ([], some .ErrEmptyInputText) ∧
      crypt.Decrypt Demo.prims [] Demo.pass5 = .returned ([], some .ErrEmptyInputText)) ∧
    (Demo.foobar ≠ [] ∧ Demo.prims.Lawful ∧ 44 ≤ Demo.rng.length ∧
      (crypt.Encrypt Demo.prims Demo.rng Demo.foobar Demo.pass5).2 = none ∧
      (crypt.Encrypt Demo.prims Demo.rng Demo.foobar Demo.pass5).1 ≠ []) :=
  ⟨⟨by decide,
      (Encrypt_Decrypt_validation Demo.prims Demo.rng Demo.foobar Demo.pass4).1 (by decide)⟩,
    ⟨by decide,
      (Encrypt_Decrypt_validation Demo.prims Demo.rng [] Demo.pass5).2.1 (by decide) rfl⟩,
    ⟨by decide, Demo.prims_lawful, by decide,
      (Encrypt_Decrypt_validation Demo.prims Demo.rng Demo.foobar Demo.pass5).2.2
        (by decide) (by decide) Demo.prims_lawful (by decide)⟩⟩

/-- C10: for lawful primitives and valid inputs the envelope of `Encrypt(m, p)` is
nonce, then sealed text, then salt: its first 12 bytes are the nonce drawn and
given to `Seal`, its last 32 bytes are the salt drawn, the bytes between are
`Seal` of `m` under the key derived from `p` and that salt, and its length is
`len(m) + 12 + 16 + 32`. -/
theorem Encrypt_envelope_layout (P : crypt.Primitives) (hP : P.Lawful) (rng m p : Bytes)
    (hp : 5 ≤ p.length) (hm : m ≠ []) (hr : 44 ≤ rng.length) :
    ∃ key, P.scryptKey p (crypt.drawnSalt rng) = .ok key ∧
      (crypt.Encrypt P rng m p).2 = none ∧
      (crypt.Encrypt P rng m p).1.take crypt.gcmNonceSize = crypt.drawnNonce rng ∧
      (crypt.Encrypt P rng m p).1.drop ((crypt.Encrypt P rng m p).1.length - 32)
        = crypt.drawnSalt rng ∧
      ((crypt.Encrypt P rng m p).1.drop crypt.gcmNonceSize).take
          ((crypt.Encrypt P rng m p).1.length - crypt.gcmNonceSize - 32)
        = P.gcmSeal key (crypt.drawnNonce rng) m ∧
      (crypt.Encrypt P rng m p).1.length
        = m.length + crypt.gcmNonceSize + crypt.gcmTagSize + 32 := by
  obtain ⟨key, hk, hlen, hE⟩ := crypt.Encrypt_eq hP hp hm hr
  have hn := crypt.drawnNonce_length hr
  have hs := crypt.drawnSalt_length hr
  have hseal := hP.seal_len key (crypt.drawnNonce rng) m hlen hn
  refine ⟨key, hk, ?_⟩
  rw [hE]
  simp only []
  have hlenE : (crypt.drawnNonce rng ++ P.gcmSeal key (crypt.drawnNonce rng) m
      ++ crypt.drawnSalt rng).length = m.length + crypt.gcmNonceSize + crypt.gcmTagSize + 32 := by
    simp only [List.length_append, hn, hs, hseal]; omega
  refine ⟨trivial, ?_, ?_, ?_, hlenE⟩
  · rw [List.append_assoc, ← hn]; exact List.take_left _ _
  · have e1 : (crypt.drawnNonce rng ++ P.gcmSeal key (crypt.drawnNonce rng) m
        ++ crypt.drawnSalt rng).length - 32
        = (crypt.drawnNonce rng ++ P.gcmSeal key (crypt.drawnNonce rng) m).length := by
      simp only [List.length_append, hs]; omega
    rw [e1]; exact List.drop_left _ _
  · have e2 : (crypt.drawnNonce rng ++ P.gcmSeal key (crypt.drawnNonce rng) m
        ++ crypt.drawnSalt rng).length - crypt.gcmNonceSize - 32
        = (P.gcmSeal key (crypt.drawnNonce rng) m).length := by
      simp only [List.length_append, hs, hn]; omega
    have e3 : (crypt.drawnNonce rng ++ P.gcmSeal key (crypt.drawnNonce rng) m
        ++ crypt.drawnSalt rng).drop crypt.gcmNonceSize
        = P.gcmSeal key (crypt.drawnNonce rng) m ++ crypt.drawnSalt rng := by
      rw [List.append_assoc, ← hn]; exact List.drop_left _ _
    rw [e2, e3]; exact List.take_left _ _

theorem Encrypt_envelope_layout_witness :
    Demo.prims.Lawful ∧ 5 ≤ Demo.pass5.length ∧ Demo.foobar ≠ [] ∧ 44 ≤ Demo.rng.length ∧
    ∃ key, Demo.prims.scryptKey Demo.pass5 (crypt.drawnSalt Demo.rng) = .ok key ∧
      (crypt.Encrypt Demo.prims Demo.rng Demo.foobar Demo.pass5).2 = none ∧
      (crypt.Encrypt Demo.prims Demo.rng Demo.foobar Demo.pass5).1.take crypt.gcmNonceSize
        = crypt.drawnNonce Demo.rng ∧
      (crypt.Encrypt Demo.prims Demo.rng Demo.foobar Demo.pass5).1.drop
          ((crypt.Encrypt Demo.prims Demo.rng Demo.foobar Demo.pass5).1.length - 32)
        = crypt.drawnSalt Demo.rng ∧
      ((crypt.Encrypt Demo.prims Demo.rng Demo.foobar Demo.pass5).1.drop
          crypt.gcmNonceSize).take
          ((crypt.Encrypt Demo.prims Demo.rng Demo.foobar Demo.pass5).1.length
            - crypt.gcmNonceSize - 32)
        = Demo.prims.gcmSeal key (crypt.drawnNonce Demo.rng) Demo.foobar ∧
      (crypt.Encrypt Demo.prims Demo.rng Demo.foobar Demo.pass5).1.length
        = Demo.foobar.length + crypt.gcmNonceSize + crypt.gcmTagSize + 32 :=
  ⟨Demo.prims_lawful, by decide, by decide, by decide,
    Encrypt_envelope_layout Demo.prims Demo.prims_lawful Demo.rng Demo.foobar Demo.pass5
      (by decide) (by decide) (by decide)⟩

/-! ## Commit -/

namespace db

/-- The error `commit` returns is the error of `os.Create` or, once the
temporary file exists, the error of `Save`; what `Close` and `os.Rename` return
has no part in it. -/
theorem commit_error_eq (P : crypt.Primitives) (C : store.StoreCodec) (flt : os.Faults)
    (rng : Bytes) (d : PassDB) (fs : os.FS) :
    (commit P C flt rng d fs).1 =
      match flt.create with
      | some e => some e
      | none => (store.Save P C rng d.store (os.write flt (d.path ++ tmpSuffix))
          (fs.put (d.path ++ tmpSuffix) [])).1 := by
  unfold commit os.create
  cases flt.create <;> simp

/-- When creating, closing and renaming work and `commit` returns an error, the
file at `db.path` has become the empty file that `os.Create` made. -/
theorem commit_error_empties_db_file (P : crypt.Primitives) (C : store.StoreCodec)
    (flt : os.Faults) (rng : Bytes) (d : PassDB) (fs : os.FS) (e : Err)
    (hc : flt.create = none) (hcl : flt.close = none) (hrn : flt.rename = none)
    (herr : (commit P C flt rng d fs).1 = some e) :
    (commit P C flt rng d fs).2 d.path = some [] := by
  have hsave : (store.Save P C rng d.store (os.write flt (d.path ++ tmpSuffix))
      (fs.put (d.path ++ tmpSuffix) [])).2 = fs.put (d.path ++ tmpSuffix) [] := by
    have h1 := commit_error_eq P C flt rng d fs
    rw [herr, hc] at h1
    simp only [] at h1
    revert h1
    unfold store.Save
    cases C.marshal d.store.storeData with
    | error err => simp
    | ok sd =>
      simp only []
      rcases hE : crypt.Encrypt P rng sd d.store.password with ⟨enc, _ | err⟩
      · simp only [os.write]
        cases flt.write <;> simp
      · simp
  unfold commit os.create os.close os.rename
  simp only [hc, hcl, hrn]
  rw [hsave]
  simp [os.FS.put, os.FS.remove]

end db

/-- C3: with a full disk (`Write` fails, everything else works), `commit` returns
the write error and the file at `db.path`, which held an envelope, is now
empty: the temporary file was renamed over it. The same happens when encryption
fails because the random reader gives nothing. -/
theorem commit_failed_Save_overwrites_db_file :
    Demo.fs Demo.passDB.path = some Demo.oldBytes ∧ Demo.oldBytes ≠ [] ∧
    (db.commit Demo.prims Demo.codec Demo.diskFull Demo.rng Demo.passDB Demo.fs).1
      = some (.external 28) ∧
    (db.commit Demo.prims Demo.codec Demo.diskFull Demo.rng Demo.passDB Demo.fs).2
      Demo.passDB.path = some [] ∧
    (db.commit Demo.prims Demo.codec os.Faults.clean [] Demo.passDB Demo.fs).1
      = some .unexpectedEOF ∧
    (db.commit Demo.prims Demo.codec os.Faults.clean [] Demo.passDB Demo.fs).2
      Demo.passDB.path = some [] := by
  have h1 : (db.commit Demo.prims Demo.codec Demo.diskFull Demo.rng Demo.passDB Demo.fs).1
      = some (.external 28) := by decide
  have h2 : (db.commit Demo.prims Demo.codec os.Faults.clean [] Demo.passDB Demo.fs).1
      = some .unexpectedEOF := by decide
  exact ⟨by decide, by decide, h1,
    db.commit_error_empties_db_file _ _ _ _ _ _ _ rfl rfl rfl h1, h2,
    db.commit_error_empties_db_file _ _ _ _ _ _ _ rfl rfl rfl h2⟩

/-- C4: when only `os.Rename` fails, and when only `Close` fails, `commit` returns
a nil error although the file at `db.path` still holds the old envelope and the
new one sits in the temporary file. -/
theorem commit_swallows_close_and_rename_errors :
    (db.commit Demo.prims Demo.codec Demo.renameFails Demo.rng Demo.passDB Demo.fs).1 = none ∧
    (db.commit Demo.prims Demo.codec Demo.renameFails Demo.rng Demo.passDB Demo.fs).2
      Demo.passDB.path = some Demo.oldBytes ∧
    (db.commit Demo.prims Demo.codec Demo.closeFails Demo.rng Demo.passDB Demo.fs).1 = none ∧
    (db.commit Demo.prims Demo.codec Demo.closeFails Demo.rng Demo.passDB Demo.fs).2
      Demo.passDB.path = some Demo.oldBytes ∧
    (db.commit Demo.prims Demo.codec Demo.closeFails Demo.rng Demo.passDB Demo.fs).2
      (Demo.passDB.path ++ db.tmpSuffix)
      = some (crypt.Encrypt Demo.prims Demo.rng [123, 100, 98, 125] Demo.pass5).1 := by
  refine ⟨by decide, by decide, by decide, by decide, by decide⟩

/-! ## The document operations -/

namespace store

theorem entryOf_filter_ne (key k : GoString) (l : List (GoString × GoString)) :
    entryOf k (l.filter (fun kv => kv.1 ≠ key)) = if k = key then none else entryOf k l := by
  induction l with
  | nil => simp [entryOf]
  | cons a t ih =>
    obtain ⟨a1, a2⟩ := a
    by_cases h1 : a1 = key
    · subst h1
      by_cases h2 : k = a1
      · subst h2; simpa [List.filter, entryOf] using ih
      · have h3 : ¬ a1 = k := fun h => h2 h.symm
        simpa [List.filter, entryOf, h2, h3] using ih
    · by_cases h2 : k = key
      · subst h2
        simpa [List.filter, entryOf, h1] using ih
      · by_cases h3 : a1 = k
        · simp [List.filter, entryOf, h1, h2, h3]
        · simpa [List.filter, entryOf, h1, h2, h3] using ih

theorem entryOf_mapSet_self (l : List (GoString × GoString)) (key value : GoString) :
    entryOf key (mapSet l key value) = some value := by
  simp [mapSet, entryOf]

theorem entryOf_mapSet_ne (l : List (GoString × GoString)) {key k : GoString} (value : GoString)
    (h : k ≠ key) : entryOf k (mapSet l key value) = entryOf k l := by
  have h' : ¬ key = k := fun e => h e.symm
  unfold mapSet
  rw [entryOf, if_neg h', entryOf_filter_ne, if_neg h]

theorem entryOf_mapDelete_self (l : List (GoString × GoString)) (key : GoString) :
    entryOf key (mapDelete l key) = none := by
  unfold mapDelete
  rw [entryOf_filter_ne, if_pos rfl]

theorem entryOf_mapDelete_ne (l : List (GoString × GoString)) {key k : GoString}
    (h : k ≠ key) : entryOf k (mapDelete l key) = entryOf k l := by
  unfold mapDelete
  rw [entryOf_filter_ne, if_neg h]

/-- A map with the entries of the empty map is the empty map. -/
theorem eq_empty_of_sameEntries {m : GoMap} (h : sameEntries m (some [])) : m = some [] := by
  obtain ⟨h1, h2⟩ := h
  cases m with
  | none => simp at h1
  | some l =>
    cases l with
    | nil => rfl
    | cons a t =>
      have := h2 a.1
      simp [mapGet, entryOf] at this

end store

/-- C12: on the store that `ReplaceStoreData(nil)` leaves, the key "this" is not
empty and not present, as `GetStoreDataKeyValue` reports, yet
`CreateStoreDataKeyValue("this", "data")` does not return nil with the value in
place: the assignment to the `nil` map panics. -/
theorem CreateStoreDataKeyValue_absent_key_panics :
    store.ReplaceStoreData Demo.theStore none = Demo.storeNilMap ∧
    Demo.keyThis ≠ [] ∧
    store.GetStoreDataKeyValue Demo.storeNilMap Demo.keyThis
      = ([], some .ErrStoreDataKeyDoesNotExist) ∧
    store.CreateStoreDataKeyValue Demo.storeNilMap Demo.keyThis Demo.valData = .panicked :=
  ⟨by decide, by decide, by decide, by decide⟩

/-- What `CreateStoreDataKeyValue(key, value)` does where it returns: it returns
`ErrInvalidStoreDataKey` for the empty key and `ErrStoreDataKeyAlreadyExists` for
a key that is present, the store being the same afterwards; for a non-empty key
that is absent from a map that is not `nil` it returns nil and
`GetStoreDataKeyValue(key)` then returns `value`. -/
theorem CreateStoreDataKeyValue_returns (s : store.Store) (key value : GoString) :
    (key = [] →
      store.CreateStoreDataKeyValue s key value = .returned (some .ErrInvalidStoreDataKey, s)) ∧
    (key ≠ [] → ∀ old, store.mapGet s.storeData.Data key = some old →
      store.CreateStoreDataKeyValue s key value
        = .returned (some .ErrStoreDataKeyAlreadyExists, s) ∧
      store.GetStoreDataKeyValue s key = (old, none)) ∧
    (key ≠ [] → store.mapGet s.storeData.Data key = none → s.storeData.Data ≠ none →
      ∃ s', store.CreateStoreDataKeyValue s key value = .returned (none, s') ∧
        store.GetStoreDataKeyValue s' key = (value, none)) := by
  refine ⟨?_, ?_, ?_⟩
  · intro h
    simp [store.CreateStoreDataKeyValue, h]
  · intro h old hold
    cases hd : s.storeData.Data with
    | none => simp [store.mapGet, hd] at hold
    | some l =>
      simp only [store.mapGet, hd] at hold
      simp [store.CreateStoreDataKeyValue, store.GetStoreDataKeyValue, store.mapGet, h, hd, hold]
  · intro h habs hnil
    cases hd : s.storeData.Data with
    | none => exact absurd hd hnil
    | some l =>
      simp only [store.mapGet, hd] at habs
      refine ⟨_, by simp only [store.CreateStoreDataKeyValue, h, hd, habs, if_false]; rfl, ?_⟩
      simp [store.GetStoreDataKeyValue, store.mapGet, store.entryOf_mapSet_self]

/-- C13: `UpdateStoreDataKeyValue(key, value)` returns `ErrStoreDataKeyDoesNotExist`
for an absent key and `ErrNoChangeToStoreDataKeyValueMade` when the current value
is `value`, the store being the same afterwards; otherwise it returns nil and
`GetStoreDataKeyValue(key)` then returns the new value. -/
theorem UpdateStoreDataKeyValue_spec (s : store.Store) (key value : GoString) :
    (store.mapGet s.storeData.Data key = none →
      store.UpdateStoreDataKeyValue s key value = (some .ErrStoreDataKeyDoesNotExist, s)) ∧
    (store.mapGet s.storeData.Data key = some value →
      store.UpdateStoreDataKeyValue s key value
        = (some .ErrNoChangeToStoreDataKeyValueMade, s)) ∧
    (∀ current, store.mapGet s.storeData.Data key = some current → current ≠ value →
      ∃ s', store.UpdateStoreDataKeyValue s key value = (none, s') ∧
        store.GetStoreDataKeyValue s' key = (value, none)) := by
  cases hd : s.storeData.Data with
  | none => simp [store.UpdateStoreDataKeyValue, store.mapGet, hd]
  | some l =>
    refine ⟨?_, ?_, ?_⟩
    · intro h
      simp only [store.mapGet] at h
      simp [store.UpdateStoreDataKeyValue, hd, h]
    · intro h
      simp only [store.mapGet] at h
      simp [store.UpdateStoreDataKeyValue, hd, h]
    · intro current h hne
      simp only [store.mapGet] at h
      refine ⟨_, by simp only [store.UpdateStoreDataKeyValue, hd, h, if_neg hne]; rfl, ?_⟩
      simp [store.GetStoreDataKeyValue, store.mapGet, store.entryOf_mapSet_self]

theorem UpdateStoreDataKeyValue_spec_witness :
    (store.mapGet Demo.theStore.storeData.Data Demo.keyThis = none ∧
      store.UpdateStoreDataKeyValue Demo.theStore Demo.keyThis Demo.valData
        = (some .ErrStoreDataKeyDoesNotExist, Demo.theStore)) ∧
    (store.mapGet Demo.storeWithThis.storeData.Data Demo.keyThis = some Demo.valData ∧
      store.UpdateStoreDataKeyValue Demo.storeWithThis Demo.keyThis Demo.valData
        = (some .ErrNoChangeToStoreDataKeyValueMade, Demo.storeWithThis)) ∧
    (Demo.valData ≠ Demo.valMore ∧
      ∃ s', store.UpdateStoreDataKeyValue Demo.storeWithThis Demo.keyThis Demo.valMore
          = (none, s') ∧
        store.GetStoreDataKeyValue s' Demo.keyThis = (Demo.valMore, none)) :=
  ⟨⟨by decide,
      (UpdateStoreDataKeyValue_spec Demo.theStore Demo.keyThis Demo.valData).1 (by decide)⟩,
    ⟨by decide,
      (UpdateStoreDataKeyValue_spec Demo.storeWithThis Demo.keyThis Demo.valData).2.1
        (by decide)⟩,
    ⟨by decide,
      (UpdateStoreDataKeyValue_spec Demo.storeWithThis Demo.keyThis Demo.valMore).2.2
        Demo.valData (by decide) (by decide)⟩⟩

/-- C14: `DeleteStoreDataKey(key)` returns `ErrStoreDataKeyDoesNotExist` for an
absent key, the store being the same afterwards; for a key that is present it
returns nil, after which `GetStoreDataKeyValue(key)` returns the empty string
with `ErrStoreDataKeyDoesNotExist` and a second `DeleteStoreDataKey(key)` returns
`ErrStoreDataKeyDoesNotExist`. -/
theorem DeleteStoreDataKey_spec (s : store.Store) (key : GoString) :
    (store.mapGet s.storeData.Data key = none →
      store.DeleteStoreDataKey s key = (some .ErrStoreDataKeyDoesNotExist, s)) ∧
    (∀ current, store.mapGet s.storeData.Data key = some current →
      ∃ s', store.DeleteStoreDataKey s key = (none, s') ∧
        store.GetStoreDataKeyValue s' key = ([], some .ErrStoreDataKeyDoesNotExist) ∧
        store.DeleteStoreDataKey s' key = (some .ErrStoreDataKeyDoesNotExist, s')) := by
  cases hd : s.storeData.Data with
  | none => simp [store.DeleteStoreDataKey, store.mapGet, hd]
  | some l =>
    refine ⟨?_, ?_⟩
    · intro h
      simp only [store.mapGet] at h
      simp [store.DeleteStoreDataKey, hd, h]
    · intro current h
      simp only [store.mapGet] at h
      refine ⟨_, by simp only [store.DeleteStoreDataKey, hd, h]; rfl, ?_, ?_⟩
      · simp [store.GetStoreDataKeyValue, store.mapGet, store.entryOf_mapDelete_self]
      · simp [store.DeleteStoreDataKey, store.entryOf_mapDelete_self]

theorem DeleteStoreDataKey_spec_witness :
    (store.mapGet Demo.theStore.storeData.Data Demo.keyThis = none ∧
      store.DeleteStoreDataKey Demo.theStore Demo.keyThis
        = (some .ErrStoreDataKeyDoesNotExist, Demo.theStore)) ∧
    (store.mapGet Demo.storeWithThis.storeData.Data Demo.keyThis = some Demo.valData ∧
      ∃ s', store.DeleteStoreDataKey Demo.storeWithThis Demo.keyThis = (none, s') ∧
        store.GetStoreDataKeyValue s' Demo.keyThis = ([], some .ErrStoreDataKeyDoesNotExist) ∧
        store.DeleteStoreDataKey s' Demo.keyThis = (some .ErrStoreDataKeyDoesNotExist, s')) :=
  ⟨⟨by decide, (DeleteStoreDataKey_spec Demo.theStore Demo.keyThis).1 (by decide)⟩,
    ⟨by decide,
      (DeleteStoreDataKey_spec Demo.storeWithThis Demo.keyThis).2 Demo.valData (by decide)⟩⟩

/-! ## The codecs that give every document and every item back -/

namespace Demo

theorem joinHalves_halves (b : Byte) :
    joinHalves (Fin.ofNat (b.val / 16)) (Fin.ofNat (b.val % 16)) = b := by
  apply Fin.ext
  have := b.isLt
  simp only [joinHalves, Fin.ofNat, Fin.val_mk]
  omega

theorem getText_putText (s r : Bytes) : getText (putText s ++ r) = some (s, r) := by
  induction s with
  | nil => rcases r with _ | ⟨a, _ | ⟨b, _ | ⟨c, r⟩⟩⟩ <;> rfl
  | cons b s ih =>
    show getText (1 :: Fin.ofNat (b.val / 16) :: Fin.ofNat (b.val % 16) :: (putText s ++ r))
      = some (b :: s, r)
    simp [getText, ih, joinHalves_halves]

theorem length_lt_putTexts (ss : List Bytes) : ss.length < (putTexts ss).length := by
  induction ss with
  | nil => simp [putTexts]
  | cons s ss ih =>
    simp only [putTexts, List.length_cons, List.length_append]
    omega

theorem getTexts_putTexts (ss : List Bytes) (r : Bytes) (fuel : Nat) (h : ss.length < fuel) :
    getTexts fuel (putTexts ss ++ r) = some (ss, r) := by
  induction ss generalizing fuel with
  | nil =>
    cases fuel with
    | zero => omega
    | succ fuel => simp [putTexts, getTexts]
  | cons s ss ih =>
    cases fuel with
    | zero => omega
    | succ fuel =>
      have h2 : ss.length < fuel := by simp only [List.length_cons] at h; omega
      show getTexts (fuel + 1) (1 :: (putText s ++ putTexts ss ++ r)) = some (s :: ss, r)
      rw [List.append_assoc]
      simp [getTexts, getText_putText, ih fuel h2]

theorem getUnits_replicate (n : Nat) (r : Bytes) :
    getUnits (List.replicate n 1 ++ 0 :: r) = some (n, r) := by
  induction n with
  | zero => simp [getUnits]
  | succ n ih =>
    show getUnits (1 :: (List.replicate n 1 ++ 0 :: r)) = some (n + 1, r)
    simp [getUnits, ih]

theorem getCount_putCount (v : Int) (r : Bytes) : getCount (putCount v ++ r) = some (v, r) := by
  have hu := getUnits_replicate v.natAbs r
  by_cases hv : v < 0
  · have e : -(v.natAbs : Int) = v := by omega
    have h1 : ((1 : Byte) = 0) = False := by decide
    simp only [putCount, getCount, hv, if_true, List.cons_append, List.append_assoc,
      List.singleton_append, List.nil_append, hu, Option.map_some', h1, if_false, e]
  · have e : (v.natAbs : Int) = v := by omega
    simp only [putCount, getCount, hv, if_false, if_true, List.cons_append, List.append_assoc,
      List.singleton_append, List.nil_append, hu, Option.map_some', e]

theorem toPairs_flatten (l : List (Bytes × Bytes)) : toPairs (flatten l) = some l := by
  induction l with
  | nil => rfl
  | cons kv l ih =>
    obtain ⟨k, v⟩ := kv
    simp [flatten, toPairs, ih]

/-- The codec `textDoc` gives every document back. -/
theorem textDoc_unmarshal_marshal (sd : store.StoreData) :
    ∃ b, textDoc.marshal sd = .ok b ∧ b ≠ [] ∧ textDoc.unmarshal b = .ok sd := by
  refine ⟨_, rfl, by simp, ?_⟩
  have ht : getTexts ((putTexts (flatten (sd.Data.getD []))).length + 1)
      (putTexts (flatten (sd.Data.getD []))) = some (flatten (sd.Data.getD []), []) := by
    have := getTexts_putTexts (flatten (sd.Data.getD [])) []
      ((putTexts (flatten (sd.Data.getD []))).length + 1)
      (by have := length_lt_putTexts (flatten (sd.Data.getD [])); omega)
    simpa using this
  obtain ⟨name, version, data, password⟩ := sd
  cases data with
  | none =>
    simp only [Option.getD_none] at ht
    simp only [textDoc, getCount_putCount, getText_putText, Option.getD_none, ht]
    simp [toPairs_flatten]
  | some l =>
    simp only [Option.getD_some] at ht
    simp only [textDoc, getCount_putCount, getText_putText, Option.getD_some, ht]
    simp [toPairs_flatten]

/-- The codec `textItem` gives every item back. -/
theorem textItem_unmarshal_marshal (it : item.Item) :
    ∃ s, textItem.marshal it = .ok s ∧ s ≠ [] ∧ textItem.unmarshal s = .ok it := by
  refine ⟨_, rfl, ?_, ?_⟩
  · cases h : it.Name <;> simp [putText]
  have ht : getTexts ((putTexts (it.Notes.getD [])).length + 1) (putTexts (it.Notes.getD []))
      = some (it.Notes.getD [], []) := by
    have := getTexts_putTexts (it.Notes.getD []) [] ((putTexts (it.Notes.getD [])).length + 1)
      (by have := length_lt_putTexts (it.Notes.getD []); omega)
    simpa using this
  obtain ⟨name, id, username, password, url, notes⟩ := it
  cases notes with
  | none =>
    simp only [Option.getD_none] at ht
    simp only [textItem, getText_putText, Option.getD_none, ht]
    simp
  | some l =>
    simp only [Option.getD_some] at ht
    simp only [textItem, getText_putText, Option.getD_some, ht]
    simp

/-- The codec `jsonDoc` gives back every document of well-formed UTF-8. -/
theorem jsonDoc_givesBackUTF8 : jsonDoc.GivesBackUTF8 := by
  intro sd hv
  obtain ⟨b, hm, hb, hu⟩ := textDoc_unmarshal_marshal (json.coerceDoc sd)
  refine ⟨b, json.coerceDoc sd, hm, hb, hu, hv.1, rfl, ?_⟩
  rw [hv.2]
  exact ⟨rfl, fun _ => rfl⟩

/-- The codec `jsonItem` gives back every item of well-formed UTF-8. -/
theorem jsonItem_givesBackUTF8 : jsonItem.GivesBackUTF8 := by
  intro it hv
  obtain ⟨s, hm, hs, hu⟩ := textItem_unmarshal_marshal (json.coerceItem it)
  refine ⟨s, hm, hs, ?_⟩
  show textItem.unmarshal s = .ok it
  rw [hu]
  exact congrArg _ hv

end Demo

/-! ## Creating, saving and loading a store -/

namespace store

/-- What `Load` makes of an envelope that `Encrypt` has just produced from the
bytes `b`: the document `Unmarshal` reads from `b`. -/
theorem Load_of_Encrypt {P : crypt.Primitives} (hP : P.Lawful) (C : StoreCodec)
    {rng b password : Bytes} {sd : StoreData}
    (hp : 5 ≤ password.length) (hb : b ≠ []) (hr : 44 ≤ rng.length)
    (hu : C.unmarshal b = .ok sd) :
    (crypt.Encrypt P rng b password).2 = none ∧
    Load P C (.ok (crypt.Encrypt P rng b password).1) password
      = .returned (some { Source := none, storeData := sd, password := password }, none) := by
  obtain ⟨key, hk, hlen, hE⟩ := crypt.Encrypt_eq hP hp hb hr
  have hD : crypt.Decrypt P (crypt.Encrypt P rng b password).1 password = .returned (b, none) := by
    rw [hE]
    show crypt.Decrypt P (crypt.drawnNonce rng ++ P.gcmSeal key (crypt.drawnNonce rng) b
      ++ crypt.drawnSalt rng) password = _
    rw [crypt.Decrypt_envelope hp (crypt.drawnNonce_length hr) (crypt.drawnSalt_length hr) hk hlen,
      hP.open_seal key _ b hlen (crypt.drawnNonce_length hr)]
  refine ⟨by rw [hE], ?_⟩
  simp only [Load, hD, hu]

/-- With lawful primitives, a passphrase of at least 5 bytes and a random reader
with 44 bytes, `Save` writes the envelope of the marshalled document. -/
theorem Save_eq {σ : Type} {P : crypt.Primitives} (hP : P.Lawful) (C : StoreCodec)
    {rng b : Bytes} (s : Store) (w : Bytes → σ → Option Err × σ) (st : σ)
    (hp : 5 ≤ s.password.length) (hb : b ≠ []) (hr : 44 ≤ rng.length)
    (hm : C.marshal s.storeData = .ok b) :
    Save P C rng s w st = w (crypt.Encrypt P rng b s.password).1 st := by
  obtain ⟨key, _, _, hE⟩ := crypt.Encrypt_eq hP hp hb hr
  simp only [Save, hm, hE]

end store

/-- C11, amended: for lawful primitives, a codec that gives back every document
of well-formed UTF-8, and a store with a passphrase of at least 5 bytes (as every
store that `CreateStore` returned and `CreateStoreDataKeyValue` changed has)
whose name, keys and values are well-formed UTF-8, `Save` to an empty buffer
succeeds, and `Load` from that buffer with the same passphrase succeeds and
yields a store with the same name and the same entries: under every key the same
value, or none. -/
theorem Load_Save_roundtrip (P : crypt.Primitives) (hP : P.Lawful) (C : store.StoreCodec)
    (hC : C.GivesBackUTF8) (rng : Bytes) (s : store.Store) (hp : 5 ≤ s.password.length)
    (hr : 44 ≤ rng.length) (hv : json.ValidDoc s.storeData) :
    ∃ written loaded, store.Save P C rng s store.bufferWrite [] = (none, written) ∧
      store.Load P C (.ok written) s.password = .returned (some loaded, none) ∧
      store.sameEntries (store.GetAllStoreDataKeyValues loaded)
        (store.GetAllStoreDataKeyValues s) ∧
      store.GetStoreName loaded = store.GetStoreName s := by
  obtain ⟨b, sd, hm, hb, hu, hname, _, hsame⟩ := hC _ hv
  obtain ⟨_, hL⟩ := store.Load_of_Encrypt hP C hp hb hr hu
  refine ⟨(crypt.Encrypt P rng b s.password).1, _, ?_, hL, hsame, hname⟩
  rw [store.Save_eq hP C s store.bufferWrite [] hp hb hr hm]
  simp [store.bufferWrite]

theorem Load_Save_roundtrip_witness :
    Demo.prims.Lawful ∧ Demo.jsonDoc.GivesBackUTF8 ∧
    (store.CreateStore Demo.prims Demo.jsonDoc Demo.rng store.bufferWrite [] Demo.dbName
      Demo.pass5).1 = some Demo.theStore ∧
    store.CreateStoreDataKeyValue Demo.theStore Demo.keyThis Demo.valData
      = .returned (none, Demo.storeWithThis) ∧
    5 ≤ Demo.storeWithThis.password.length ∧ 44 ≤ Demo.rngAlt.length ∧
    json.ValidDoc Demo.storeWithThis.storeData ∧
    ∃ written loaded,
      store.Save Demo.prims Demo.jsonDoc Demo.rngAlt Demo.storeWithThis store.bufferWrite []
        = (none, written) ∧
      store.Load Demo.prims Demo.jsonDoc (.ok written) Demo.storeWithThis.password
        = .returned (some loaded, none) ∧
      store.sameEntries (store.GetAllStoreDataKeyValues loaded)
        (store.GetAllStoreDataKeyValues Demo.storeWithThis) ∧
      store.GetStoreName loaded = store.GetStoreName Demo.storeWithThis :=
  ⟨Demo.prims_lawful, Demo.jsonDoc_givesBackUTF8, by decide, by decide, by decide, by decide,
    ⟨by decide, by decide⟩,
    Load_Save_roundtrip Demo.prims Demo.prims_lawful Demo.jsonDoc Demo.jsonDoc_givesBackUTF8
      Demo.rngAlt Demo.storeWithThis (by decide) (by decide) ⟨by decide, by decide⟩⟩

set_option maxRecDepth 100000 in
/-- C11 as stated fails: the store `CreateStore` returned takes the key "\xff",
which is not UTF-8, and `Save` and `Load` succeed; the store that was saved has
the value "data" under that key, the store that was loaded has nothing under it
and has the value under U+FFFD instead. -/
theorem Load_Save_changes_key_not_UTF8 :
    (store.CreateStore Demo.prims Demo.jsonDoc Demo.rng store.bufferWrite [] Demo.dbName
      Demo.pass5).1 = some Demo.theStore ∧
    ∃ s written loaded,
      store.CreateStoreDataKeyValue Demo.theStore Demo.notUTF8 Demo.valData
        = .returned (none, s) ∧
      store.Save Demo.prims Demo.jsonDoc Demo.rngAlt s store.bufferWrite [] = (none, written) ∧
      store.Load Demo.prims Demo.jsonDoc (.ok written) Demo.pass5
        = .returned (some loaded, none) ∧
      store.mapGet (store.GetAllStoreDataKeyValues s) Demo.notUTF8 = some Demo.valData ∧
      store.mapGet (store.GetAllStoreDataKeyValues loaded) Demo.notUTF8 = none ∧
      store.mapGet (store.GetAllStoreDataKeyValues loaded) json.replacement
        = some Demo.valData :=
  ⟨by decide, _, _, _, rfl, rfl, rfl, by decide, by decide, by decide⟩

/-- C15, amended: for lawful primitives, a codec that gives back every document
of well-formed UTF-8, a non-empty name that is well-formed UTF-8 and a
passphrase of at least 5 bytes, `CreateStore` returns a store with that name,
version 1, an empty map and the passphrase as `StoreDataPassword`, and the bytes
it wrote load back, with the same passphrase, to a store with that name, version
1 and an empty map. -/
theorem CreateStore_spec (P : crypt.Primitives) (hP : P.Lawful) (C : store.StoreCodec)
    (hC : C.GivesBackUTF8) (rng name password : Bytes) (hn : name ≠ [])
    (hp : 5 ≤ password.length) (hr : 44 ≤ rng.length) (hv : json.coerce name = name) :
    ∃ s written loaded,
      store.CreateStore P C rng store.bufferWrite [] name password = (some s, none, written) ∧
      store.GetStoreName s = name ∧ store.StoreDataVersion s = 1 ∧
      store.GetAllStoreDataKeyValues s = some [] ∧ store.StoreDataPassword s = password ∧
      store.Load P C (.ok written) password = .returned (some loaded, none) ∧
      store.GetStoreName loaded = name ∧ store.StoreDataVersion loaded = 1 ∧
      store.GetAllStoreDataKeyValues loaded = some [] := by
  obtain ⟨b, sd, hm, hb, hu, hname, hver, hsame⟩ :=
    hC { Name := name, Version := 1, Data := some [], Password := password } ⟨hv, rfl⟩
  obtain ⟨hE2, hL⟩ := store.Load_of_Encrypt hP C hp hb hr hu
  refine ⟨{ Source := none, password := password,
             storeData := { Name := name, Version := 1, Data := some [], Password := password } },
    (crypt.Encrypt P rng b password).1, _, ?_, ?_, ?_, ?_, ?_, hL, hname, hver,
    store.eq_empty_of_sameEntries hsame⟩
  · obtain ⟨key, _, _, hE⟩ := crypt.Encrypt_eq hP hp hb hr
    simp only [store.CreateStore, if_neg hn, store.getSerialisedStoreData, hm, hE,
      store.bufferWrite, List.nil_append]
  all_goals rfl

theorem CreateStore_spec_witness :
    Demo.prims.Lawful ∧ Demo.jsonDoc.GivesBackUTF8 ∧ Demo.dbName ≠ [] ∧
    5 ≤ Demo.pass5.length ∧ 44 ≤ Demo.rng.length ∧ json.coerce Demo.dbName = Demo.dbName ∧
    ∃ s written loaded,
      store.CreateStore Demo.prims Demo.jsonDoc Demo.rng store.bufferWrite [] Demo.dbName
        Demo.pass5 = (some s, none, written) ∧
      store.GetStoreName s = Demo.dbName ∧ store.StoreDataVersion s = 1 ∧
      store.GetAllStoreDataKeyValues s = some [] ∧ store.StoreDataPassword s = Demo.pass5 ∧
      store.Load Demo.prims Demo.jsonDoc (.ok written) Demo.pass5
        = .returned (some loaded, none) ∧
      store.GetStoreName loaded = Demo.dbName ∧ store.StoreDataVersion loaded = 1 ∧
      store.GetAllStoreDataKeyValues loaded = some [] :=
  ⟨Demo.prims_lawful, Demo.jsonDoc_givesBackUTF8, by decide, by decide, by decide, by decide,
    CreateStore_spec Demo.prims Demo.prims_lawful Demo.jsonDoc Demo.jsonDoc_givesBackUTF8
      Demo.rng Demo.dbName Demo.pass5 (by decide) (by decide) (by decide) (by decide)⟩

set_option maxRecDepth 100000 in
/-- C15 as stated fails: for the name "\xff", which is not empty and not UTF-8,
`CreateStore` returns a store with that name, and the bytes it wrote load back
to a store whose name is U+FFFD, not that name. -/
theorem CreateStore_name_not_UTF8_changes :
    Demo.notUTF8 ≠ [] ∧ 5 ≤ Demo.pass5.length ∧
    ∃ s written loaded,
      store.CreateStore Demo.prims Demo.jsonDoc Demo.rng store.bufferWrite [] Demo.notUTF8
        Demo.pass5 = (some s, none, written) ∧
      store.GetStoreName s = Demo.notUTF8 ∧
      store.Load Demo.prims Demo.jsonDoc (.ok written) Demo.pass5
        = .returned (some loaded, none) ∧
      store.GetStoreName loaded = json.replacement ∧
      store.GetStoreName loaded ≠ Demo.notUTF8 :=
  ⟨by decide, by decide, _, _, _, rfl, by decide, rfl, by decide, by decide⟩

/-- C16: `CreateStore` with an empty name returns no store and `ErrStoreNameEmpty`,
whatever the passphrase; with a non-empty name and a passphrase shorter than 5
bytes it returns no store and `crypt.ErrInvalidPassword` (the fresh document
being one `json.Marshal` accepts); in both cases the writer is not called, so
what it writes to is as before. -/
theorem CreateStore_invalid_input {σ : Type} (P : crypt.Primitives) (C : store.StoreCodec)
    (rng : Bytes) (w : Bytes → σ → Option Err × σ) (st : σ) (name password : GoString) :
    (name = [] →
      store.CreateStore P C rng w st name password = (none, some .ErrStoreNameEmpty, st)) ∧
    (name ≠ [] → password.length < 5 →
      (∃ b, C.marshal { Name := name, Version := 1, Data := some [], Password := password }
        = .ok b) →
      store.CreateStore P C rng w st name password = (none, some .ErrInvalidPassword, st)) := by
  refine ⟨?_, ?_⟩
  · intro h
    simp [store.CreateStore, h]
  · rintro hn hp ⟨b, hm⟩
    have hv : crypt.validCryptInputs b password = some .ErrInvalidPassword := by
      simp [crypt.validCryptInputs, crypt.isValidPassword, crypt.minPasswordLength, hp]
    simp only [store.CreateStore, if_neg hn, store.getSerialisedStoreData, hm, crypt.Encrypt, hv]

theorem CreateStore_invalid_input_witness :
    (store.CreateStore Demo.prims Demo.docCodec Demo.rng store.bufferWrite [] [] Demo.pass4
      = (none, some .ErrStoreNameEmpty, [])) ∧
    (Demo.dbName ≠ [] ∧ Demo.pass4.length < 5 ∧
      (∃ b, Demo.docCodec.marshal
        { Name := Demo.dbName, Version := 1, Data := some [], Password := Demo.pass4 } = .ok b) ∧
      store.CreateStore Demo.prims Demo.docCodec Demo.rng store.bufferWrite [] Demo.dbName
        Demo.pass4 = (none, some .ErrInvalidPassword, [])) :=
  ⟨(CreateStore_invalid_input Demo.prims Demo.docCodec Demo.rng store.bufferWrite []
      [] Demo.pass4).1 rfl,
    by decide, by decide, ⟨_, rfl⟩,
    (CreateStore_invalid_input Demo.prims Demo.docCodec Demo.rng store.bufferWrite []
      Demo.dbName Demo.pass4).2 (by decide) (by decide) ⟨_, rfl⟩⟩

/-! ## Creating a database, items -/

/-- C17: `CreatePassDB` on a path at which a file exists returns no `PassDB` and
`ErrFileAlreadyExists`, whatever the name and the passphrase are, and the file
system, so also that file's contents, is as before. -/
theorem CreatePassDB_existing_file (P : crypt.Primitives) (C : store.StoreCodec)
    (flt : os.Faults) (rng : Bytes) (path name password : GoString) (fs : os.FS)
    (content : Bytes) (h : fs path = some content) :
    db.CreatePassDB P C flt rng path name password fs
      = (none, some .ErrFileAlreadyExists, fs) := by
  simp [db.CreatePassDB, db.createDBLocalFile, os.stat, h]

theorem CreatePassDB_existing_file_witness :
    Demo.fs Demo.dbName = some Demo.oldBytes ∧
    db.CreatePassDB Demo.prims Demo.docCodec os.Faults.clean Demo.rng Demo.dbName Demo.keyThis
      Demo.pass5 Demo.fs = (none, some .ErrFileAlreadyExists, Demo.fs) :=
  ⟨by decide,
    CreatePassDB_existing_file Demo.prims Demo.docCodec os.Faults.clean Demo.rng Demo.dbName
      Demo.keyThis Demo.pass5 Demo.fs Demo.oldBytes (by decide)⟩

/-- C18: `NewItem` returns `ErrNoItemNameSupplied` for an empty name, whatever the
other arguments; `ErrInsufficientInformation` for a non-empty name with empty
username, password and url and `nil` notes; and otherwise, when
`uuid.NewRandom` yields `uid`, an item with that ID whose Name, Username,
Password, URL and Notes are the arguments. -/
theorem NewItem_spec (u : Except Err Bytes) (name username password url : GoString)
    (notes : Option (List GoString)) :
    (name = [] →
      item.NewItem u name username password url notes = (none, some .ErrNoItemNameSupplied)) ∧
    (name ≠ [] → username = [] → password = [] → url = [] → notes = none →
      item.NewItem u name username password url notes
        = (none, some .ErrInsufficientInformation)) ∧
    (name ≠ [] → ¬ (username = [] ∧ password = [] ∧ url = [] ∧ notes = none) →
      ∀ uid, u = .ok uid →
        item.NewItem u name username password url notes =
          (some { Name := name, ID := uid, Username := username, Password := password,
                  URL := url, Notes := notes }, none)) := by
  refine ⟨?_, ?_, ?_⟩
  · intro h
    simp [item.NewItem, h]
  · intro hn h1 h2 h3 h4
    simp [item.NewItem, hn, h1, h2, h3, h4]
  · intro hn hinfo uid hu
    simp only [item.NewItem, if_neg hn, if_neg hinfo, hu]

theorem NewItem_spec_witness :
    (item.NewItem (.ok Demo.uuid) [] Demo.valData Demo.valData Demo.valData (some [Demo.valMore])
      = (none, some .ErrNoItemNameSupplied)) ∧
    (Demo.keyThis ≠ [] ∧
      item.NewItem (.ok Demo.uuid) Demo.keyThis [] [] [] none
        = (none, some .ErrInsufficientInformation)) ∧
    (¬ ((Demo.valData : GoString) = [] ∧ ([] : GoString) = [] ∧ ([] : GoString) = [] ∧
        (none : Option (List GoString)) = none) ∧
      item.NewItem (.ok Demo.uuid) Demo.keyThis Demo.valData [] [] none
        = (some Demo.theItem, none)) :=
  ⟨(NewItem_spec (.ok Demo.uuid) [] Demo.valData Demo.valData Demo.valData
      (some [Demo.valMore])).1 rfl,
    ⟨by decide,
      (NewItem_spec (.ok Demo.uuid) Demo.keyThis [] [] [] none).2.1 (by decide) rfl rfl rfl rfl⟩,
    ⟨by decide,
      (NewItem_spec (.ok Demo.uuid) Demo.keyThis Demo.valData [] [] none).2.2
        (by decide) (by decide) Demo.uuid rfl⟩⟩

namespace store

/-- What a successful `CreateStoreDataKeyValue` leaves under the key. -/
theorem GetStoreDataKeyValue_of_Create {s s' : Store} {key value : GoString}
    (h : CreateStoreDataKeyValue s key value = .returned (none, s')) :
    GetStoreDataKeyValue s' key = (value, none) := by
  unfold CreateStoreDataKeyValue at h
  by_cases hk : key = []
  · simp [hk] at h
  · rw [if_neg hk] at h
    cases hd : s.storeData.Data with
    | none => simp [hd] at h
    | some l =>
      cases he : entryOf key l with
      | some old => simp [hd, he] at h
      | none =>
        simp only [hd, he, Outcome.returned.injEq, Prod.mk.injEq, true_and] at h
        subst h
        simp [GetStoreDataKeyValue, mapGet, entryOf_mapSet_self]

/-- Looking up a key that is absent. -/
theorem GetStoreDataKeyValue_of_absent {s : Store} {key : GoString}
    (h : mapGet s.storeData.Data key = none) :
    GetStoreDataKeyValue s key = ([], some .ErrStoreDataKeyDoesNotExist) := by
  simp [GetStoreDataKeyValue, h]

end store

/-- C19, amended: for an item codec that gives back every item of well-formed
UTF-8, an item whose strings are well-formed UTF-8 and a `SaveNewItem` of it
that returned nil, `RetrieveItem` under the name of the item, on the `PassDB` as
`SaveNewItem` left it, succeeds and returns an item equal to it (Name, ID,
Username, Password, URL, Notes). -/
theorem RetrieveItem_after_SaveNewItem (P : crypt.Primitives) (C : store.StoreCodec)
    (IC : db.ItemCodec) (hIC : IC.GivesBackUTF8) (flt : os.Faults) (rng : Bytes) (d : db.PassDB)
    (it : item.Item) (fs : os.FS) (r : Option Err × db.PassDB × os.FS)
    (hv : json.ValidItem it)
    (hsave : db.SaveNewItem P C IC flt rng d (some it) fs = .returned r) (hok : r.1 = none) :
    db.RetrieveItem IC r.2.1 it.Name = (some it, none) := by
  obtain ⟨s, hm, hs, hu⟩ := hIC it hv
  simp only [db.SaveNewItem, db.serialiseItem, hm] at hsave
  cases hc : store.CreateStoreDataKeyValue d.store it.Name s with
  | panicked => simp [hc] at hsave
  | returned res =>
    obtain ⟨err, st⟩ := res
    cases err with
    | some e =>
      simp only [hc, Outcome.returned.injEq] at hsave
      subst hsave
      simp at hok
    | none =>
      simp only [hc, Outcome.returned.injEq] at hsave
      subst hsave
      have hg := store.GetStoreDataKeyValue_of_Create hc
      simp [db.RetrieveItem, hg, hs, hu]

set_option maxRecDepth 100000 in
theorem RetrieveItem_after_SaveNewItem_witness :
    Demo.jsonItem.GivesBackUTF8 ∧ json.ValidItem Demo.theItem ∧
    ∃ r, db.SaveNewItem Demo.prims Demo.jsonDoc Demo.jsonItem os.Faults.clean Demo.rng
        Demo.passDB (some Demo.theItem) Demo.fs = .returned r ∧ r.1 = none ∧
      db.RetrieveItem Demo.jsonItem r.2.1 Demo.theItem.Name = (some Demo.theItem, none) :=
  ⟨Demo.jsonItem_givesBackUTF8, by decide, _, rfl, by decide,
    RetrieveItem_after_SaveNewItem Demo.prims Demo.jsonDoc Demo.jsonItem
      Demo.jsonItem_givesBackUTF8 os.Faults.clean Demo.rng Demo.passDB Demo.theItem Demo.fs _
      (by decide) rfl (by decide)⟩

set_option maxRecDepth 100000 in
/-- C19 as stated fails: `NewItem` makes an item named "\xff", the name is not
in the `PassDB`, and `SaveNewItem` of the item returns nil; `RetrieveItem` under
that name then succeeds and returns an item whose `Name` is U+FFFD, which is
not the item that was saved. -/
theorem RetrieveItem_after_SaveNewItem_not_UTF8 :
    item.NewItem (.ok Demo.uuid) Demo.notUTF8 Demo.valData [] [] none
      = (some Demo.itemNotUTF8, none) ∧
    db.RetrieveItem Demo.jsonItem Demo.passDB Demo.itemNotUTF8.Name
      = (none, some .ErrItemDoesNotExist) ∧
    ∃ r got, db.SaveNewItem Demo.prims Demo.jsonDoc Demo.jsonItem os.Faults.clean Demo.rng
        Demo.passDB (some Demo.itemNotUTF8) Demo.fs = .returned r ∧ r.1 = none ∧
      db.RetrieveItem Demo.jsonItem r.2.1 Demo.itemNotUTF8.Name = (some got, none) ∧
      got.Name = json.replacement ∧ got ≠ Demo.itemNotUTF8 :=
  ⟨by decide, by decide, _, _, rfl, by decide, rfl, by decide, by decide⟩

/-- C20: for a name that is not a key of the store, `RetrieveItem(name)` returns
no item and `ErrItemDoesNotExist`, and `UpdateItem` of an item with that name,
`DeleteItem(name)` and `RenameItem(name, other)` with `other` different from
`name` each return `ErrItemDoesNotExist` with the `PassDB` and the file system as
they were: nothing is committed. -/
theorem absent_item_is_reported (P : crypt.Primitives) (C : store.StoreCodec)
    (IC : db.ItemCodec) (flt : os.Faults) (rng : Bytes) (d : db.PassDB) (fs : os.FS)
    (name : GoString) (habs : store.mapGet d.store.storeData.Data name = none) :
    db.RetrieveItem IC d name = (none, some .ErrItemDoesNotExist) ∧
    (∀ it : item.Item, it.Name = name →
      db.UpdateItem P C IC flt rng d (some it) fs = (some .ErrItemDoesNotExist, d, fs)) ∧
    db.DeleteItem P C flt rng d name fs = (some .ErrItemDoesNotExist, d, fs) ∧
    (∀ other, other ≠ name →
      db.RenameItem P C IC flt rng d name other fs
        = .returned (some .ErrItemDoesNotExist, d, fs)) := by
  have hg := store.GetStoreDataKeyValue_of_absent habs
  refine ⟨?_, ?_, ?_, ?_⟩
  · simp [db.RetrieveItem, hg]
  · intro it hit
    subst hit
    simp [db.UpdateItem, hg]
  · simp [db.DeleteItem, hg]
  · intro other hne
    have hne' : ¬ name = other := fun h => hne h.symm
    simp [db.RenameItem, hne', hg]

theorem absent_item_is_reported_witness :
    store.mapGet Demo.passDB.store.storeData.Data Demo.keyThis = none ∧
    db.RetrieveItem Demo.itemCodec Demo.passDB Demo.keyThis = (none, some .ErrItemDoesNotExist) ∧
    (∀ it : item.Item, it.Name = Demo.keyThis →
      db.UpdateItem Demo.prims Demo.docCodec Demo.itemCodec os.Faults.clean Demo.rng
        Demo.passDB (some it) Demo.fs = (some .ErrItemDoesNotExist, Demo.passDB, Demo.fs)) ∧
    db.DeleteItem Demo.prims Demo.docCodec os.Faults.clean Demo.rng Demo.passDB Demo.keyThis
      Demo.fs = (some .ErrItemDoesNotExist, Demo.passDB, Demo.fs) ∧
    (∀ other, other ≠ Demo.keyThis →
      db.RenameItem Demo.prims Demo.docCodec Demo.itemCodec os.Faults.clean Demo.rng
        Demo.passDB Demo.keyThis other Demo.fs
        = .returned (some .ErrItemDoesNotExist, Demo.passDB, Demo.fs)) :=
  ⟨by decide,
    absent_item_is_reported Demo.prims Demo.docCodec Demo.itemCodec os.Faults.clean Demo.rng
      Demo.passDB Demo.fs Demo.keyThis (by decide)⟩

/-! ## What the document operations return -/

namespace store

theorem filter_ne_of_absent (key : GoString) (l : List (GoString × GoString))
    (h : entryOf key l = none) : l.filter (fun kv => kv.1 ≠ key) = l := by
  induction l with
  | nil => rfl
  | cons a t ih =>
    obtain ⟨a1, a2⟩ := a
    by_cases h1 : a1 = key
    · simp [entryOf, h1] at h
    · simp only [entryOf, if_neg h1] at h
      simpa [List.filter, h1] using ih h

theorem mem_keys_iff (key : GoString) (l : List (GoString × GoString)) :
    key ∈ l.map (fun kv => kv.1) ↔ (entryOf key l).isSome = true := by
  induction l with
  | nil => simp [entryOf]
  | cons a t ih =>
    obtain ⟨a1, a2⟩ := a
    by_cases h1 : a1 = key
    · simp [entryOf, h1]
    · have h2 : ¬ key = a1 := fun h => h1 h.symm
      simp [entryOf, h1, h2, ih]

theorem length_filter_ne_of_present (key : GoString) (l : List (GoString × GoString))
    (hd : (l.map (fun kv => kv.1)).Nodup) (h : (entryOf key l).isSome = true) :
    (l.filter (fun kv => kv.1 ≠ key)).length + 1 = l.length := by
  induction l with
  | nil => simp [entryOf] at h
  | cons a t ih =>
    obtain ⟨a1, a2⟩ := a
    simp only [List.map_cons, List.nodup_cons] at hd
    by_cases h1 : a1 = key
    · subst h1
      have habs : entryOf a1 t = none := by
        cases he : entryOf a1 t with
        | none => rfl
        | some v =>
          exact absurd ((mem_keys_iff a1 t).mpr (by simp [he])) hd.1
      have hf := filter_ne_of_absent a1 t habs
      have hl := congrArg List.length hf
      simpa [List.filter] using hl
    · simp only [entryOf, if_neg h1] at h
      have := ih hd.2 h
      simpa [List.filter, h1] using this

theorem nodup_keys_filter (key : GoString) (l : List (GoString × GoString))
    (hd : (l.map (fun kv => kv.1)).Nodup) :
    ((l.filter (fun kv => kv.1 ≠ key)).map (fun kv => kv.1)).Nodup :=
  (List.Nodup.sublist (List.Sublist.map _ (List.filter_sublist l)) hd)

/-- What a `CreateStoreDataKeyValue` that returned nil has done. -/
theorem Create_ok_inv {s s' : Store} {key value : GoString}
    (h : CreateStoreDataKeyValue s key value = .returned (none, s')) :
    key ≠ [] ∧ ∃ l, s.storeData.Data = some l ∧ entryOf key l = none ∧
      s' = { s with storeData := { s.storeData with Data := some (mapSet l key value) } } := by
  unfold CreateStoreDataKeyValue at h
  by_cases hk : key = []
  · simp [hk] at h
  · rw [if_neg hk] at h
    refine ⟨hk, ?_⟩
    cases hd : s.storeData.Data with
    | none => simp [hd] at h
    | some l =>
      cases he : entryOf key l with
      | some old => simp [hd, he] at h
      | none =>
        simp only [hd, he, Outcome.returned.injEq, Prod.mk.injEq, true_and] at h
        exact ⟨l, rfl, he, h.symm⟩

/-- A `CreateStoreDataKeyValue` that returned an error has left the store alone. -/
theorem Create_err_inv {s s' : Store} {key value : GoString} {e : Err}
    (h : CreateStoreDataKeyValue s key value = .returned (some e, s')) : s' = s := by
  unfold CreateStoreDataKeyValue at h
  by_cases hk : key = []
  · simp [hk] at h
    exact h.2.symm
  · rw [if_neg hk] at h
    cases hd : s.storeData.Data with
    | none => simp [hd] at h
    | some l =>
      cases he : entryOf key l with
      | some old =>
        simp [hd, he] at h
        exact h.2.symm
      | none => simp [hd, he] at h

/-- The two ways `UpdateStoreDataKeyValue` ends. -/
theorem Update_inv (s : Store) (key value : GoString) :
    (∃ e, UpdateStoreDataKeyValue s key value = (some e, s) ∧
      (e = .ErrStoreDataKeyDoesNotExist ∧ mapGet s.storeData.Data key = none ∨
       e = .ErrNoChangeToStoreDataKeyValueMade ∧ mapGet s.storeData.Data key = some value)) ∨
    (∃ l current, s.storeData.Data = some l ∧ entryOf key l = some current ∧ current ≠ value ∧
      UpdateStoreDataKeyValue s key value =
        (none, { s with storeData := { s.storeData with Data := some (mapSet l key value) } })) := by
  cases hd : s.storeData.Data with
  | none =>
    exact Or.inl ⟨_, by simp [UpdateStoreDataKeyValue, hd], Or.inl ⟨rfl, rfl⟩⟩
  | some l =>
    cases he : entryOf key l with
    | none =>
      exact Or.inl ⟨_, by simp [UpdateStoreDataKeyValue, hd, he],
        Or.inl ⟨rfl, by simp [mapGet, he]⟩⟩
    | some current =>
      by_cases hv : current = value
      · subst hv
        exact Or.inl ⟨_, by simp [UpdateStoreDataKeyValue, hd, he],
          Or.inr ⟨rfl, by simp [mapGet, he]⟩⟩
      · exact Or.inr ⟨l, current, rfl, he, hv, by simp [UpdateStoreDataKeyValue, hd, he, hv]⟩

/-- The two ways `DeleteStoreDataKey` ends. -/
theorem Delete_inv (s : Store) (key : GoString) :
    (DeleteStoreDataKey s key = (some .ErrStoreDataKeyDoesNotExist, s) ∧
      mapGet s.storeData.Data key = none) ∨
    (∃ l current, s.storeData.Data = some l ∧ entryOf key l = some current ∧
      DeleteStoreDataKey s key =
        (none, { s with storeData := { s.storeData with Data := some (mapDelete l key) } })) := by
  cases hd : s.storeData.Data with
  | none => exact Or.inl ⟨by simp [DeleteStoreDataKey, hd], rfl⟩
  | some l =>
    cases he : entryOf key l with
    | none => exact Or.inl ⟨by simp [DeleteStoreDataKey, hd, he], by simp [mapGet, he]⟩
    | some current => exact Or.inr ⟨l, current, rfl, he, by simp [DeleteStoreDataKey, hd, he]⟩

/-- `GetStoreDataKeyValue` returns the entry, or the error for an absent key. -/
theorem Get_eq (s : Store) (key : GoString) :
    GetStoreDataKeyValue s key =
      match mapGet s.storeData.Data key with
      | none => ([], some .ErrStoreDataKeyDoesNotExist)
      | some value => (value, none) := rfl

end store

/-! ## What the item operations return -/

namespace db

theorem withData_store (d : PassDB) (l : List (GoString × GoString)) :
    ({ d with store := { d.store with
        storeData := { d.store.storeData with Data := some l } } } : PassDB) = withData d l := rfl

/-- `SaveNewItem` either returns an error with nothing changed, or has put the
serialised item under its name and returns what the commit step gives. -/
theorem SaveNewItem_inv {P : crypt.Primitives} {C : store.StoreCodec} {IC : ItemCodec}
    {flt : os.Faults} {rng : Bytes} {d : PassDB} {passItem : Option item.Item} {fs : os.FS}
    {r : Option Err × PassDB × os.FS}
    (h : SaveNewItem P C IC flt rng d passItem fs = .returned r) :
    (r.1 ≠ none ∧ r.2.1 = d ∧ r.2.2 = fs) ∨
    (∃ it s l, passItem = some it ∧ IC.marshal it = .ok s ∧ it.Name ≠ [] ∧
      d.store.storeData.Data = some l ∧ store.entryOf it.Name l = none ∧
      r = committed P C flt rng (withData d (store.mapSet l it.Name s)) fs) := by
  cases passItem with
  | none =>
    simp only [SaveNewItem, Outcome.returned.injEq] at h
    subst h
    exact Or.inl ⟨by simp, rfl, rfl⟩
  | some it =>
    simp only [SaveNewItem, serialiseItem] at h
    cases hm : IC.marshal it with
    | error e =>
      simp only [hm, Outcome.returned.injEq] at h
      subst h
      exact Or.inl ⟨by simp, rfl, rfl⟩
    | ok s =>
      simp only [hm] at h
      cases hc : store.CreateStoreDataKeyValue d.store it.Name s with
      | panicked => simp [hc] at h
      | returned res =>
        obtain ⟨err, st⟩ := res
        cases err with
        | some e =>
          have hst := store.Create_err_inv hc
          subst hst
          simp only [hc, Outcome.returned.injEq] at h
          subst h
          exact Or.inl ⟨by simp, rfl, rfl⟩
        | none =>
          obtain ⟨hne, l, hl, habs, hst⟩ := store.Create_ok_inv hc
          subst hst
          simp only [hc, Outcome.returned.injEq] at h
          subst h
          exact Or.inr ⟨it, s, l, rfl, hm, hne, hl, habs, rfl⟩

/-- `UpdateItem` either returns an error with nothing changed, or has replaced
the stored value by the serialised item and returns what the commit step gives. -/
theorem UpdateItem_inv (P : crypt.Primitives) (C : store.StoreCodec) (IC : ItemCodec)
    (flt : os.Faults) (rng : Bytes) (d : PassDB) (passItem : Option item.Item) (fs : os.FS) :
    ((UpdateItem P C IC flt rng d passItem fs).1 ≠ none ∧
      (UpdateItem P C IC flt rng d passItem fs).2.1 = d ∧
      (UpdateItem P C IC flt rng d passItem fs).2.2 = fs) ∨
    (∃ it s l current, passItem = some it ∧ IC.marshal it = .ok s ∧
      d.store.storeData.Data = some l ∧ store.entryOf it.Name l = some current ∧ current ≠ s ∧
      UpdateItem P C IC flt rng d passItem fs
        = committed P C flt rng (withData d (store.mapSet l it.Name s)) fs) := by
  cases passItem with
  | none => exact Or.inl ⟨by simp [UpdateItem], rfl, rfl⟩
  | some it =>
    cases hg : store.mapGet d.store.storeData.Data it.Name with
    | none =>
      refine Or.inl ?_
      simp [UpdateItem, store.Get_eq, hg]
    | some stored =>
      cases hm : IC.marshal it with
      | error e =>
        refine Or.inl ?_
        simp [UpdateItem, store.Get_eq, hg, serialiseItem, hm]
      | ok s =>
        rcases store.Update_inv d.store it.Name s with ⟨e, hu, hcase⟩ | ⟨l, current, hl, he, hne, hu⟩
        · rcases hcase with ⟨_, habs⟩ | ⟨he, _⟩
          · rw [hg] at habs
            exact absurd habs (by simp)
          · subst he
            refine Or.inl ?_
            simp [UpdateItem, store.Get_eq, hg, serialiseItem, hm, hu]
        · refine Or.inr ⟨it, s, l, current, rfl, hm, hl, he, hne, ?_⟩
          simp [UpdateItem, store.Get_eq, hg, serialiseItem, hm, hu, committed, withData]

/-- `DeleteItem` either returns an error with nothing changed, or has removed the
entry and returns what the commit step gives. -/
theorem DeleteItem_inv (P : crypt.Primitives) (C : store.StoreCodec)
    (flt : os.Faults) (rng : Bytes) (d : PassDB) (name : GoString) (fs : os.FS) :
    ((DeleteItem P C flt rng d name fs).1 ≠ none ∧
      (DeleteItem P C flt rng d name fs).2.1 = d ∧
      (DeleteItem P C flt rng d name fs).2.2 = fs) ∨
    (∃ l current, d.store.storeData.Data = some l ∧ store.entryOf name l = some current ∧
      DeleteItem P C flt rng d name fs
        = committed P C flt rng (withData d (store.mapDelete l name)) fs) := by
  rcases store.Delete_inv d.store name with ⟨hdel, habs⟩ | ⟨l, current, hl, he, hdel⟩
  · refine Or.inl ?_
    simp [DeleteItem, store.Get_eq, habs]
  · have hg : store.mapGet d.store.storeData.Data name = some current := by
      simp [store.mapGet, hl, he]
    refine Or.inr ⟨l, current, hl, he, ?_⟩
    simp [DeleteItem, store.Get_eq, hg, hdel, committed, withData]

/-- `RenameItem` either returns an error with nothing changed, or has put the
item, read from the stored value and given the new name, under the new name,
removed the old entry, and returns what the commit step gives. -/
theorem RenameItem_inv {P : crypt.Primitives} {C : store.StoreCodec} {IC : ItemCodec}
    {flt : os.Faults} {rng : Bytes} {d : PassDB} {current desired : GoString} {fs : os.FS}
    {r : Option Err × PassDB × os.FS}
    (h : RenameItem P C IC flt rng d current desired fs = .returned r) :
    (r.1 ≠ none ∧ r.2.1 = d ∧ r.2.2 = fs) ∨
    (∃ l retrieved orig s, current ≠ desired ∧ desired ≠ [] ∧
      d.store.storeData.Data = some l ∧ store.entryOf current l = some retrieved ∧
      store.entryOf desired l = none ∧ IC.unmarshal retrieved = .ok orig ∧
      IC.marshal { orig with Name := desired } = .ok s ∧
      r = committed P C flt rng
        (withData d (store.mapDelete (store.mapSet l desired s) current)) fs) := by
  unfold RenameItem at h
  by_cases hcd : current = desired
  · simp only [hcd, if_true, Outcome.returned.injEq] at h
    subst h
    exact Or.inl ⟨by simp, rfl, rfl⟩
  · rw [if_neg hcd] at h
    cases hgc : store.mapGet d.store.storeData.Data current with
    | none =>
      simp only [store.Get_eq, hgc, if_true, Outcome.returned.injEq] at h
      subst h
      exact Or.inl ⟨by simp, rfl, rfl⟩
    | some retrieved =>
      simp only [store.Get_eq, hgc] at h
      cases hgd : store.mapGet d.store.storeData.Data desired with
      | some other =>
        simp only [hgd, Outcome.returned.injEq] at h
        subst h
        exact Or.inl ⟨by simp, rfl, rfl⟩
      | none =>
        simp only [hgd] at h
        cases hu : IC.unmarshal retrieved with
        | error e =>
          simp only [hu, Outcome.returned.injEq] at h
          subst h
          exact Or.inl ⟨by simp, rfl, rfl⟩
        | ok orig =>
          simp only [hu, serialiseItem] at h
          cases hm : IC.marshal { orig with Name := desired } with
          | error e =>
            simp only [hm, Outcome.returned.injEq] at h
            subst h
            exact Or.inl ⟨by simp, rfl, rfl⟩
          | ok s =>
            simp only [hm] at h
            cases hc : store.CreateStoreDataKeyValue d.store desired s with
            | panicked => simp [hc] at h
            | returned res =>
              obtain ⟨err, st⟩ := res
              cases err with
              | some e =>
                have hst := store.Create_err_inv hc
                subst hst
                simp only [hc, Outcome.returned.injEq] at h
                subst h
                exact Or.inl ⟨by simp, rfl, rfl⟩
              | none =>
                obtain ⟨hne, l, hl, habs, hst⟩ := store.Create_ok_inv hc
                subst hst
                simp only [hc] at h
                have hcur : store.entryOf current l = some retrieved := by
                  simpa [store.mapGet, hl] using hgc
                rcases store.Delete_inv
                    { d.store with storeData :=
                        { d.store.storeData with Data := some (store.mapSet l desired s) } }
                    current with ⟨_, hdabs⟩ | ⟨l', cur, hl', _, hdel⟩
                · simp only [store.mapGet, store.entryOf_mapSet_ne l s hcd, hcur] at hdabs
                  exact absurd hdabs (by simp)
                · simp only [Option.some.injEq] at hl'
                  subst hl'
                  simp only [hdel, Outcome.returned.injEq] at h
                  subst h
                  exact Or.inr ⟨l, retrieved, orig, s, hcd, hne, hl, hcur, habs, hu, hm, rfl⟩

/-- `RenameItem` never panics: the data map is not `nil` once the current name
has been found in it. -/
theorem RenameItem_returns (P : crypt.Primitives) (C : store.StoreCodec) (IC : ItemCodec)
    (flt : os.Faults) (rng : Bytes) (d : PassDB) (current desired : GoString) (fs : os.FS) :
    ∃ r, RenameItem P C IC flt rng d current desired fs = .returned r := by
  unfold RenameItem
  by_cases hcd : current = desired
  · exact ⟨_, by rw [if_pos hcd]⟩
  · rw [if_neg hcd]
    cases hgc : store.mapGet d.store.storeData.Data current with
    | none => simp only [store.Get_eq, hgc]; split <;> exact ⟨_, rfl⟩
    | some retrieved =>
      simp only [store.Get_eq, hgc]
      cases hgd : store.mapGet d.store.storeData.Data desired with
      | some other => exact ⟨_, rfl⟩
      | none =>
        simp only []
        cases hu : IC.unmarshal retrieved with
        | error e => exact ⟨_, rfl⟩
        | ok orig =>
          simp only [serialiseItem]
          cases hm : IC.marshal { orig with Name := desired } with
          | error e => exact ⟨_, rfl⟩
          | ok s =>
            simp only []
            cases hd : d.store.storeData.Data with
            | none => simp [store.mapGet, hd] at hgc
            | some l =>
              cases hc : store.CreateStoreDataKeyValue d.store desired s with
              | panicked =>
                simp only [store.CreateStoreDataKeyValue, hd] at hc
                split at hc
                · simp at hc
                · split at hc <;> simp at hc
              | returned res =>
                obtain ⟨err, st⟩ := res
                cases err with
                | some e => exact ⟨_, rfl⟩
                | none =>
                  simp only []
                  rcases hdel : store.DeleteStoreDataKey st current with ⟨_ | e, st2⟩
                  · exact ⟨_, rfl⟩
                  · exact ⟨_, rfl⟩

end db

/-! ## A commit that worked -/

namespace crypt

/-- When `Encrypt` returns a nil error, the passphrase has at least 5 bytes, the
text is not empty and the random reader had 44 bytes. -/
theorem Encrypt_ok_inv {P : Primitives} {rng text password e : Bytes}
    (h : Encrypt P rng text password = (e, none)) :
    5 ≤ password.length ∧ text ≠ [] ∧ 44 ≤ rng.length := by
  unfold Encrypt at h
  by_cases hp : 5 ≤ password.length
  · by_cases ht : text = []
    · subst ht
      simp [validCryptInputs, isValidPassword, minPasswordLength, hp] at h
    · refine ⟨hp, ht, ?_⟩
      rw [validCryptInputs_eq_none hp ht] at h
      simp only [encrypt, deriveKey, readFull] at h
      by_cases h1 : rng.length < saltSize
      · simp [h1] at h
      · simp only [if_neg h1] at h
        cases hk : P.scryptKey password (rng.take saltSize) with
        | error err => simp [hk] at h
        | ok key =>
          simp only [hk] at h
          by_cases h2 : key.length < 32
          · simp [h2] at h
          · simp only [if_neg h2] at h
            cases ha : aesNewCipher key with
            | some err => simp [ha] at h
            | none =>
              simp only [ha] at h
              simp only [List.length_drop] at h
              by_cases h3 : rng.length - saltSize < gcmNonceSize
              · simp [h3] at h
              · simp only [saltSize, gcmNonceSize] at h1 h3
                omega
  · have hv : validCryptInputs text password = some .ErrInvalidPassword := by
      simp [validCryptInputs, isValidPassword, minPasswordLength]
      omega
    simp [hv] at h

end crypt

namespace db

theorem tmp_path_ne (path : GoString) : path ++ tmpSuffix ≠ path := by
  intro h
  have := congrArg List.length h
  simp [tmpSuffix] at this

/-- With lawful primitives, no failing system call and a codec that gives the
document back, a `commit` that returns nil leaves the document persisted. -/
theorem commit_clean_ok {P : crypt.Primitives} (hP : P.Lawful) (C : store.StoreCodec)
    (rng : Bytes) (d : PassDB) (fs : os.FS) (hC : C.RoundTrips d.store.storeData)
    (h : (commit P C os.Faults.clean rng d fs).1 = none) :
    Persisted P C d (commit P C os.Faults.clean rng d fs).2 := by
  obtain ⟨b, sd, hm, hb, hu, hname, _, hsame⟩ := hC
  rcases hE : crypt.Encrypt P rng b d.store.password with ⟨enc, _ | err⟩
  · obtain ⟨hp, _, hr⟩ := crypt.Encrypt_ok_inv hE
    obtain ⟨_, hL⟩ := store.Load_of_Encrypt hP C hp hb hr hu
    rw [hE] at hL
    have hfs : (commit P C os.Faults.clean rng d fs).2
        = ((fs.put (d.path ++ tmpSuffix) []).put (d.path ++ tmpSuffix) enc
            |>.remove (d.path ++ tmpSuffix)).put d.path enc := by
      simp [commit, os.create, os.close, os.rename, os.write, os.Faults.clean, store.Save, hm, hE,
        os.FS.put]
    rw [hfs]
    refine ⟨?_, ?_⟩
    · simp [os.FS.put, os.FS.remove, tmp_path_ne, tmpSuffix]
    · refine ⟨{ store := { Source := none, storeData := sd, password := d.store.password },
                path := d.path }, ?_, hname, hsame⟩
      simp only [LoadExistingPassDB, os.FS.put, if_true, hL]
  · simp [commit, os.create, os.Faults.clean, store.Save, hm, hE] at h

end db

/-! ## Invariant, frame and safety of the document operations -/

namespace store

/-- What `CreateStore` returns when it returns a store. -/
theorem CreateStore_ok_inv {σ : Type} {P : crypt.Primitives} {C : StoreCodec} {rng : Bytes}
    {w : Bytes → σ → Option Err × σ} {st st' : σ} {name password : GoString} {s : Store}
    {e : Option Err}
    (h : CreateStore P C rng w st name password = (some s, e, st')) :
    name ≠ [] ∧
    s = { Source := none, password := password,
          storeData := { Name := name, Version := 1, Data := some [], Password := password } } := by
  unfold CreateStore at h
  by_cases hn : name = []
  · simp [hn] at h
  · refine ⟨hn, ?_⟩
    rw [if_neg hn] at h
    simp only [] at h
    cases hs : getSerialisedStoreData C
        { Name := name, Version := 1, Data := some [], Password := password } with
    | error err => simp [hs] at h
    | ok b =>
      simp only [hs] at h
      rcases hE : crypt.Encrypt P rng b password with ⟨enc, _ | err⟩
      · simp only [hE] at h
        rcases hw : w enc st with ⟨_ | err, st2⟩
        · simp only [hw, Prod.mk.injEq, Option.some.injEq] at h
          exact h.1.symm
        · simp [hw] at h
      · simp [hE] at h

end store

/-- C28: a `CreateStoreDataKeyValue`, `UpdateStoreDataKeyValue` or
`DeleteStoreDataKey` on `key` that returned nil has left every other key with
the same value, or absent as before, and the name, the version, the echoed
passphrase and the passphrase of the store as they were; `ReplaceStoreData` sets
the data map and leaves those four as they were; the version of a store from
`CreateStore` is 1. -/
theorem store_operations_frame (s s' : store.Store) (key value : GoString) :
    (store.CreateStoreDataKeyValue s key value = .returned (none, s') ∨
      store.UpdateStoreDataKeyValue s key value = (none, s') ∨
      store.DeleteStoreDataKey s key = (none, s') →
      (∀ k, k ≠ key → store.mapGet s'.storeData.Data k = store.mapGet s.storeData.Data k) ∧
      store.GetStoreName s' = store.GetStoreName s ∧
      store.StoreDataVersion s' = store.StoreDataVersion s ∧
      store.StoreDataPassword s' = store.StoreDataPassword s ∧ s'.password = s.password) ∧
    (∀ replacement, store.GetAllStoreDataKeyValues (store.ReplaceStoreData s replacement)
        = replacement ∧
      store.GetStoreName (store.ReplaceStoreData s replacement) = store.GetStoreName s ∧
      store.StoreDataVersion (store.ReplaceStoreData s replacement)
        = store.StoreDataVersion s ∧
      store.StoreDataPassword (store.ReplaceStoreData s replacement)
        = store.StoreDataPassword s ∧
      (store.ReplaceStoreData s replacement).password = s.password) ∧
    (∀ (P : crypt.Primitives) (C : store.StoreCodec) (rng written : Bytes)
        (name password : GoString) (created : store.Store),
      store.CreateStore P C rng store.bufferWrite [] name password
        = (some created, none, written) →
      store.StoreDataVersion created = 1) := by
  refine ⟨?_, ?_, ?_⟩
  · rintro (h | h | h)
    · obtain ⟨_, l, hl, _, hs'⟩ := store.Create_ok_inv h
      subst hs'
      refine ⟨fun k hk => ?_, rfl, rfl, rfl, rfl⟩
      simp [store.mapGet, hl, store.entryOf_mapSet_ne l value hk]
    · rcases store.Update_inv s key value with ⟨e, hu, _⟩ | ⟨l, _, hl, _, _, hu⟩
      · rw [hu] at h
        simp at h
      · rw [hu] at h
        simp only [Prod.mk.injEq, true_and] at h
        subst h
        refine ⟨fun k hk => ?_, rfl, rfl, rfl, rfl⟩
        simp [store.mapGet, hl, store.entryOf_mapSet_ne l value hk]
    · rcases store.Delete_inv s key with ⟨hu, _⟩ | ⟨l, _, hl, _, hu⟩
      · rw [hu] at h
        simp at h
      · rw [hu] at h
        simp only [Prod.mk.injEq, true_and] at h
        subst h
        refine ⟨fun k hk => ?_, rfl, rfl, rfl, rfl⟩
        simp [store.mapGet, hl, store.entryOf_mapDelete_ne l hk]
  · intro replacement
    exact ⟨rfl, rfl, rfl, rfl, rfl⟩
  · intro P C rng written name password created h
    obtain ⟨_, hs⟩ := store.CreateStore_ok_inv h
    subst hs
    rfl

theorem store_operations_frame_witness :
    (store.CreateStoreDataKeyValue Demo.storeWithThis Demo.keyThat Demo.valMore
        = .returned (none,
          { Demo.theStore with storeData := { Demo.theStore.storeData with
              Data := some [(Demo.keyThat, Demo.valMore), (Demo.keyThis, Demo.valData)] } }) ∧
      store.mapGet (some [(Demo.keyThat, Demo.valMore), (Demo.keyThis, Demo.valData)])
        Demo.keyThis = store.mapGet Demo.storeWithThis.storeData.Data Demo.keyThis) ∧
    (store.GetAllStoreDataKeyValues (store.ReplaceStoreData Demo.storeWithThis none) = none ∧
      store.GetStoreName (store.ReplaceStoreData Demo.storeWithThis none) = Demo.dbName) ∧
    (store.CreateStore Demo.prims Demo.docCodec Demo.rng store.bufferWrite [] Demo.dbName
        Demo.pass5
        = (some Demo.theStore, none,
            (crypt.Encrypt Demo.prims Demo.rng
              ((Demo.docCodec.marshal Demo.theStore.storeData).toOption.getD [])
              Demo.pass5).1) ∧
      store.StoreDataVersion Demo.theStore = 1) :=
  ⟨⟨by decide,
      ((store_operations_frame Demo.storeWithThis _ Demo.keyThat Demo.valMore).1
        (Or.inl rfl)).1 Demo.keyThis (by decide)⟩,
    ⟨((store_operations_frame Demo.storeWithThis Demo.storeWithThis Demo.keyThat
        Demo.valMore).2.1 none).1,
      ((store_operations_frame Demo.storeWithThis Demo.storeWithThis Demo.keyThat
        Demo.valMore).2.1 none).2.1⟩,
    ⟨by decide,
      (store_operations_frame Demo.storeWithThis Demo.storeWithThis Demo.keyThat
        Demo.valMore).2.2 Demo.prims Demo.docCodec Demo.rng _ Demo.dbName Demo.pass5
        Demo.theStore rfl⟩⟩

/-- C30: `CreateStoreDataKeyValue` with the non-empty key "this" panics on every
store after `ReplaceStoreData(nil)`, and on the store that a successful `Load`
returns for a document whose data map is `nil`: the assignment writes to a `nil`
map. -/
theorem CreateStoreDataKeyValue_panics_on_nil_map (s : store.Store) :
    store.CreateStoreDataKeyValue (store.ReplaceStoreData s none) Demo.keyThis Demo.valData
      = .panicked ∧
    ∃ loaded, store.Load Demo.prims Demo.docCodec (.ok Demo.bareEnvelope) Demo.pass5
        = .returned (some loaded, none) ∧
      store.CreateStoreDataKeyValue loaded Demo.keyThis Demo.valData = .panicked := by
  refine ⟨?_, ?_⟩
  · have hk : Demo.keyThis ≠ [] := by decide
    simp [store.CreateStoreDataKeyValue, store.ReplaceStoreData, hk]
  · exact ⟨{ Source := none, storeData := Demo.bareDocument, password := Demo.pass5 },
      by decide, by decide⟩

/-- C27 as stated fails: `ReplaceStoreData` on the store that `CreateStore` made
accepts a map with the empty string as a key, and `Load` returns the store of a
document whose name is empty; both stores are reachable by the exposed
operations. -/
theorem empty_key_and_name_reachable :
    (store.CreateStore Demo.prims Demo.docCodec Demo.rng store.bufferWrite [] Demo.dbName
      Demo.pass5).1 = some Demo.theStore ∧
    store.GetStoreDataKeyValue
      (store.ReplaceStoreData Demo.theStore (some [([], Demo.valData)])) []
      = (Demo.valData, none) ∧
    ¬ store.NonEmptyNames (store.ReplaceStoreData Demo.theStore (some [([], Demo.valData)])) ∧
    ∃ loaded, store.Load Demo.prims Demo.docCodec (.ok Demo.bareEnvelope) Demo.pass5
        = .returned (some loaded, none) ∧
      store.GetStoreName loaded = [] ∧ ¬ store.NonEmptyNames loaded := by
  refine ⟨by decide, by decide, ?_, ?_⟩
  · intro h
    have := h.2
    simp [store.ReplaceStoreData, store.mapGet, store.entryOf] at this
  · refine ⟨{ Source := none, storeData := Demo.bareDocument, password := Demo.pass5 },
      by decide, by decide, ?_⟩
    intro h
    exact h.1 rfl

/-- C27, amended: in every store reachable from `CreateStore`, or from a `Load`
that returned a document with a non-empty name and non-empty keys, by
`CreateStoreDataKeyValue`, `UpdateStoreDataKeyValue`, `DeleteStoreDataKey` and
by `ReplaceStoreData` with a map whose keys are non-empty, the name of the
store is non-empty and the empty string is not a key. -/
theorem reachable_store_has_nonempty_names (P : crypt.Primitives) (C : store.StoreCodec)
    (s : store.Store) (h : store.ReachableStore P C s) : store.NonEmptyNames s := by
  induction h with
  | created rng w st st' name password s hc =>
    obtain ⟨hn, hs⟩ := store.CreateStore_ok_inv hc
    subst hs
    exact ⟨hn, rfl⟩
  | loaded source password s _ hne => exact hne
  | create s s' key value err _ hc ih =>
    cases err with
    | some e =>
      rw [store.Create_err_inv hc]
      exact ih
    | none =>
      obtain ⟨hk, l, hl, _, hs'⟩ := store.Create_ok_inv hc
      subst hs'
      refine ⟨ih.1, ?_⟩
      have h0 := ih.2
      simp only [store.mapGet, hl] at h0
      have hk' : ([] : GoString) ≠ key := fun e => hk e.symm
      simp [store.mapGet, store.entryOf_mapSet_ne l value hk', h0]
  | update s key value _ ih =>
    rcases store.Update_inv s key value with ⟨e, hu, _⟩ | ⟨l, current, hl, he, _, hu⟩
    · rw [hu]
      exact ih
    · rw [hu]
      refine ⟨ih.1, ?_⟩
      have h0 := ih.2
      simp only [store.mapGet, hl] at h0
      have hk' : ([] : GoString) ≠ key := by
        intro e
        rw [← e, h0] at he
        exact absurd he (by simp)
      simp [store.mapGet, store.entryOf_mapSet_ne l value hk', h0]
  | delete s key _ ih =>
    rcases store.Delete_inv s key with ⟨hu, _⟩ | ⟨l, current, hl, he, hu⟩
    · rw [hu]
      exact ih
    · rw [hu]
      refine ⟨ih.1, ?_⟩
      have h0 := ih.2
      simp only [store.mapGet, hl] at h0
      have hk' : ([] : GoString) ≠ key := by
        intro e
        rw [← e, h0] at he
        exact absurd he (by simp)
      simp [store.mapGet, store.entryOf_mapDelete_ne l hk', h0]
  | replace s replacement _ hr ih =>
    exact ⟨ih.1, hr⟩

theorem reachable_store_has_nonempty_names_witness :
    store.ReachableStore Demo.prims Demo.docCodec Demo.storeWithThis ∧
    store.NonEmptyNames Demo.storeWithThis :=
  have hr : store.ReachableStore Demo.prims Demo.docCodec Demo.storeWithThis :=
    store.ReachableStore.create Demo.theStore Demo.storeWithThis Demo.keyThis Demo.valData none
      (store.ReachableStore.created Demo.rng store.bufferWrite [] _ Demo.dbName Demo.pass5
        Demo.theStore rfl)
      (by decide)
  ⟨hr, reachable_store_has_nonempty_names Demo.prims Demo.docCodec Demo.storeWithThis hr⟩

/-! ## Renaming and updating items -/

namespace db

/-- What `RetrieveItem` has found when it returns an item. -/
theorem RetrieveItem_ok_inv {IC : ItemCodec} {d : PassDB} {name : GoString} {it : item.Item}
    {e : Option Err} (h : RetrieveItem IC d name = (some it, e)) :
    ∃ value, store.mapGet d.store.storeData.Data name = some value ∧ value ≠ [] ∧
      IC.unmarshal value = .ok it := by
  unfold RetrieveItem at h
  rw [store.Get_eq] at h
  cases hg : store.mapGet d.store.storeData.Data name with
  | none =>
    simp only [hg] at h
    split at h <;> simp at h
  | some value =>
    simp only [hg] at h
    by_cases hv : value = []
    · simp [hv] at h
    · rw [if_neg hv] at h
      cases hu : IC.unmarshal value with
      | error err => simp [hu] at h
      | ok it' =>
        simp only [hu, Prod.mk.injEq, Option.some.injEq] at h
        exact ⟨value, rfl, hv, by rw [hu, h.1]⟩

/-- What `RetrieveItem` returns for a stored value that is not empty. -/
theorem RetrieveItem_of_entry {IC : ItemCodec} {d : PassDB} {name value : GoString}
    (hg : store.mapGet d.store.storeData.Data name = some value) (hv : value ≠ []) :
    RetrieveItem IC d name =
      match IC.unmarshal value with
      | .error err => (none, some err)
      | .ok it => (some it, none) := by
  simp only [RetrieveItem, store.Get_eq, hg, if_neg hv]

/-- With lawful primitives, no failing system call, a passphrase of at least 5
bytes, a random reader with 44 bytes and a document that `json.Marshal` turns
into bytes, `commit` returns nil. -/
theorem commit_clean_succeeds {P : crypt.Primitives} (hP : P.Lawful) (C : store.StoreCodec)
    (rng : Bytes) (d : PassDB) (fs : os.FS) {b : Bytes}
    (hp : 5 ≤ d.store.password.length) (hr : 44 ≤ rng.length)
    (hm : C.marshal d.store.storeData = .ok b) (hb : b ≠ []) :
    (commit P C os.Faults.clean rng d fs).1 = none := by
  obtain ⟨key, _, _, hE⟩ := crypt.Encrypt_eq hP hp hb hr
  simp [commit, os.create, os.write, os.Faults.clean, store.Save, hm, hE]

end db

/-- C22: `RenameItem(current, desired)` returns `ErrCannotRenameToExistingItemName`
when the two names are equal, `ErrItemNameAlreadyInUse` when `current` is stored
and `desired` is the name of another stored item, and an error when `desired`
is the empty string; in each case the `PassDB` and the file system are as
before, so no item was added, removed or altered. -/
theorem RenameItem_rejections (P : crypt.Primitives) (C : store.StoreCodec) (IC : db.ItemCodec)
    (flt : os.Faults) (rng : Bytes) (d : db.PassDB) (current desired : GoString) (fs : os.FS) :
    (current = desired →
      db.RenameItem P C IC flt rng d current desired fs
        = .returned (some .ErrCannotRenameToExistingItemName, d, fs)) ∧
    (current ≠ desired → ∀ a b, store.mapGet d.store.storeData.Data current = some a →
      store.mapGet d.store.storeData.Data desired = some b →
      db.RenameItem P C IC flt rng d current desired fs
        = .returned (some .ErrItemNameAlreadyInUse, d, fs)) ∧
    (desired = [] →
      ∃ e, db.RenameItem P C IC flt rng d current desired fs = .returned (some e, d, fs)) := by
  refine ⟨?_, ?_, ?_⟩
  · intro h
    simp [db.RenameItem, h]
  · intro h a b ha hb
    simp [db.RenameItem, h, store.Get_eq, ha, hb]
  · intro h
    obtain ⟨r, hr⟩ := db.RenameItem_returns P C IC flt rng d current desired fs
    rcases db.RenameItem_inv hr with ⟨h1, h2, h3⟩ | ⟨_, _, _, _, _, hne, _⟩
    · obtain ⟨e, d', fs'⟩ := r
      simp only at h1 h2 h3
      subst h2 h3
      cases e with
      | none => exact absurd rfl h1
      | some e => exact ⟨e, hr⟩
    · exact absurd h hne

theorem RenameItem_rejections_witness :
    (db.RenameItem Demo.prims Demo.docCodec Demo.itemCodec os.Faults.clean Demo.rng
        Demo.passDBWithItem Demo.keyThis Demo.keyThis Demo.fs
      = .returned (some .ErrCannotRenameToExistingItemName, Demo.passDBWithItem, Demo.fs)) ∧
    (Demo.keyThat ≠ Demo.keyThis ∧
      store.mapGet
        (db.withData Demo.passDBWithItem
          [(Demo.keyThat, Demo.valData), (Demo.keyThis, Demo.theItemBytes)]).store.storeData.Data
        Demo.keyThat = some Demo.valData ∧
      store.mapGet
        (db.withData Demo.passDBWithItem
          [(Demo.keyThat, Demo.valData), (Demo.keyThis, Demo.theItemBytes)]).store.storeData.Data
        Demo.keyThis = some Demo.theItemBytes ∧
      db.RenameItem Demo.prims Demo.docCodec Demo.itemCodec os.Faults.clean Demo.rng
        (db.withData Demo.passDBWithItem
          [(Demo.keyThat, Demo.valData), (Demo.keyThis, Demo.theItemBytes)])
        Demo.keyThat Demo.keyThis Demo.fs
      = .returned (some .ErrItemNameAlreadyInUse,
          db.withData Demo.passDBWithItem
            [(Demo.keyThat, Demo.valData), (Demo.keyThis, Demo.theItemBytes)], Demo.fs)) ∧
    (∃ e, db.RenameItem Demo.prims Demo.docCodec Demo.itemCodec os.Faults.clean Demo.rng
        Demo.passDBWithItem Demo.keyThis [] Demo.fs
      = .returned (some e, Demo.passDBWithItem, Demo.fs)) :=
  ⟨(RenameItem_rejections Demo.prims Demo.docCodec Demo.itemCodec os.Faults.clean Demo.rng
      Demo.passDBWithItem Demo.keyThis Demo.keyThis Demo.fs).1 rfl,
    ⟨by decide, by decide, by decide,
      (RenameItem_rejections Demo.prims Demo.docCodec Demo.itemCodec os.Faults.clean Demo.rng
        (db.withData Demo.passDBWithItem
          [(Demo.keyThat, Demo.valData), (Demo.keyThis, Demo.theItemBytes)])
        Demo.keyThat Demo.keyThis Demo.fs).2.1 (by decide) Demo.valData Demo.theItemBytes
        (by decide) (by decide)⟩,
    (RenameItem_rejections Demo.prims Demo.docCodec Demo.itemCodec os.Faults.clean Demo.rng
      Demo.passDBWithItem Demo.keyThis [] Demo.fs).2.2 rfl⟩

/-- C21, amended: for an item codec that gives back every item of well-formed
UTF-8, when `RetrieveItem(current)` returns the item `orig`, the name `desired`
and the strings of `orig` are well-formed UTF-8, and
`RenameItem(current, desired)` returns nil, then `RetrieveItem(current)` returns
`ErrItemDoesNotExist`, `RetrieveItem(desired)` returns `orig` with `desired` as
its `Name` and every other field as it was, every other name has the same entry
and the same `RetrieveItem` as before, and, the keys being distinct as in a Go
map, the number of entries is the same. -/
theorem RenameItem_success (P : crypt.Primitives) (C : store.StoreCodec) (IC : db.ItemCodec)
    (hGB : IC.GivesBackUTF8) (flt : os.Faults) (rng : Bytes) (d : db.PassDB)
    (current desired : GoString) (fs : os.FS)
    (r : Option Err × db.PassDB × os.FS) (orig : item.Item)
    (hret : db.RetrieveItem IC d current = (some orig, none))
    (hv : json.ValidItem { orig with Name := desired })
    (hren : db.RenameItem P C IC flt rng d current desired fs = .returned r)
    (hok : r.1 = none) :
    db.RetrieveItem IC r.2.1 current = (none, some .ErrItemDoesNotExist) ∧
    db.RetrieveItem IC r.2.1 desired = (some { orig with Name := desired }, none) ∧
    (∀ k, k ≠ current → k ≠ desired →
      store.mapGet r.2.1.store.storeData.Data k = store.mapGet d.store.storeData.Data k ∧
      db.RetrieveItem IC r.2.1 k = db.RetrieveItem IC d k) ∧
    (store.DistinctKeys d.store.storeData.Data →
      store.mapLen r.2.1.store.storeData.Data = store.mapLen d.store.storeData.Data) := by
  rcases db.RenameItem_inv hren with ⟨h1, _, _⟩ | ⟨l, retrieved, orig', s, hcd, _, hl, hcur, hdes, hu, hm, hr⟩
  · exact absurd hok h1
  · obtain ⟨value, hg, _, hu'⟩ := db.RetrieveItem_ok_inv hret
    have hval : value = retrieved := by
      simp only [store.mapGet, hl, hcur, Option.some.injEq] at hg
      exact hg.symm
    subst hval
    have horig : orig' = orig := by
      rw [hu] at hu'
      exact Except.ok.inj hu'
    subst horig
    obtain ⟨s2, hm2, hs2, hu2⟩ := hGB _ hv
    have hs : s2 = s := by
      rw [hm] at hm2
      exact (Except.ok.inj hm2).symm
    subst hs
    subst hr
    have hdc : desired ≠ current := fun e => hcd e.symm
    have hdata : (db.withData d (store.mapDelete (store.mapSet l desired s2) current)
        ).store.storeData.Data = some (store.mapDelete (store.mapSet l desired s2) current) := rfl
    refine ⟨?_, ?_, ?_, ?_⟩
    · have hg1 : store.mapGet (db.committed P C flt rng
          (db.withData d (store.mapDelete (store.mapSet l desired s2) current)) fs
          ).2.1.store.storeData.Data current = none := by
        simp [db.committed, hdata, store.mapGet, store.entryOf_mapDelete_self]
      simp [db.RetrieveItem, store.Get_eq, hg1]
    · have hg2 : store.mapGet (db.committed P C flt rng
          (db.withData d (store.mapDelete (store.mapSet l desired s2) current)) fs
          ).2.1.store.storeData.Data desired = some s2 := by
        simp [db.committed, hdata, store.mapGet, store.entryOf_mapDelete_ne _ hdc,
          store.entryOf_mapSet_self]
      rw [db.RetrieveItem_of_entry hg2 hs2, hu2]
    · intro k hk1 hk2
      have hg3 : store.mapGet (db.committed P C flt rng
          (db.withData d (store.mapDelete (store.mapSet l desired s2) current)) fs
          ).2.1.store.storeData.Data k = store.mapGet d.store.storeData.Data k := by
        simp [db.committed, hdata, store.mapGet, hl, store.entryOf_mapDelete_ne _ hk1,
          store.entryOf_mapSet_ne l s2 hk2]
      refine ⟨hg3, ?_⟩
      simp only [db.RetrieveItem, store.Get_eq, hg3]
    · intro hdist
      simp only [store.DistinctKeys, hl] at hdist
      have hlen := store.length_filter_ne_of_present current l hdist (by simp [hcur])
      have hf := store.filter_ne_of_absent desired l hdes
      have key : (List.filter (fun kv : GoString × GoString => decide (kv.1 ≠ current))
          ((desired, s2) :: l)).length = l.length := by
        simpa [List.filter, hdc] using hlen
      simp only [db.committed, hdata, store.mapLen, hl, store.mapDelete, store.mapSet, hf]
      exact key

set_option maxRecDepth 100000 in
theorem RenameItem_success_witness :
    Demo.jsonItem.GivesBackUTF8 ∧
    db.RetrieveItem Demo.jsonItem Demo.passDBWithItemText Demo.keyThis
      = (some Demo.theItem, none) ∧
    json.ValidItem { Demo.theItem with Name := Demo.keyThat } ∧
    store.DistinctKeys Demo.passDBWithItemText.store.storeData.Data ∧
    ∃ r, db.RenameItem Demo.prims Demo.jsonDoc Demo.jsonItem os.Faults.clean Demo.rng
        Demo.passDBWithItemText Demo.keyThis Demo.keyThat Demo.fs = .returned r ∧ r.1 = none ∧
      db.RetrieveItem Demo.jsonItem r.2.1 Demo.keyThis = (none, some .ErrItemDoesNotExist) ∧
      db.RetrieveItem Demo.jsonItem r.2.1 Demo.keyThat
        = (some { Demo.theItem with Name := Demo.keyThat }, none) ∧
      (∀ k, k ≠ Demo.keyThis → k ≠ Demo.keyThat →
        store.mapGet r.2.1.store.storeData.Data k
          = store.mapGet Demo.passDBWithItemText.store.storeData.Data k ∧
        db.RetrieveItem Demo.jsonItem r.2.1 k
          = db.RetrieveItem Demo.jsonItem Demo.passDBWithItemText k) ∧
      store.mapLen r.2.1.store.storeData.Data
        = store.mapLen Demo.passDBWithItemText.store.storeData.Data :=
  have hd : store.DistinctKeys Demo.passDBWithItemText.store.storeData.Data := by
    simp [store.DistinctKeys, Demo.passDBWithItemText]
  have h := RenameItem_success Demo.prims Demo.jsonDoc Demo.jsonItem Demo.jsonItem_givesBackUTF8
    os.Faults.clean Demo.rng Demo.passDBWithItemText Demo.keyThis Demo.keyThat Demo.fs _
    Demo.theItem (by decide) (by decide) rfl (by decide)
  ⟨Demo.jsonItem_givesBackUTF8, by decide, by decide, hd, _, rfl, by decide, h.1, h.2.1,
    h.2.2.1, h.2.2.2 hd⟩

set_option maxRecDepth 100000 in
/-- C21 as stated fails: the item "this" is stored, the name "\xff" is not
empty, differs from "this" and is not in use, and `RenameItem("this", "\xff")`
returns nil; `RetrieveItem("\xff")` then returns an item whose `Name` is U+FFFD,
not the name that was asked for. -/
theorem RenameItem_to_name_not_UTF8 :
    db.RetrieveItem Demo.jsonItem Demo.passDBWithItemText Demo.keyThis
      = (some Demo.theItem, none) ∧
    Demo.notUTF8 ≠ [] ∧ Demo.notUTF8 ≠ Demo.keyThis ∧
    db.RetrieveItem Demo.jsonItem Demo.passDBWithItemText Demo.notUTF8
      = (none, some .ErrItemDoesNotExist) ∧
    ∃ r got, db.RenameItem Demo.prims Demo.jsonDoc Demo.jsonItem os.Faults.clean Demo.rng
        Demo.passDBWithItemText Demo.keyThis Demo.notUTF8 Demo.fs = .returned r ∧ r.1 = none ∧
      db.RetrieveItem Demo.jsonItem r.2.1 Demo.notUTF8 = (some got, none) ∧
      got.Name = json.replacement ∧ got.Name ≠ Demo.notUTF8 :=
  ⟨by decide, by decide, by decide, by decide, _, _, rfl, by decide, rfl, by decide, by decide⟩

/-- C24, amended: `UpdateItem(nil)` returns `ErrInvalidItem`; for an item whose
name is stored, `UpdateItem` returns `ErrItemUnchanged`, with the `PassDB` and
the file system as before, when its serialised form is the stored value;
otherwise it puts the serialised form in place and returns what the commit step
returns, which is nil for lawful primitives, no failing system call, a
passphrase of at least 5 bytes, 44 random bytes and a document `json.Marshal`
accepts, and, for an item codec that gives back every item of well-formed UTF-8
and an item whose strings are well-formed UTF-8, `RetrieveItem` under that name
then returns an item equal to it. -/
theorem UpdateItem_spec (P : crypt.Primitives) (C : store.StoreCodec) (IC : db.ItemCodec)
    (hGB : IC.GivesBackUTF8) (flt : os.Faults) (rng : Bytes) (d : db.PassDB) (fs : os.FS)
    (it : item.Item) (stored s : GoString) :
    db.UpdateItem P C IC flt rng d none fs = (some .ErrInvalidItem, d, fs) ∧
    (store.mapGet d.store.storeData.Data it.Name = some stored → IC.marshal it = .ok stored →
      db.UpdateItem P C IC flt rng d (some it) fs = (some .ErrItemUnchanged, d, fs)) ∧
    (store.mapGet d.store.storeData.Data it.Name = some stored → IC.marshal it = .ok s →
      s ≠ stored →
      ∃ d', db.UpdateItem P C IC flt rng d (some it) fs = db.committed P C flt rng d' fs ∧
        (json.ValidItem it → db.RetrieveItem IC d' it.Name = (some it, none)) ∧
        (P.Lawful → flt = os.Faults.clean → 5 ≤ d.store.password.length → 44 ≤ rng.length →
          (∃ b, C.marshal d'.store.storeData = .ok b ∧ b ≠ []) →
          (db.UpdateItem P C IC flt rng d (some it) fs).1 = none)) := by
  refine ⟨rfl, ?_, ?_⟩
  · intro hg hm
    have hu : store.UpdateStoreDataKeyValue d.store it.Name stored
        = (some .ErrNoChangeToStoreDataKeyValueMade, d.store) := by
      rcases store.Update_inv d.store it.Name stored with
        ⟨e, hu, hcase⟩ | ⟨l, current, hl, he, hne, _⟩
      · rcases hcase with ⟨_, habs⟩ | ⟨he, _⟩
        · rw [hg] at habs
          exact absurd habs (by simp)
        · rw [hu, he]
      · simp only [store.mapGet, hl, he, Option.some.injEq] at hg
        exact absurd hg hne
    simp [db.UpdateItem, store.Get_eq, hg, db.serialiseItem, hm, hu]
  · intro hg hm hne
    rcases store.Update_inv d.store it.Name s with ⟨e, hu, hcase⟩ | ⟨l, current, hl, he, _, hu⟩
    · exfalso
      rcases hcase with ⟨_, habs⟩ | ⟨_, heq⟩
      · rw [hg] at habs
        exact absurd habs (by simp)
      · rw [hg] at heq
        exact hne (Option.some.inj heq).symm
    · have hU : db.UpdateItem P C IC flt rng d (some it) fs
          = db.committed P C flt rng (db.withData d (store.mapSet l it.Name s)) fs := by
        simp [db.UpdateItem, store.Get_eq, hg, db.serialiseItem, hm, hu, db.committed,
          db.withData]
      refine ⟨_, hU, ?_, ?_⟩
      · intro hv
        obtain ⟨s2, hm2, hs2, hu2⟩ := hGB it hv
        have hs : s2 = s := by
          rw [hm] at hm2
          exact (Except.ok.inj hm2).symm
        subst hs
        have hg2 : store.mapGet (db.withData d (store.mapSet l it.Name s2)).store.storeData.Data
            it.Name = some s2 := by
          simp [db.withData, store.mapGet, store.entryOf_mapSet_self]
        rw [db.RetrieveItem_of_entry hg2 hs2, hu2]
      · rintro hP hflt hp hr ⟨b, hb, hbne⟩
        subst hflt
        rw [hU]
        exact db.commit_clean_succeeds hP C rng _ fs hp hr hb hbne

set_option maxRecDepth 100000 in
theorem UpdateItem_spec_witness :
    Demo.jsonItem.GivesBackUTF8 ∧
    (db.UpdateItem Demo.prims Demo.jsonDoc Demo.jsonItem os.Faults.clean Demo.rng
        Demo.passDBWithItemText none Demo.fs
      = (some .ErrInvalidItem, Demo.passDBWithItemText, Demo.fs)) ∧
    (store.mapGet Demo.passDBWithItemText.store.storeData.Data Demo.theItem.Name
        = some Demo.theItemText ∧
      Demo.jsonItem.marshal Demo.theItem = .ok Demo.theItemText ∧
      db.UpdateItem Demo.prims Demo.jsonDoc Demo.jsonItem os.Faults.clean Demo.rng
        Demo.passDBWithItemText (some Demo.theItem) Demo.fs
        = (some .ErrItemUnchanged, Demo.passDBWithItemText, Demo.fs)) ∧
    (∃ s, Demo.jsonItem.marshal Demo.theItemChanged = .ok s ∧ s ≠ Demo.theItemText ∧
      json.ValidItem Demo.theItemChanged ∧
      ∃ d', db.UpdateItem Demo.prims Demo.jsonDoc Demo.jsonItem os.Faults.clean Demo.rng
          Demo.passDBWithItemText (some Demo.theItemChanged) Demo.fs
          = db.committed Demo.prims Demo.jsonDoc os.Faults.clean Demo.rng d' Demo.fs ∧
        db.RetrieveItem Demo.jsonItem d' Demo.theItemChanged.Name
          = (some Demo.theItemChanged, none) ∧
        (db.UpdateItem Demo.prims Demo.jsonDoc Demo.jsonItem os.Faults.clean Demo.rng
          Demo.passDBWithItemText (some Demo.theItemChanged) Demo.fs).1 = none) :=
  ⟨Demo.jsonItem_givesBackUTF8,
    (UpdateItem_spec Demo.prims Demo.jsonDoc Demo.jsonItem Demo.jsonItem_givesBackUTF8
      os.Faults.clean Demo.rng Demo.passDBWithItemText Demo.fs Demo.theItem Demo.theItemText
      Demo.theItemText).1,
    ⟨by decide, rfl,
      (UpdateItem_spec Demo.prims Demo.jsonDoc Demo.jsonItem Demo.jsonItem_givesBackUTF8
        os.Faults.clean Demo.rng Demo.passDBWithItemText Demo.fs Demo.theItem Demo.theItemText
        Demo.theItemText).2.1 (by decide) rfl⟩,
    ⟨_, rfl, by decide, by decide,
      (UpdateItem_spec Demo.prims Demo.jsonDoc Demo.jsonItem Demo.jsonItem_givesBackUTF8
        os.Faults.clean Demo.rng Demo.passDBWithItemText Demo.fs Demo.theItemChanged
        Demo.theItemText _).2.2
        (by decide) rfl (by decide) |>.elim fun d' h =>
          ⟨d', h.1, h.2.1 (by decide),
            h.2.2 Demo.prims_lawful rfl (by decide) (by decide)
              ⟨_, rfl, by simp [Demo.jsonDoc, Demo.textDoc]⟩⟩⟩⟩

set_option maxRecDepth 100000 in
/-- C24 as stated fails: the item "this" is stored, and `UpdateItem` of the item
with the user name "\xff", whose serialised form is not the stored value,
returns nil; `RetrieveItem("this")` then returns an item whose user name is
U+FFFD, which is not the item that was given. -/
theorem UpdateItem_field_not_UTF8 :
    db.RetrieveItem Demo.jsonItem Demo.passDBWithItemText Demo.theItemUserNotUTF8.Name
      = (some Demo.theItem, none) ∧
    (∃ s, Demo.jsonItem.marshal Demo.theItemUserNotUTF8 = .ok s ∧
      store.mapGet Demo.passDBWithItemText.store.storeData.Data Demo.theItemUserNotUTF8.Name
        ≠ some s) ∧
    (db.UpdateItem Demo.prims Demo.jsonDoc Demo.jsonItem os.Faults.clean Demo.rng
      Demo.passDBWithItemText (some Demo.theItemUserNotUTF8) Demo.fs).1 = none ∧
    ∃ got, db.RetrieveItem Demo.jsonItem
        (db.UpdateItem Demo.prims Demo.jsonDoc Demo.jsonItem os.Faults.clean Demo.rng
          Demo.passDBWithItemText (some Demo.theItemUserNotUTF8) Demo.fs).2.1
        Demo.theItemUserNotUTF8.Name = (some got, none) ∧
      got.Username = json.replacement ∧ got ≠ Demo.theItemUserNotUTF8 :=
  ⟨by decide, ⟨_, rfl, by decide⟩, by decide, _, rfl, by decide, by decide⟩

/-! ## Listing, persistence and failed operations -/

/-- C25: `ListAllItems` returns a slice that is not `nil`, with as many names as
the data map has entries; a name is in it exactly when it is a key of the map,
and, the keys being distinct as in a Go map, no name is in it twice; the name of
an item is in the list after a `SaveNewItem` that returned nil, and a name is
not in the list after a `DeleteItem` of it that returned nil. -/
theorem ListAllItems_spec (d : db.PassDB) :
    ∃ names, db.ListAllItems d = some names ∧
      names.length = store.mapLen d.store.storeData.Data ∧
      (∀ k, k ∈ names ↔ (store.mapGet d.store.storeData.Data k).isSome = true) ∧
      (store.DistinctKeys d.store.storeData.Data → names.Nodup) ∧
      (∀ (P : crypt.Primitives) (C : store.StoreCodec) (IC : db.ItemCodec) (flt : os.Faults)
          (rng : Bytes) (it : item.Item) (fs : os.FS) (r : Option Err × db.PassDB × os.FS),
        db.SaveNewItem P C IC flt rng d (some it) fs = .returned r → r.1 = none →
        ∃ after, db.ListAllItems r.2.1 = some after ∧ it.Name ∈ after) ∧
      (∀ (P : crypt.Primitives) (C : store.StoreCodec) (flt : os.Faults) (rng : Bytes)
          (name : GoString) (fs : os.FS),
        (db.DeleteItem P C flt rng d name fs).1 = none →
        ∃ after, db.ListAllItems (db.DeleteItem P C flt rng d name fs).2.1 = some after ∧
          name ∉ after) := by
  have hlist : ∀ d' : db.PassDB, ∀ l, d'.store.storeData.Data = some l →
      db.ListAllItems d' = some (l.map (fun kv => kv.1)) := by
    intro d' l hl
    simp [db.ListAllItems, store.GetAllStoreDataKeyValues, hl]
  have hsave : ∀ (P : crypt.Primitives) (C : store.StoreCodec) (IC : db.ItemCodec)
      (flt : os.Faults) (rng : Bytes) (it : item.Item) (fs : os.FS)
      (r : Option Err × db.PassDB × os.FS),
      db.SaveNewItem P C IC flt rng d (some it) fs = .returned r → r.1 = none →
      ∃ after, db.ListAllItems r.2.1 = some after ∧ it.Name ∈ after := by
    intro P C IC flt rng it fs r hr hok
    rcases db.SaveNewItem_inv hr with ⟨h1, _, _⟩ | ⟨it', s, l, hit, _, _, _, _, hres⟩
    · exact absurd hok h1
    · simp only [Option.some.injEq] at hit
      subst hit
      subst hres
      refine ⟨_, hlist _ _ rfl, ?_⟩
      rw [store.mem_keys_iff, store.entryOf_mapSet_self]
      rfl
  have hdelete : ∀ (P : crypt.Primitives) (C : store.StoreCodec) (flt : os.Faults) (rng : Bytes)
      (name : GoString) (fs : os.FS),
      (db.DeleteItem P C flt rng d name fs).1 = none →
      ∃ after, db.ListAllItems (db.DeleteItem P C flt rng d name fs).2.1 = some after ∧
        name ∉ after := by
    intro P C flt rng name fs hok
    rcases db.DeleteItem_inv P C flt rng d name fs with ⟨h1, _, _⟩ | ⟨l, _, _, _, hres⟩
    · exact absurd hok h1
    · rw [hres]
      refine ⟨_, hlist _ _ rfl, ?_⟩
      rw [store.mem_keys_iff, store.entryOf_mapDelete_self]
      simp
  cases hd : d.store.storeData.Data with
  | none =>
    refine ⟨[], by simp [db.ListAllItems, store.GetAllStoreDataKeyValues, hd], rfl, ?_, ?_,
      hsave, hdelete⟩
    · intro k
      simp [store.mapGet]
    · intro _
      exact List.nodup_nil
  | some l =>
    refine ⟨l.map (fun kv => kv.1), hlist d l hd, by simp [store.mapLen], ?_, ?_,
      hsave, hdelete⟩
    · intro k
      simpa [store.mapGet] using store.mem_keys_iff k l
    · intro hdist
      simpa [store.DistinctKeys] using hdist

theorem ListAllItems_spec_witness :
    store.DistinctKeys Demo.passDBWithItem.store.storeData.Data ∧
    (store.mapGet Demo.passDBWithItem.store.storeData.Data Demo.keyThis).isSome = true ∧
    (∃ r, db.SaveNewItem Demo.prims Demo.docCodec Demo.itemCodec os.Faults.clean Demo.rng
        Demo.passDBWithItem (some Demo.theItemRenamed) Demo.fs = .returned r ∧ r.1 = none) ∧
    (db.DeleteItem Demo.prims Demo.docCodec os.Faults.clean Demo.rng Demo.passDBWithItem
      Demo.keyThis Demo.fs).1 = none ∧
    ∃ names, db.ListAllItems Demo.passDBWithItem = some names ∧
      names.length = store.mapLen Demo.passDBWithItem.store.storeData.Data ∧
      (∀ k, k ∈ names ↔ (store.mapGet Demo.passDBWithItem.store.storeData.Data k).isSome = true) ∧
      names.Nodup ∧
      (∀ r, db.SaveNewItem Demo.prims Demo.docCodec Demo.itemCodec os.Faults.clean Demo.rng
          Demo.passDBWithItem (some Demo.theItemRenamed) Demo.fs = .returned r → r.1 = none →
        ∃ after, db.ListAllItems r.2.1 = some after ∧ Demo.theItemRenamed.Name ∈ after) ∧
      ∃ after, db.ListAllItems (db.DeleteItem Demo.prims Demo.docCodec os.Faults.clean Demo.rng
          Demo.passDBWithItem Demo.keyThis Demo.fs).2.1 = some after ∧ Demo.keyThis ∉ after :=
  have hd : store.DistinctKeys Demo.passDBWithItem.store.storeData.Data := by
    simp [store.DistinctKeys, Demo.passDBWithItem, Demo.storeWithItem]
  ⟨hd, by decide, ⟨_, rfl, by decide⟩, by decide,
    (ListAllItems_spec Demo.passDBWithItem).elim fun names h =>
      ⟨names, h.1, h.2.1, h.2.2.1, h.2.2.2.1 hd,
        fun r => h.2.2.2.2.1 Demo.prims Demo.docCodec Demo.itemCodec os.Faults.clean Demo.rng
          Demo.theItemRenamed Demo.fs r,
        h.2.2.2.2.2 Demo.prims Demo.docCodec os.Faults.clean Demo.rng Demo.keyThis Demo.fs
          (by decide)⟩⟩

/-- C23, amended: with lawful primitives, no failing system call and a codec that
gives back every document of well-formed UTF-8, after `SaveNewItem`,
`UpdateItem`, `RenameItem` or `DeleteItem` has returned nil on a `PassDB` whose
name, keys and values are then well-formed UTF-8, no file is left at
`path + ".tmp"` and `LoadExistingPassDB` on `db.path` with the passphrase of the
`PassDB` succeeds and yields a store with the name and the entries that are in
memory; after `DeleteItem(name)` the reloaded store has no entry for `name`. -/
theorem successful_operation_is_persisted (P : crypt.Primitives) (hP : P.Lawful)
    (C : store.StoreCodec) (hC : C.GivesBackUTF8) (IC : db.ItemCodec) (rng : Bytes)
    (d : db.PassDB) (fs : os.FS) :
    (∀ passItem r, db.SaveNewItem P C IC os.Faults.clean rng d passItem fs = .returned r →
      r.1 = none → json.ValidDoc r.2.1.store.storeData → db.Persisted P C r.2.1 r.2.2) ∧
    (∀ passItem, (db.UpdateItem P C IC os.Faults.clean rng d passItem fs).1 = none →
      json.ValidDoc (db.UpdateItem P C IC os.Faults.clean rng d passItem fs).2.1.store.storeData →
      db.Persisted P C (db.UpdateItem P C IC os.Faults.clean rng d passItem fs).2.1
        (db.UpdateItem P C IC os.Faults.clean rng d passItem fs).2.2) ∧
    (∀ current desired r,
      db.RenameItem P C IC os.Faults.clean rng d current desired fs = .returned r →
      r.1 = none → json.ValidDoc r.2.1.store.storeData → db.Persisted P C r.2.1 r.2.2) ∧
    (∀ name, (db.DeleteItem P C os.Faults.clean rng d name fs).1 = none →
      json.ValidDoc (db.DeleteItem P C os.Faults.clean rng d name fs).2.1.store.storeData →
      db.Persisted P C (db.DeleteItem P C os.Faults.clean rng d name fs).2.1
        (db.DeleteItem P C os.Faults.clean rng d name fs).2.2 ∧
      ∀ loaded, db.LoadExistingPassDB P C d.path d.store.password
          (db.DeleteItem P C os.Faults.clean rng d name fs).2.2 = .returned (some loaded, none) →
        store.mapGet loaded.store.storeData.Data name = none) := by
  have hcommitted : ∀ d' : db.PassDB,
      (db.committed P C os.Faults.clean rng d' fs).1 = none →
      json.ValidDoc (db.committed P C os.Faults.clean rng d' fs).2.1.store.storeData →
      db.Persisted P C (db.committed P C os.Faults.clean rng d' fs).2.1
        (db.committed P C os.Faults.clean rng d' fs).2.2 := by
    intro d' hok hV
    exact db.commit_clean_ok hP C rng d' fs (hC _ hV) hok
  refine ⟨?_, ?_, ?_, ?_⟩
  · intro passItem r hr hok hV
    rcases db.SaveNewItem_inv hr with ⟨h1, _, _⟩ | ⟨_, _, _, _, _, _, _, _, hres⟩
    · exact absurd hok h1
    · subst hres
      exact hcommitted _ hok hV
  · intro passItem hok hV
    rcases db.UpdateItem_inv P C IC os.Faults.clean rng d passItem fs with
      ⟨h1, _, _⟩ | ⟨_, _, _, _, _, _, _, _, _, hres⟩
    · exact absurd hok h1
    · rw [hres] at hok hV ⊢
      exact hcommitted _ hok hV
  · intro current desired r hr hok hV
    rcases db.RenameItem_inv hr with ⟨h1, _, _⟩ | ⟨_, _, _, _, _, _, _, _, _, _, _, hres⟩
    · exact absurd hok h1
    · subst hres
      exact hcommitted _ hok hV
  · intro name hok hV
    rcases db.DeleteItem_inv P C os.Faults.clean rng d name fs with
      ⟨h1, _, _⟩ | ⟨l, _, _, _, hres⟩
    · exact absurd hok h1
    · rw [hres] at hok hV ⊢
      have hp := hcommitted _ hok hV
      refine ⟨hp, ?_⟩
      intro loaded hload
      obtain ⟨_, loaded', hload', _, hsame⟩ := hp
      have hl : loaded' = loaded := by
        have h2 : db.LoadExistingPassDB P C d.path d.store.password
            (db.committed P C os.Faults.clean rng
              (db.withData d (store.mapDelete l name)) fs).2.2
            = .returned (some loaded', none) := hload'
        rw [hload] at h2
        simp only [Outcome.returned.injEq, Prod.mk.injEq, Option.some.injEq, and_true] at h2
        exact h2.symm
      subst hl
      have := hsame.2 name
      simp only [store.GetAllStoreDataKeyValues] at this
      rw [this]
      simp [db.committed, db.withData, store.mapGet, store.entryOf_mapDelete_self]

set_option maxRecDepth 100000 in
theorem successful_operation_is_persisted_witness :
    Demo.prims.Lawful ∧ Demo.jsonDoc.GivesBackUTF8 ∧
    (∃ r, db.SaveNewItem Demo.prims Demo.jsonDoc Demo.jsonItem os.Faults.clean Demo.rng
        Demo.passDBWithItemText (some Demo.theItemRenamed) Demo.fs = .returned r ∧ r.1 = none ∧
      json.ValidDoc r.2.1.store.storeData ∧
      db.Persisted Demo.prims Demo.jsonDoc r.2.1 r.2.2) ∧
    ((db.UpdateItem Demo.prims Demo.jsonDoc Demo.jsonItem os.Faults.clean Demo.rng
        Demo.passDBWithItemText (some Demo.theItemChanged) Demo.fs).1 = none ∧
      db.Persisted Demo.prims Demo.jsonDoc
        (db.UpdateItem Demo.prims Demo.jsonDoc Demo.jsonItem os.Faults.clean Demo.rng
          Demo.passDBWithItemText (some Demo.theItemChanged) Demo.fs).2.1
        (db.UpdateItem Demo.prims Demo.jsonDoc Demo.jsonItem os.Faults.clean Demo.rng
          Demo.passDBWithItemText (some Demo.theItemChanged) Demo.fs).2.2) ∧
    (∃ r, db.RenameItem Demo.prims Demo.jsonDoc Demo.jsonItem os.Faults.clean Demo.rng
        Demo.passDBWithItemText Demo.keyThis Demo.keyThat Demo.fs = .returned r ∧ r.1 = none ∧
      db.Persisted Demo.prims Demo.jsonDoc r.2.1 r.2.2) ∧
    ((db.DeleteItem Demo.prims Demo.jsonDoc os.Faults.clean Demo.rng Demo.passDBWithItemText
        Demo.keyThis Demo.fs).1 = none ∧
      db.Persisted Demo.prims Demo.jsonDoc
        (db.DeleteItem Demo.prims Demo.jsonDoc os.Faults.clean Demo.rng Demo.passDBWithItemText
          Demo.keyThis Demo.fs).2.1
        (db.DeleteItem Demo.prims Demo.jsonDoc os.Faults.clean Demo.rng Demo.passDBWithItemText
          Demo.keyThis Demo.fs).2.2) :=
  have h := successful_operation_is_persisted Demo.prims Demo.prims_lawful Demo.jsonDoc
    Demo.jsonDoc_givesBackUTF8 Demo.jsonItem Demo.rng Demo.passDBWithItemText Demo.fs
  ⟨Demo.prims_lawful, Demo.jsonDoc_givesBackUTF8,
    ⟨_, rfl, by decide, by decide,
      h.1 (some Demo.theItemRenamed) _ rfl (by decide) (by decide)⟩,
    ⟨by decide, h.2.1 (some Demo.theItemChanged) (by decide) (by decide)⟩,
    ⟨_, rfl, by decide, h.2.2.1 Demo.keyThis Demo.keyThat _ rfl (by decide) (by decide)⟩,
    ⟨by decide, (h.2.2.2 Demo.keyThis (by decide) (by decide)).1⟩⟩

set_option maxRecDepth 100000 in
/-- C23 as stated fails: with no failing system call, `SaveNewItem` of an item
named "\xff" returns nil and `LoadExistingPassDB` on the file succeeds, but the
reloaded store is not the one in memory: in memory the item is under the key
"\xff", in the reloaded store that key has nothing and the item is under
U+FFFD. -/
theorem persisted_key_not_UTF8_differs :
    ∃ r loaded, db.SaveNewItem Demo.prims Demo.jsonDoc Demo.jsonItem os.Faults.clean Demo.rng
        Demo.passDB (some Demo.itemNotUTF8) Demo.fs = .returned r ∧ r.1 = none ∧
      db.LoadExistingPassDB Demo.prims Demo.jsonDoc r.2.1.path r.2.1.store.password r.2.2
        = .returned (some loaded, none) ∧
      store.mapGet r.2.1.store.storeData.Data Demo.notUTF8 ≠ none ∧
      store.mapGet loaded.store.storeData.Data Demo.notUTF8 = none ∧
      store.mapGet loaded.store.storeData.Data json.replacement
        = store.mapGet r.2.1.store.storeData.Data Demo.notUTF8 :=
  ⟨_, _, rfl, by decide, rfl, by decide, by decide, by decide⟩

set_option maxRecDepth 100000 in
/-- C26: when `os.Create` of the temporary file fails, `RenameItem("this", "that")`
on a `PassDB` that holds "this" returns that error, yet the `PassDB` in memory
is not the one from before the call: the change was not aborted, "this" is gone
and "that" is there. `SaveNewItem`, `DeleteItem` and `UpdateItem` do the same:
each returns the error of the commit step and leaves the item added, deleted or
replaced in memory. -/
theorem failed_commit_leaves_memory_changed :
    (db.RetrieveItem Demo.itemCodec Demo.passDBWithItem Demo.keyThis
        = (some Demo.theItem, none) ∧
      db.RetrieveItem Demo.itemCodec Demo.passDBWithItem Demo.keyThat
        = (none, some .ErrItemDoesNotExist) ∧
      ∃ r, db.RenameItem Demo.prims Demo.docCodec Demo.itemCodec Demo.createFails Demo.rng
          Demo.passDBWithItem Demo.keyThis Demo.keyThat Demo.fs = .returned r ∧
        r.1 = some (.external 13) ∧ r.2.1 ≠ Demo.passDBWithItem ∧
        db.RetrieveItem Demo.itemCodec r.2.1 Demo.keyThis = (none, some .ErrItemDoesNotExist) ∧
        db.RetrieveItem Demo.itemCodec r.2.1 Demo.keyThat
          = (some Demo.theItemRenamed, none)) ∧
    (db.RetrieveItem Demo.itemCodec Demo.passDB Demo.keyThis
        = (none, some .ErrItemDoesNotExist) ∧
      ∃ r, db.SaveNewItem Demo.prims Demo.docCodec Demo.itemCodec Demo.createFails Demo.rng
          Demo.passDB (some Demo.theItem) Demo.fs = .returned r ∧
        r.1 = some (.external 13) ∧ r.2.1 ≠ Demo.passDB ∧
        db.RetrieveItem Demo.itemCodec r.2.1 Demo.keyThis = (some Demo.theItem, none)) ∧
    ((db.DeleteItem Demo.prims Demo.docCodec Demo.createFails Demo.rng Demo.passDBWithItem
        Demo.keyThis Demo.fs).1 = some (.external 13) ∧
      db.RetrieveItem Demo.itemCodec
        (db.DeleteItem Demo.prims Demo.docCodec Demo.createFails Demo.rng Demo.passDBWithItem
          Demo.keyThis Demo.fs).2.1 Demo.keyThis = (none, some .ErrItemDoesNotExist)) ∧
    ((db.UpdateItem Demo.prims Demo.docCodec Demo.itemCodec Demo.createFails Demo.rng
        Demo.passDBWithItem (some Demo.theItemChanged) Demo.fs).1 = some (.external 13) ∧
      db.RetrieveItem Demo.itemCodec
        (db.UpdateItem Demo.prims Demo.docCodec Demo.itemCodec Demo.createFails Demo.rng
          Demo.passDBWithItem (some Demo.theItemChanged) Demo.fs).2.1 Demo.keyThis
        = (some Demo.theItemChanged, none)) :=
  ⟨⟨by decide, by decide, _, rfl, by decide, by decide, by decide, by decide⟩,
    ⟨by decide, _, rfl, by decide, by decide, by decide⟩,
    ⟨by decide, by decide⟩, ⟨by decide, by decide⟩⟩

/-! ## Every key is the name of its item -/

namespace db

/-- The store of a `PassDB` that `CreatePassDB` returned has an empty map. -/
theorem CreatePassDB_ok_inv {P : crypt.Primitives} {C : store.StoreCodec} {flt : os.Faults}
    {rng : Bytes} {path name password : GoString} {fs fs' : os.FS} {d : PassDB}
    {e : Option Err}
    (h : CreatePassDB P C flt rng path name password fs = (some d, e, fs')) :
    d.store.storeData.Data = some [] := by
  unfold CreatePassDB at h
  rcases hf : createDBLocalFile flt path fs with ⟨_ | err, fs1⟩
  · simp only [hf] at h
    rcases hc : store.CreateStore P C rng (os.write flt path) fs1 name password with
      ⟨_ | st, _ | err, fs2⟩
    · simp [hc] at h
    · simp [hc] at h
    · simp only [hc, Prod.mk.injEq, Option.some.injEq] at h
      obtain ⟨_, hs⟩ := store.CreateStore_ok_inv hc
      rw [← h.1, hs]
    · simp [hc] at h
  · simp [hf] at h

theorem namesMatch_withData_mapSet {IC : ItemCodec} {d : PassDB}
    {l : List (GoString × GoString)} {it : item.Item} {s : GoString}
    (hl : d.store.storeData.Data = some l) (hm : IC.marshal it = .ok s)
    (h : NamesMatch IC d) : NamesMatch IC (withData d (store.mapSet l it.Name s)) := by
  intro key value hg
  by_cases hk : key = it.Name
  · subst hk
    have : value = s := by
      simpa [withData, store.mapGet, store.entryOf_mapSet_self] using hg.symm
    subst this
    exact ⟨it, hm, rfl⟩
  · apply h key value
    simpa [withData, store.mapGet, hl, store.entryOf_mapSet_ne l s hk] using hg

theorem namesMatch_withData_mapDelete {IC : ItemCodec} {d : PassDB}
    {l : List (GoString × GoString)} {name : GoString}
    (hl : d.store.storeData.Data = some l)
    (h : NamesMatch IC d) : NamesMatch IC (withData d (store.mapDelete l name)) := by
  intro key value hg
  by_cases hk : key = name
  · subst hk
    simp [withData, store.mapGet, store.entryOf_mapDelete_self] at hg
  · apply h key value
    simpa [withData, store.mapGet, hl, store.entryOf_mapDelete_ne l hk] using hg

end db

/-- C29, amended: in every `PassDB` reachable from `CreatePassDB` by `SaveNewItem`,
`UpdateItem`, `RenameItem` and `DeleteItem`, each key `k` of the data map maps
to what `json.Marshal` wrote for an item whose `Name` is `k`; and when the
strings of that item are well-formed UTF-8, for an item codec that gives back
every such item, `RetrieveItem(k)` returns that item, whose `Name` is `k`. -/
theorem reachable_passdb_names_match (P : crypt.Primitives) (C : store.StoreCodec)
    (IC : db.ItemCodec) (d : db.PassDB) (h : db.ReachablePassDB P C IC d) :
    db.NamesMatch IC d ∧
    ∀ k v, store.mapGet d.store.storeData.Data k = some v →
      ∃ it : item.Item, IC.marshal it = .ok v ∧ it.Name = k ∧
        (IC.GivesBackUTF8 → json.ValidItem it → db.RetrieveItem IC d k = (some it, none)) := by
  have hmatch : db.NamesMatch IC d := by
    induction h with
    | created flt rng path name password fs fs' d hc =>
      intro key value hg
      rw [db.CreatePassDB_ok_inv hc] at hg
      simp [store.mapGet, store.entryOf] at hg
    | saveNewItem flt rng d passItem fs r _ hr ih =>
      rcases db.SaveNewItem_inv hr with ⟨_, h2, _⟩ | ⟨it, s, l, _, hm, _, hl, _, hres⟩
      · rw [h2]
        exact ih
      · subst hres
        exact db.namesMatch_withData_mapSet hl hm ih
    | updateItem flt rng d passItem fs _ ih =>
      rcases db.UpdateItem_inv P C IC flt rng d passItem fs with
        ⟨_, h2, _⟩ | ⟨it, s, l, _, _, hm, hl, _, _, hres⟩
      · rw [h2]
        exact ih
      · rw [hres]
        exact db.namesMatch_withData_mapSet hl hm ih
    | renameItem flt rng d current desired fs r _ hr ih =>
      rcases db.RenameItem_inv hr with
        ⟨_, h2, _⟩ | ⟨l, retrieved, orig, s, _, _, hl, _, _, _, hm, hres⟩
      · rw [h2]
        exact ih
      · subst hres
        have h1 : db.NamesMatch IC (db.withData d (store.mapSet l desired s)) :=
          @db.namesMatch_withData_mapSet IC d l { orig with Name := desired } s hl hm ih
        exact @db.namesMatch_withData_mapDelete IC (db.withData d (store.mapSet l desired s))
          (store.mapSet l desired s) current rfl h1
    | deleteItem flt rng d name fs _ ih =>
      rcases db.DeleteItem_inv P C flt rng d name fs with ⟨_, h2, _⟩ | ⟨l, _, hl, _, hres⟩
      · rw [h2]
        exact ih
      · rw [hres]
        exact db.namesMatch_withData_mapDelete hl ih
  refine ⟨hmatch, ?_⟩
  intro k v hg
  obtain ⟨it, hm, hname⟩ := hmatch k v hg
  refine ⟨it, hm, hname, ?_⟩
  intro hGB hv
  obtain ⟨s, hm2, hs, hu⟩ := hGB it hv
  have hsv : s = v := by
    rw [hm] at hm2
    exact (Except.ok.inj hm2).symm
  subst hsv
  rw [db.RetrieveItem_of_entry hg hs, hu]

set_option maxRecDepth 100000 in
theorem reachable_passdb_names_match_witness :
    ∃ d, db.ReachablePassDB Demo.prims Demo.jsonDoc Demo.jsonItem d ∧
      store.mapGet d.store.storeData.Data Demo.keyThis = some Demo.theItemText ∧
      Demo.jsonItem.GivesBackUTF8 ∧ json.ValidItem Demo.theItem ∧
      db.RetrieveItem Demo.jsonItem d Demo.keyThis = (some Demo.theItem, none) ∧
      db.NamesMatch Demo.jsonItem d ∧
      ∀ k v, store.mapGet d.store.storeData.Data k = some v →
        ∃ it : item.Item, Demo.jsonItem.marshal it = .ok v ∧ it.Name = k ∧
          (Demo.jsonItem.GivesBackUTF8 → json.ValidItem it →
            db.RetrieveItem Demo.jsonItem d k = (some it, none)) :=
  have h0 : db.ReachablePassDB Demo.prims Demo.jsonDoc Demo.jsonItem Demo.passDB :=
    db.ReachablePassDB.created os.Faults.clean Demo.rng Demo.dbName Demo.dbName Demo.pass5
      Demo.noFiles _ Demo.passDB rfl
  have h1 : db.ReachablePassDB Demo.prims Demo.jsonDoc Demo.jsonItem Demo.passDBWithItemText :=
    db.ReachablePassDB.saveNewItem os.Faults.clean Demo.rngAlt Demo.passDB
      (some Demo.theItem) Demo.noFiles
      (none, Demo.passDBWithItemText,
        (db.commit Demo.prims Demo.jsonDoc os.Faults.clean Demo.rngAlt Demo.passDBWithItemText
          Demo.noFiles).2) h0 rfl
  ⟨Demo.passDBWithItemText, h1, by decide, Demo.jsonItem_givesBackUTF8, by decide, by decide,
    (reachable_passdb_names_match Demo.prims Demo.jsonDoc Demo.jsonItem _ h1).1,
    (reachable_passdb_names_match Demo.prims Demo.jsonDoc Demo.jsonItem _ h1).2⟩

set_option maxRecDepth 100000 in
/-- C29 as stated fails: `CreatePassDB` and then `SaveNewItem` of an item named
"\xff" give a `PassDB` in which the key "\xff" maps to a serialised item whose
`Name`, as `RetrieveItem("\xff")` returns it, is U+FFFD and not the key. -/
theorem reachable_passdb_name_not_UTF8 :
    ∃ d v got, db.ReachablePassDB Demo.prims Demo.jsonDoc Demo.jsonItem d ∧
      store.mapGet d.store.storeData.Data Demo.notUTF8 = some v ∧
      Demo.jsonItem.unmarshal v = .ok got ∧
      db.RetrieveItem Demo.jsonItem d Demo.notUTF8 = (some got, none) ∧
      got.Name = json.replacement ∧ got.Name ≠ Demo.notUTF8 :=
  have h0 : db.ReachablePassDB Demo.prims Demo.jsonDoc Demo.jsonItem Demo.passDB :=
    db.ReachablePassDB.created os.Faults.clean Demo.rng Demo.dbName Demo.dbName Demo.pass5
      Demo.noFiles _ Demo.passDB rfl
  have h1 := db.ReachablePassDB.saveNewItem os.Faults.clean Demo.rngAlt Demo.passDB
      (some Demo.itemNotUTF8) Demo.noFiles
      (db.committed Demo.prims Demo.jsonDoc os.Faults.clean Demo.rngAlt
        (db.withData Demo.passDB
          [(Demo.notUTF8, ((Demo.jsonItem.marshal Demo.itemNotUTF8).toOption).getD [])])
        Demo.noFiles) h0 rfl
  ⟨_, _, _, h1, rfl, rfl, by decide, by decide, by decide⟩

end SimplePass
